import Mathlib

/-!
The local resource pool of reflow (`local/pool.go`).

A shallow embedding of the pool manager and of the alloc lifecycle, of the
requirements model and of the section arithmetic of
`internal/execimage/execimage.go`, followed by the properties the
specification states about them.

Modelling conventions.

* Go `float64` resource quantities are exact rationals (`ℚ`): rounding is not
  modelled.  The type `reflow.Resources` and its methods are modelled from the
  specification and from `TestResources`.
* `time.Time` and `time.Duration` are integers counting nanoseconds; the zero
  `time.Time` is `0`.  One call of an operation observes one instant `now`.
* Go maps are association lists.  The order of a list is the order in which
  `range` visits the map; theorems quantify over every list, hence over every
  iteration order.
* `*alloc` pointers are addresses (`Nat`) into an explicit heap, so that the
  identity comparison `p.allocs[a.id] != a` is a comparison of addresses.
* What the operating system, the executor and the random source answer is an
  explicit input of each operation.
* The pool mutex makes each operation atomic; operations are modelled
  sequentially.
-/

namespace Reflow

/-! ## Go maps as association lists -/

/-- Go map assignment `m[k] = v`. -/
def mapInsert {β : Type} (m : List (String × β)) (k : String) (v : β) : List (String × β) :=
  (k, v) :: m.filter (fun e => e.1 != k)

/-- Go `delete(m, k)`. -/
def mapDelete {β : Type} (m : List (String × β)) (k : String) : List (String × β) :=
  m.filter (fun e => e.1 != k)

/-! ## Resource vectors -/

/-- Modelled from the spec: the type `reflow.Resources` (its declaration and
methods are not among the sources).  A mapping from resource name to quantity;
missing keys read as zero. -/
abbrev Resources := List (String × ℚ)

namespace Resources

/-- The dimensions present in a resource vector. -/
def keys (r : Resources) : List String := r.map Prod.fst

/-- Go map indexing `r[k]`: a missing key reads as zero. -/
def get (r : Resources) (k : String) : ℚ := (r.lookup k).getD 0

/-- Modelled from the spec: `Set`, which makes the receiver a copy of `s`. -/
def Set (s : Resources) : Resources := s

/-- Modelled from the spec: componentwise `Add`; the result has the union of
the dimensions of its inputs. -/
def Add (x y : Resources) : Resources :=
  ((x.keys ++ y.keys).dedup).map fun k => (k, x.get k + y.get k)

/-- Modelled from the spec: componentwise `Sub`; negative results are
permitted. -/
def Sub (x y : Resources) : Resources :=
  ((x.keys ++ y.keys).dedup).map fun k => (k, x.get k - y.get k)

/-- Modelled from the spec: `r.Available(s)`, for every dimension present in
`s` the value of `r` is at least the value of `s`. -/
def Available (r s : Resources) : Bool :=
  s.keys.all fun k => decide (s.get k ≤ r.get k)

end Resources

/-! ## Constants of `pool.go` -/

/-- One second, in nanoseconds (`time.Second`). -/
def second : Int := 1000000000

/-- The constant `keepaliveInterval = 1 * time.Minute`. -/
def keepaliveInterval : Int := 60 * second

/-- The constant `maxKeepaliveInterval = 2 * time.Hour`. -/
def maxKeepaliveInterval : Int := 2 * 3600 * second

/-- The constant `offerID = "1"`. -/
def offerID : String := "1"

/-! ## Data model -/

/-- The errors the pool returns. -/
inductive Error where
  /-- The error `errors.Errorf("alloc %v: shutting down", meta)`. -/
  | shuttingDown
  /-- The error `errors.E("alloc", errors.NotExist, errOfferExpired)`. -/
  | offerExpired
  /-- The error `errors.E("keepalive", ..., errors.NotExist, errAllocExpired)`. -/
  | allocExpired
  /-- An error of the operating system or of the executor, passed on verbatim. -/
  | other (code : Nat)
  deriving DecidableEq, Repr

deriving instance DecidableEq for Except

/-- The part of `pool.AllocMeta` the pool reads: the requested resources. -/
structure AllocMeta where
  Want : Resources
  deriving DecidableEq, Repr

/-- The mutable state of an `alloc` object. `resources` is the field of the
embedded executor that `configure` latches. -/
structure alloc where
  id : String
  resources : Resources
  created : Int
  expires : Int
  lastKeepalive : Int
  freed : Bool
  deriving DecidableEq, Repr

/-- The fields of `Pool` that the pool logic reads and writes. `allocs` maps an
id to the address of its alloc. -/
structure Pool where
  allocs : List (String × Nat)
  resources : Resources
  stopped : Bool
  deriving DecidableEq, Repr

/-- A pool together with the objects it points to and its surroundings: the
heap of allocs, the next unused address, the contents of `state.json`
(`none` when the file does not exist) and the log of `Kill` invocations. -/
structure World where
  pool : Pool
  heap : Nat → alloc
  brk : Nat
  stateJson : Option (List (String × Resources))
  kills : List Nat

/-- The type `offer` without its back-reference to the pool. -/
structure offer where
  id : String
  resources : Resources
  deriving DecidableEq, Repr

/-! ## Alloc lease clock -/

/-- The method `alloc.expired`: `a.expires.Before(time.Now())`. -/
def alloc.expired (a : alloc) (now : Int) : Bool := decide (a.expires < now)

/-- The method `alloc.expiredBy`: `time.Now().Sub(a.expires)`. -/
def alloc.expiredBy (a : alloc) (now : Int) : Int := now - a.expires

/-! ## Pool manager -/

/-- The method `Pool.detectDiskSize`. `stat` is the answer of `fs.Stat(root)`:
the total size of the file system, or `none` on error. -/
def Pool.detectDiskSize (p : Pool) (stat : Option Nat) : Pool :=
  let diskSize : ℚ :=
    match p.resources.lookup "disk" with
    | some existing => existing
    | none => 2000000000000
  match stat with
  | some total => { p with resources := mapInsert p.resources "disk" (total : ℚ) }
  | none => { p with resources := mapInsert p.resources "disk" diskSize }

/-- The method `Pool.Resources`: refreshes the disk size and returns a copy of
the total. -/
def Pool.Resources (p : Pool) (stat : Option Nat) : Pool × Resources :=
  let p1 := p.detectDiskSize stat
  (p1, Resources.Set p1.resources)

/-- The method `Pool.saveState`. `create` is the error of `os.Create`, `encode`
the error of `Encode` (an error number, `none` for success). When encoding
fails the file is removed and `nil` is returned all the same. -/
def Pool.saveState (w : World) (create encode : Option Nat) : World × Option Error :=
  match create with
  | some err => (w, some (.other err))
  | none =>
    let allocs := w.pool.allocs.map fun e => (e.1, (w.heap e.2).resources)
    match encode with
    | some _ => ({ w with stateJson := none }, none)
    | none => ({ w with stateJson := some allocs }, none)

/-- The inner loop of `Pool.new` that finds the index of the most overdue
alloc: `for i := 1; i < len(expired); i++`, where `rest` holds
`expired[i:]`. -/
def maxLoop (eb : Nat → Int) (expired : List Nat) : List Nat → Nat → Nat → Nat
  | [], _, max => max
  | x :: rest, i, max =>
    maxLoop eb expired rest (i + 1) (if eb x > eb (expired.getD max 0) then i else max)

/-- The variables of the reclamation loop of `Pool.new` when it is left.
`collect` is `collect[:n]`: the slice `collect` shares its backing array with
`expired`, and each round swaps the chosen alloc to the front of `expired`
before reslicing, so the first `n` cells hold the chosen allocs in the order
they were chosen. -/
structure Reclaim where
  free : Resources
  used : Resources
  expired : List Nat
  collect : List Nat

/-- The reclamation loop of `Pool.new`. `eb` is `expiredBy` and `res` the
resources of the alloc at an address. The first argument bounds the number of
rounds; `Pool.new` passes `len(expired)`, and every round shortens `expired`
by one. -/
def reclaimLoop (eb : Nat → Int) (res : Nat → Resources) (total want : Resources) :
    Nat → Resources → List Nat → List Nat → Reclaim
  | 0, used, expired, collect =>
    { free := Resources.Sub total used, used := used, expired := expired, collect := collect }
  | fuel + 1, used, expired, collect =>
    let free := Resources.Sub total used
    if free.Available want || expired.length == 0 then
      { free := free, used := used, expired := expired, collect := collect }
    else
      let max := maxLoop eb expired expired.tail 1 0
      let a := expired.getD max 0
      let expired1 := (expired.set max (expired.getD 0 0)).tail
      reclaimLoop eb res total want fuel (Resources.Sub used (res a)) expired1 (collect ++ [a])

/-- What the surroundings answer during one call of `Pool.new`. Errors of the
operating system and of the executor are error numbers, `none` for success. -/
structure NewEnv where
  /-- The instant `time.Now()`. -/
  now : Int
  /-- The answer of `fs.Stat(root)`. -/
  stat : Option Nat
  /-- The result of `newID()`. -/
  id : String
  /-- The error of the file operations of `alloc.configure`. -/
  configure : Option Nat
  /-- The error of `alloc.Start`. -/
  start : Option Nat
  /-- The error of `os.Create` in `saveState`. -/
  create : Option Nat
  /-- The error of `Encode` in `saveState`. -/
  encode : Option Nat

/-- The roster after `for _, alloc := range collect { delete(p.allocs, alloc.id) }`. -/
def deleteAll (heap : Nat → alloc) (allocs : List (String × Nat)) (collect : List Nat) :
    List (String × Nat) :=
  collect.foldl (fun m a => mapDelete m (heap a).id) allocs

/-- The roster after `for _, alloc := range collect { p.allocs[alloc.id] = alloc }`. -/
def restoreAll (heap : Nat → alloc) (allocs : List (String × Nat)) (collect : List Nat) :
    List (String × Nat) :=
  collect.foldl (fun m a => mapInsert m (heap a).id a) allocs

/-- The method `Pool.newAlloc`, called at the instant `now`: the alloc is
created with the lease `keepalive`, the zero `lastKeepalive`, and no resources
yet. -/
def Pool.newAlloc (id : String) (keepalive now : Int) : alloc :=
  { id := id, resources := [], created := now, expires := now + keepalive,
    lastKeepalive := 0, freed := false }

/-- The method `alloc.configure`, as far as the alloc object goes: the
requested resources are latched. Whether the file operations that follow
succeed is an answer of the surroundings. -/
def alloc.configure (a : alloc) (m : AllocMeta) : alloc :=
  { a with resources := Resources.Set m.Want }

/-- The first half of `Pool.new` (the lines from `total = p.Resources()` to
`collect = collect[:n]`): the sum `used` over all allocs, the list `expired`,
and the reclamation loop. -/
def Pool.reclaim (w : World) (env : NewEnv) (m : AllocMeta) : Reclaim :=
  let total := (w.pool.Resources env.stat).2
  let ptrs := w.pool.allocs.map Prod.snd
  let used := ptrs.foldl (fun u a => Resources.Add u (w.heap a).resources) []
  let expired := ptrs.filter fun a => (w.heap a).expired env.now
  reclaimLoop (fun a => (w.heap a).expiredBy env.now) (fun a => (w.heap a).resources)
    total m.Want expired.length used expired []

/-- The method `Pool.new`, which `offer.Accept` calls. Returns the address of
the new alloc, or an error. -/
def Pool.new (w : World) (env : NewEnv) (m : AllocMeta) : World × Except Error Nat :=
  if w.pool.stopped then (w, .error .shuttingDown)
  else
    let p1 := (w.pool.Resources env.stat).1
    let r := Pool.reclaim w env m
    if !r.free.Available m.Want then ({ w with pool := p1 }, .error .offerExpired)
    else
      let allocs1 := deleteAll w.heap p1.allocs r.collect
      let a := w.brk
      let heap1 := Function.update w.heap a ((Pool.newAlloc env.id keepaliveInterval env.now).configure m)
      let err := match env.configure with
        | some e => some e
        | none => env.start
      match err with
      | some e =>
        ({ w with pool := { p1 with allocs := restoreAll heap1 allocs1 r.collect },
                  heap := heap1, brk := a + 1 }, .error (.other e))
      | none =>
        let w2 : World := { w with pool := { p1 with allocs := mapInsert allocs1 env.id a },
                                   heap := heap1, brk := a + 1 }
        match Pool.saveState w2 env.create env.encode with
        | (w3, some e) =>
          ({ w3 with pool := { w3.pool with
                       allocs := restoreAll w3.heap (mapDelete w3.pool.allocs env.id) r.collect },
                     kills := w3.kills ++ [a] }, .error e)
        | (w3, none) => ({ w3 with kills := w3.kills ++ r.collect }, .ok a)

/-- The method `Pool.free`. -/
def Pool.free (w : World) (a : Nat) (create encode : Option Nat) : World × Option Error :=
  if w.pool.allocs.lookup (w.heap a).id != some a then (w, none)
  else
    let w1 : World := { w with pool := { w.pool with allocs := mapDelete w.pool.allocs (w.heap a).id } }
    match Pool.saveState w1 create encode with
    | (w2, some e) =>
      ({ w2 with pool := { w2.pool with allocs := mapInsert w2.pool.allocs (w2.heap a).id a } }, some e)
    | (w2, none) => (w2, none)

/-- The method `Pool.alive`. -/
def Pool.alive (w : World) (a : Nat) : Bool :=
  w.pool.allocs.lookup (w.heap a).id == some a

/-- The method `Pool.Offers`. -/
def Pool.Offers (w : World) (now : Int) (stat : Option Nat) : World × List offer :=
  if w.pool.stopped then (w, [])
  else
    let live := (w.pool.allocs.map Prod.snd).filter fun a => !(w.heap a).expired now
    let reserved := live.foldl (fun u a => Resources.Add u (w.heap a).resources) []
    let (p1, total) := w.pool.Resources stat
    let available := Resources.Sub total reserved
    if available.get "mem" == 0 || available.get "cpu" == 0 || available.get "disk" == 0 then
      ({ w with pool := p1 }, [])
    else ({ w with pool := p1 }, [{ id := offerID, resources := available }])

/-! ## Alloc lifecycle -/

/-- The method `alloc.Keepalive`. Returns the granted duration and the error. -/
def alloc.Keepalive (w : World) (a : Nat) (now next : Int) : World × Int × Option Error :=
  if !Pool.alive w a then (w, 0, some .allocExpired)
  else
    let next1 := if next > maxKeepaliveInterval then maxKeepaliveInterval else next
    let obj := w.heap a
    ({ w with heap := Function.update w.heap a
                { obj with lastKeepalive := now, expires := now + next1 } }, next1, none)

/-- The second half of `alloc.Free`, after `a.p.free(a)` returned `nil`: the
`freed` flag is set, and `Kill` is invoked if the flag was not set before. The
result of `Kill` is ignored by the code. -/
def alloc.release (w : World) (a : Nat) : World :=
  let free := !(w.heap a).freed
  let w2 : World := { w with heap := Function.update w.heap a { w.heap a with freed := true } }
  if free then { w2 with kills := w2.kills ++ [a] } else w2

/-- The method `alloc.Free`. -/
def alloc.Free (w : World) (a : Nat) (create encode : Option Nat) : World × Option Error :=
  match Pool.free w a create encode with
  | (w1, some e) => (w1, some e)
  | (w1, none) => (alloc.release w1 a, none)

/-! ## Notions used to state the properties -/

/-- The resources in use after the allocs of `sel` have been reclaimed, as the
loop computes them: one `used.Sub(used, alloc.resources)` per alloc. -/
def usedAfter (res : Nat → Resources) (used : Resources) (sel : List Nat) : Resources :=
  sel.foldl (fun u a => Resources.Sub u (res a)) used

/-- Well-formedness of the pool's roster: it is a map (no id twice), every alloc
is registered under its own id, and every registered alloc has been allocated. -/
structure World.WF (w : World) : Prop where
  nodup : (w.pool.allocs.map Prod.fst).Nodup
  ids : ∀ e ∈ w.pool.allocs, (w.heap e.2).id = e.1
  allocated : ∀ e ∈ w.pool.allocs, e.2 < w.brk

/-- The ids of the allocs at the addresses `l`. -/
def idsOf (heap : Nat → alloc) (l : List Nat) : List String := l.map fun a => (heap a).id

/-- The addresses of the registered allocs, in the order `range p.allocs`
visits them. -/
def World.ptrs (w : World) : List Nat := w.pool.allocs.map Prod.snd

/-- The registered allocs that are expired at the instant `now`. -/
def World.expiredPtrs (w : World) (now : Int) : List Nat :=
  w.ptrs.filter fun a => (w.heap a).expired now

/-- The registered allocs that are not expired at the instant `now`. -/
def World.livePtrs (w : World) (now : Int) : List Nat :=
  w.ptrs.filter fun a => !(w.heap a).expired now

/-- The sum, in dimension `k`, of the resources of the allocs at the addresses
`l`. -/
def sumOn (heap : Nat → alloc) (l : List Nat) (k : String) : ℚ :=
  (l.map fun a => (heap a).resources.get k).sum

/-- The vector `reserved` of `Pool.Offers` and `Pool.Available`: the sum of the
resources of the allocs that are not expired. -/
def World.reserved (w : World) (now : Int) : Resources :=
  (w.livePtrs now).foldl (fun u a => Resources.Add u (w.heap a).resources) []

/-- The vector `used` of `Pool.new` before reclamation: the sum of the
resources of all registered allocs. -/
def World.used (w : World) : Resources :=
  w.ptrs.foldl (fun u a => Resources.Add u (w.heap a).resources) []

/-- The heap after `Pool.new` has built its alloc. -/
def heapNew (w : World) (env : NewEnv) (m : AllocMeta) : Nat → alloc :=
  Function.update w.heap w.brk ((Pool.newAlloc env.id keepaliveInterval env.now).configure m)

/-- The registered allocs that remain when the allocs `sel` are taken out of
the roster. -/
def World.remaining (w : World) (sel : List Nat) : List Nat :=
  w.ptrs.filter fun a => decide (a ∉ sel)

/-- The total minus the resources of the allocs that remain when the allocs
`sel` are taken out of the roster. -/
def World.freeAfter (w : World) (total : Resources) (sel : List Nat) : Resources :=
  Resources.Sub total
    ((w.remaining sel).foldl (fun u a => Resources.Add u (w.heap a).resources) [])

/-- The order "at least as overdue as" on addresses, for a given `expiredBy`. -/
def moreOverdue (eb : Nat → Int) (x y : Nat) : Prop := eb y ≤ eb x

instance moreOverdue_decidable (eb : Nat → Int) : DecidableRel (moreOverdue eb) :=
  fun x y => inferInstanceAs (Decidable (eb y ≤ eb x))

instance moreOverdue_total (eb : Nat → Int) : IsTotal Nat (moreOverdue eb) :=
  ⟨fun x y => le_total (eb y) (eb x)⟩

instance moreOverdue_trans (eb : Nat → Int) : IsTrans Nat (moreOverdue eb) :=
  ⟨fun _ _ _ hxy hyz => le_trans hyz hxy⟩

/-- The invariant of the pool under a file system of fixed size: the roster
is well-formed, re-detecting the disk size changes nothing, registered allocs
hold nonnegative resources, in every dimension the registered allocs together
hold at most the total, and no registered alloc has been freed. -/
structure Inv (stat : Option Nat) (w : World) : Prop where
  wf : w.WF
  stable : ∀ k, (w.pool.detectDiskSize stat).resources.get k = w.pool.resources.get k
  nonneg : ∀ a ∈ w.ptrs, ∀ k, 0 ≤ (w.heap a).resources.get k
  bound : ∀ k, sumOn w.heap w.ptrs k ≤ w.pool.resources.get k
  notFreed : ∀ a ∈ w.ptrs, (w.heap a).freed = false

/-- The states a pool reaches from an empty roster, on a file system whose
`fs.Stat` always answers `stat`. It starts with nonnegative total resources
and the disk size detected (as `Pool.Start` leaves it); then `Accept` of
requests for nonnegative resources, `Keepalive` and `Free` on any alloc, and
`Offers` are called in any order, each at any instant and with any answers of
the surroundings. -/
inductive Reachable (stat : Option Nat) : World → Prop where
  | init (w : World) (hempty : w.pool.allocs = [])
      (hnn : ∀ k, 0 ≤ w.pool.resources.get k)
      (hdisk : ∃ p0 : Pool, w.pool.resources = (p0.detectDiskSize stat).resources) :
      Reachable stat w
  | accept (w : World) (env : NewEnv) (m : AllocMeta) (h : Reachable stat w)
      (hstat : env.stat = stat) (hwant : ∀ k, 0 ≤ m.Want.get k) :
      Reachable stat (Pool.new w env m).1
  | keepalive (w : World) (a : Nat) (now next : Int) (h : Reachable stat w) :
      Reachable stat (alloc.Keepalive w a now next).1
  | free (w : World) (a : Nat) (create encode : Option Nat) (h : Reachable stat w) :
      Reachable stat (alloc.Free w a create encode).1
  | offers (w : World) (now : Int) (h : Reachable stat w) :
      Reachable stat (Pool.Offers w now stat).1

/-- The free quantity in dimension `k` at the instant `now`: the total that
`Pool.Resources` returns minus the sum of the resources of the allocs that are
not expired. -/
def World.freeAt (w : World) (now : Int) (stat : Option Nat) (k : String) : ℚ :=
  (w.pool.Resources stat).2.get k - sumOn w.heap (w.livePtrs now) k

/-! ## Concrete pools -/

/-- An alloc with the given id, resources and expiry, created at instant 0. -/
def allocAt (id : String) (res : Resources) (expires : Int) : alloc :=
  { id := id, resources := res, created := 0, expires := expires, lastKeepalive := 0,
    freed := false }

/-- A heap with alloc `a` at address 0 (lease ends at 90) and alloc `b`
elsewhere (lease ends at 70), each holding `mem:5, cpu:1`. -/
def heapTwo : Nat → alloc := fun a =>
  if a = 0 then allocAt "a" [("mem", 5), ("cpu", 1)] 90
  else allocAt "b" [("mem", 5), ("cpu", 1)] 70

/-- A pool of `mem:10, cpu:2` whose roster holds the allocs `a` and `b` of
`heapTwo`. -/
def worldTwo : World :=
  { pool := { allocs := [("a", 0), ("b", 1)], resources := [("mem", 10), ("cpu", 2)],
              stopped := false },
    heap := heapTwo, brk := 2,
    stateJson := some [("a", [("mem", 5), ("cpu", 1)]), ("b", [("mem", 5), ("cpu", 1)])],
    kills := [] }

/-- At instant 100 (alloc `a` expired by 10, alloc `b` by 30) everything
succeeds and the new id is `c`. -/
def envTwo : NewEnv :=
  { now := 100, stat := some 1000, id := "c", configure := none, start := none,
    create := none, encode := none }

/-- A request for `mem:10, cpu:2`. -/
def wantAll : AllocMeta := ⟨[("mem", 10), ("cpu", 2)]⟩

/-- A heap whose allocs hold `mem:10, cpu:1, disk:10` until instant 200. -/
def heapFull : Nat → alloc := fun _ => allocAt "a" [("mem", 10), ("cpu", 1), ("disk", 10)] 200

/-- A pool of `mem:10, cpu:1, disk:10` wholly held by one alloc. -/
def worldFull : World :=
  { pool := { allocs := [("a", 0)], resources := [("mem", 10), ("cpu", 1), ("disk", 10)],
              stopped := false },
    heap := heapFull, brk := 1,
    stateJson := some [("a", [("mem", 10), ("cpu", 1), ("disk", 10)])], kills := [] }

/-- At instant 100 the file system holds 10 bytes, everything succeeds and the
new id is `c`. -/
def envFull : NewEnv :=
  { now := 100, stat := some 10, id := "c", configure := none, start := none,
    create := none, encode := none }

/-- A request for `mem:1, cpu:1, disk:1`. -/
def wantOne : AllocMeta := ⟨[("mem", 1), ("cpu", 1), ("disk", 1)]⟩

/-- A started pool of `mem:10, cpu:2` on a file system of 1000 bytes, with an
empty roster and no alloc built yet. -/
def worldEmpty : World :=
  { pool := { allocs := [], resources := [("disk", 1000), ("mem", 10), ("cpu", 2)],
              stopped := false },
    heap := fun _ => allocAt "" [] 0, brk := 0, stateJson := none, kills := [] }

/-- At instant 0 everything succeeds and the new id is `a`. -/
def envA : NewEnv :=
  { now := 0, stat := some 1000, id := "a", configure := none, start := none,
    create := none, encode := none }

/-- After 100 seconds everything succeeds and the new id is `b`. -/
def envB : NewEnv :=
  { now := 100 * second, stat := some 1000, id := "b", configure := none, start := none,
    create := none, encode := none }

/-- A request for `mem:6`. -/
def wantSix : AllocMeta := ⟨[("mem", 6)]⟩

/-- A request for `mem:4`. -/
def wantFour : AllocMeta := ⟨[("mem", 4)]⟩

/-- The empty pool after `mem:6` was accepted at instant 0, `mem:4` was
accepted after 100 seconds (the first lease had run out after 60 seconds, but
nothing had to be reclaimed), and the first alloc was then kept alive. -/
def worldRevived : World :=
  (alloc.Keepalive (Pool.new (Pool.new worldEmpty envA wantSix).1 envB wantFour).1 0
    (100 * second) (60 * second)).1

/-- A pool of `mem:10, cpu:1, disk:10` whose single alloc, not expired before
instant 200, holds `mem:20`. -/
def worldOver : World :=
  { pool := { allocs := [("a", 0)], resources := [("mem", 10), ("cpu", 1), ("disk", 10)],
              stopped := false },
    heap := fun _ => allocAt "a" [("mem", 20)] 200, brk := 1,
    stateJson := some [("a", [("mem", 20)])], kills := [] }

/-! ## Idle shutdown and offer lookup -/

/-- One round of the loop of `Pool.StopIfIdleFor`, on the variables `idle` and
`maxTimeToExpiry`, for an alloc with the given `expiredBy`. -/
def idleStep (d : Int) (s : Bool × Int) (expiredBy : Int) : Bool × Int :=
  (if expiredBy < d then false else s.1, if s.2 > expiredBy then expiredBy else s.2)

/-- The method `Pool.StopIfIdleFor`, called at the instant `now`. Returns the
two results of the Go method. -/
def Pool.StopIfIdleFor (w : World) (d now : Int) : World × Bool × Int :=
  let s := ((w.pool.allocs.map Prod.snd).map fun a => (w.heap a).expiredBy now).foldl
    (idleStep d) (true, 0)
  if s.1 then ({ w with pool := { w.pool with stopped := true } }, true, 0)
  else (w, false, -s.2)

/-- The method `Pool.Offer`. Its errors have the kind `NotExist` and the cause
`errOfferExpired`, like the capacity error of `Pool.new`. -/
def Pool.Offer (w : World) (now : Int) (stat : Option Nat) (id : String) :
    World × Except Error offer :=
  match Pool.Offers w now stat with
  | (w1, []) => (w1, .error .offerExpired)
  | (w1, o :: _) => if id != offerID then (w1, .error .offerExpired) else (w1, .ok o)

/-- The states a pool reaches once `StopIfIdleFor` has returned true, under
any sequence of `Offers`, `Offer`, `Accept`, `Keepalive`, `Free` and
`StopIfIdleFor` calls, each at any instant and with any answers of the
surroundings. -/
inductive ReachableStopped : World → Prop where
  | stop (w : World) (d now : Int) (h : (Pool.StopIfIdleFor w d now).2.1 = true) :
      ReachableStopped (Pool.StopIfIdleFor w d now).1
  | offers (w : World) (now : Int) (stat : Option Nat) (h : ReachableStopped w) :
      ReachableStopped (Pool.Offers w now stat).1
  | offer (w : World) (now : Int) (stat : Option Nat) (id : String) (h : ReachableStopped w) :
      ReachableStopped (Pool.Offer w now stat id).1
  | accept (w : World) (env : NewEnv) (m : AllocMeta) (h : ReachableStopped w) :
      ReachableStopped (Pool.new w env m).1
  | keepalive (w : World) (a : Nat) (now next : Int) (h : ReachableStopped w) :
      ReachableStopped (alloc.Keepalive w a now next).1
  | free (w : World) (a : Nat) (create encode : Option Nat) (h : ReachableStopped w) :
      ReachableStopped (alloc.Free w a create encode).1
  | stopIfIdleFor (w : World) (d now : Int) (h : ReachableStopped w) :
      ReachableStopped (Pool.StopIfIdleFor w d now).1

/-- A pool of `mem:10, cpu:2` whose single alloc `a` has a lease that ends
after 100 seconds. -/
def worldLease : World :=
  { pool := { allocs := [("a", 0)], resources := [("mem", 10), ("cpu", 2)],
              stopped := false },
    heap := fun _ => allocAt "a" [("mem", 5), ("cpu", 1)] (100 * second), brk := 1,
    stateJson := some [("a", [("mem", 5), ("cpu", 1)])], kills := [] }

/-- A heap with alloc `a` at address 0 (lease ends after 97 seconds) and alloc
`b` elsewhere (lease ends after 93 seconds). -/
def heapPair : Nat → alloc := fun a =>
  if a = 0 then allocAt "a" [("mem", 5), ("cpu", 1)] (97 * second)
  else allocAt "b" [("mem", 5), ("cpu", 1)] (93 * second)

/-- A pool of `mem:10, cpu:2` whose roster holds the allocs `a` and `b` of
`heapPair`. -/
def worldPair : World :=
  { pool := { allocs := [("a", 0), ("b", 1)], resources := [("mem", 10), ("cpu", 2)],
              stopped := false },
    heap := heapPair, brk := 2,
    stateJson := some [("a", [("mem", 5), ("cpu", 1)]), ("b", [("mem", 5), ("cpu", 1)])],
    kills := [] }

/-- A sequence of `Keepalive` calls on the alloc at `a`; each call is given by
its instant and the duration it requests. -/
def keepalives (w : World) (a : Nat) (calls : List (Int × Int)) : World :=
  calls.foldl (fun w c => (alloc.Keepalive w a c.1 c.2).1) w

/-- The empty pool after `mem:4` was accepted after 100 seconds: the alloc
`b` sits at address 0. -/
def worldOne : World := (Pool.new worldEmpty envB wantFour).1

/-- A request for `mem:-5`, which `Pool.new` does not refuse. -/
def wantNegative : AllocMeta := ⟨[("mem", -5)]⟩

/-- A request for `mem:15`. -/
def wantFifteen : AllocMeta := ⟨[("mem", 15)]⟩

/-- The empty pool of `mem:10` after `mem:-5` was accepted at instant 0 and
`mem:15` was accepted after 100 seconds, when the first lease had run out. -/
def worldOvercommitted : World :=
  (Pool.new (Pool.new worldEmpty envA wantNegative).1 envB wantFifteen).1

/-- A request for `disk:800`. -/
def wantDisk : AllocMeta := ⟨[("disk", 800)]⟩

/-- The empty pool after `disk:800` was accepted at instant 0 on a file system
of 1000 bytes. -/
def worldDisk : World := (Pool.new worldEmpty envA wantDisk).1

/-! ## Startup and recovery -/

/-- What `alloc.restore` finds for a directory: no `meta.json`, a `meta.json`
that cannot be opened or decoded (with the error number), or the stored
metadata. -/
inductive MetaFile where
  | notExist
  | failed (code : Nat)
  | loaded (m : AllocMeta)
  deriving DecidableEq, Repr

/-- One entry of the directory `allocs/` as `Readdir` lists it, with what the
surroundings answer for it: whether it is a directory, what `alloc.restore`
finds, and the error of `alloc.Start` (`none` for success). -/
structure DirEntry where
  name : String
  isDir : Bool
  restore : MetaFile
  start : Option Nat
  deriving DecidableEq, Repr

/-- What the surroundings answer during one call of `Pool.Start`. -/
structure StartEnv where
  /-- The instant `time.Now()`. -/
  now : Int
  /-- The fields `MemTotal` and `NCPU` of `p.Client.Info`, or its error. -/
  info : Except Nat (Nat × Nat)
  /-- The result of `cpuFeatures()`. -/
  features : Except Nat (List String)
  /-- The answer of `fs.Stat(root)`. -/
  stat : Option Nat
  /-- The error of `os.MkdirAll` on the directory `allocs/`. -/
  mkdir : Option Nat
  /-- The map `allocs` once `state.json` has been loaded (empty when the file
  does not exist or cannot be decoded), or the error of `os.Open` when it is
  not `IsNotExist`. -/
  loaded : Except Nat (List (String × Resources))
  /-- The entries of `allocs/`, or the error of opening or reading it. -/
  readdir : Except Nat (List DirEntry)

/-- The result of `Pool.Start`: the world it leaves, the addresses of the allocs
whose executor `alloc.Start` started, in order, and the error returned. -/
structure Started where
  world : World
  started : List Nat
  err : Option Error

/-- The loop of `Pool.Start` over the entries of `allocs/`. `allocs` is the
loaded map, from which registered ids are deleted; the kill of an orphan, which
the code hands to a goroutine, is logged at once. -/
def Pool.restoreLoop (now : Int) :
    List DirEntry → World → List (String × Reflow.Resources) → List Nat → Started
  | [], w, _, started => { world := w, started := started, err := none }
  | info :: infos, w, allocs, started =>
    if !info.isDir then Pool.restoreLoop now infos w allocs started
    else
      let a := w.brk
      let obj := Pool.newAlloc info.name 0 now
      match info.restore with
      | .notExist =>
        Pool.restoreLoop now infos
          { w with heap := Function.update w.heap a obj, brk := a + 1 } allocs started
      | .failed e =>
        { world := { w with heap := Function.update w.heap a obj, brk := a + 1 },
          started := started, err := some (.other e) }
      | .loaded m =>
        let w1 : World :=
          { w with heap := Function.update w.heap a ({ obj with resources := m.Want }),
                   brk := a + 1 }
        match info.start with
        | some e => { world := w1, started := started, err := some (.other e) }
        | none =>
          if (allocs.lookup info.name).isSome then
            Pool.restoreLoop now infos
              { w1 with pool := { w1.pool with
                  allocs := mapInsert w1.pool.allocs info.name a } }
              (mapDelete allocs info.name) (started ++ [a])
          else
            Pool.restoreLoop now infos { w1 with kills := w1.kills ++ [a] } allocs
              (started ++ [a])

/-- The method `Pool.Start`. -/
def Pool.Start (w : World) (env : StartEnv) : Started :=
  match env.info with
  | .error e => { world := w, started := [], err := some (.other e) }
  | .ok (memTotal, ncpu) =>
    let res0 : Reflow.Resources :=
      [("mem", ((Rat.floor ((memTotal : ℚ) * (95 / 100)) : Int) : ℚ)), ("cpu", (ncpu : ℚ))]
    match env.features with
    | .error e =>
      { world := { w with pool := { w.pool with resources := res0 } }, started := [],
        err := some (.other e) }
    | .ok features =>
      let res1 := features.foldl (fun r feature => mapInsert r feature (Reflow.Resources.get r "cpu")) res0
      let p2 := ({ w.pool with resources := res1 } : Pool).detectDiskSize env.stat
      match env.mkdir with
      | some e => { world := { w with pool := p2 }, started := [], err := some (.other e) }
      | none =>
        match env.loaded with
        | .error e => { world := { w with pool := p2 }, started := [], err := some (.other e) }
        | .ok allocs =>
          match env.readdir with
          | .error e =>
            { world := { w with pool := p2 }, started := [], err := some (.other e) }
          | .ok infos =>
            Pool.restoreLoop env.now infos { w with pool := { p2 with allocs := [] } } allocs []

/-- Whether `Pool.Start` restores an entry: it is a directory and its
`meta.json` was read. -/
def DirEntry.restorable (e : DirEntry) : Bool :=
  e.isDir && (match e.restore with
    | .loaded _ => true
    | _ => false)

/-- The names of the directories with a readable `meta.json`, in the order of
the listing. -/
def restorableNames (infos : List DirEntry) : List String :=
  (infos.filter DirEntry.restorable).map DirEntry.name

/-- A pool that has not been started: no roster, no resources, no alloc
built. -/
def worldCold : World :=
  { pool := { allocs := [], resources := [], stopped := false },
    heap := fun _ => allocAt "" [] 0, brk := 0, stateJson := none, kills := [] }

/-- A loaded `state.json` that lists the alloc `a`. -/
def loadedRestart : List (String × Resources) := [("a", [("mem", 5), ("cpu", 1)])]

/-- A directory `allocs/` that holds the directories `a` and `b`, each with a
`meta.json`, the directory `c` without one, and a plain file. -/
def entriesRestart : List DirEntry :=
  [ { name := "a", isDir := true, restore := .loaded ⟨[("mem", 5), ("cpu", 1)]⟩, start := none },
    { name := "b", isDir := true, restore := .loaded ⟨[("mem", 3), ("cpu", 1)]⟩, start := none },
    { name := "c", isDir := true, restore := .notExist, start := none },
    { name := "lock", isDir := false, restore := .notExist, start := none } ]

/-- A host with 1000 bytes of memory, 2 CPUs and a disk of 5000 bytes, on which
everything succeeds. -/
def envRestart : StartEnv :=
  { now := 100 * second, info := .ok (1000, 2), features := .ok ["avx2"], stat := some 5000,
    mkdir := none, loaded := .ok loadedRestart, readdir := .ok entriesRestart }

/-! ## Requirements -/

namespace Resources

/-- Modelled from the spec: componentwise `Max`; the result has the union of
the dimensions of its inputs. -/
def Max (x y : Resources) : Resources :=
  ((x.keys ++ y.keys).dedup).map fun k => (k, max (x.get k) (y.get k))

/-- Modelled from the spec: `Scale(a, k)`, every quantity of `a` times `k`. -/
def Scale (x : Resources) (factor : ℚ) : Resources :=
  x.map fun e => (e.1, e.2 * factor)

/-- Modelled from the spec: whether a vector is zero, that is, equal to the
empty vector (missing keys read as zero). -/
def isZero (x : Resources) : Bool :=
  x.keys.all fun k => decide (x.get k = 0)

end Resources

/-- Modelled from the spec: the type `reflow.Requirements` (not among the
sources; `TestRequirements` builds its values), a pair of the minimum `Min` and
the `Width` beyond it. -/
structure Requirements where
  Min : Resources
  Width : ℚ
  deriving DecidableEq, Repr

/-- Modelled from the spec: `Requirements.Max`, which equals
`min * (1 + width)`. -/
def Requirements.Max (req : Requirements) : Resources :=
  Resources.Scale req.Min (1 + req.Width)

/-- Modelled from the spec: `Requirements.AddSerial`, which sets
`min ← max(min, r)` and leaves the width. -/
def Requirements.AddSerial (req : Requirements) (r : Resources) : Requirements :=
  { req with Min := Resources.Max req.Min r }

/-- Modelled from the spec: `Requirements.AddParallel` (not among the sources;
`TestRequirements` asserts some of its results). When `min` is zero the call
initializes `min ← r` and `width ← 0`. Otherwise it sets `min ← max(min, r)` and
chooses a width. The spec asks for the width for which the new `Max()` equals
the old `Max()` plus `r`; since a single width cannot meet that in every
dimension, the chosen width is the parameter `grow`, about which nothing is
assumed. -/
def Requirements.AddParallel (grow : Requirements → Resources → ℚ) (req : Requirements)
    (r : Resources) : Requirements :=
  if req.Min.isZero then { Min := r, Width := 0 }
  else { Min := Resources.Max req.Min r, Width := grow req r }

/-- The value of `req` in `TestRequirements` before its first `AddParallel`:
`Min = Max() = {mem:20, cpu:5, disk:5}`. -/
def reqTest : Requirements :=
  (Requirements.AddSerial (Requirements.AddSerial ⟨[], 0⟩ [("mem", 10), ("cpu", 5), ("disk", 5)])
    [("mem", 20), ("cpu", 3), ("disk", 1)])

/-- The argument of the first `AddParallel` of `TestRequirements`. -/
def parTest : Resources := [("mem", 10), ("cpu", 5), ("disk", 1)]

/-- The value of `req` in `TestRequirements` after `AddSerial({mem:3, cpu:1})`
and `AddParallel({mem:5, cpu:2})`, for a given choice of widths. -/
def reqSecond (grow : Requirements → Resources → ℚ) : Requirements :=
  (Requirements.AddSerial ⟨[], 0⟩ [("mem", 3), ("cpu", 1)]).AddParallel grow
    [("mem", 5), ("cpu", 2)]

/-- The argument of the last `AddParallel` of `TestRequirements`. -/
def parLast : Resources := [("mem", 10), ("cpu", 4)]

/-- The assertions of `TestRequirements` on the results of `AddParallel`, for a
given choice of widths; `Equal` compares the quantities of every dimension. -/
def passesTestRequirements (grow : Requirements → Resources → ℚ) : Prop :=
  (∀ k, (reqTest.AddParallel grow parTest).Min.get k
      = Resources.get [("mem", 20), ("cpu", 5), ("disk", 5)] k) ∧
  (∀ k, (reqTest.AddParallel grow parTest).Max.get k
      = Resources.get [("mem", 40), ("cpu", 10), ("disk", 10)] k) ∧
  (∀ k, (reqSecond grow).Min.get k = Resources.get [("mem", 5), ("cpu", 2)] k) ∧
  (∀ k, (reqSecond grow).Max.get k = Resources.get [("mem", 10), ("cpu", 4)] k) ∧
  (∀ k, ((reqSecond grow).AddParallel grow parLast).Min.get k
      = Resources.get [("mem", 10), ("cpu", 4)] k) ∧
  (∀ k, ((reqSecond grow).AddParallel grow parLast).Max.get k
      = Resources.get [("mem", 30), ("cpu", 12)] k)

/-- A choice of widths: one more than before. -/
def growByOne (req : Requirements) (_ : Resources) : ℚ := req.Width + 1

/-- A `Requirements` value with a zero `min` and the width 3. -/
def reqZero : Requirements := ⟨[], 3⟩

/-! ## The embedded image (`internal/execimage/execimage.go`) -/

/-- The fields of `elf.Section` that `EmbeddedLinuxImage` reads. They are
`uint32` and `uint64` values; `Typ` is the field `Type`. -/
structure Section where
  Typ : Nat
  Offset : Nat
  FileSize : Nat
  Addralign : Nat
  deriving DecidableEq, Repr

/-- The constant `elf.SHT_NOBITS`. -/
def SHT_NOBITS : Nat := 8

/-- The function `sectionEndAligned`, in `uint64` arithmetic:
`((s.Offset + s.FileSize) + (s.Addralign - 1)) & -s.Addralign`. -/
def sectionEndAligned (s : Section) : Nat :=
  (((s.Offset + s.FileSize) % 2 ^ 64 + (s.Addralign + 2 ^ 64 - 1) % 2 ^ 64) % 2 ^ 64)
    &&& ((2 ^ 64 - s.Addralign) % 2 ^ 64)

/-- The loop of `EmbeddedLinuxImage` over the sections of the ELF file, on the
variable `lastOffset`. -/
def lastOffsetLoop : List Section → Nat → Nat
  | [], lastOffset => lastOffset
  | s :: rest, lastOffset =>
    if s.Typ = SHT_NOBITS then lastOffsetLoop rest lastOffset
    else if lastOffset = 0 then lastOffsetLoop rest (sectionEndAligned s)
    else
      let offset := sectionEndAligned s
      if offset > lastOffset then lastOffsetLoop rest offset
      else lastOffsetLoop rest lastOffset

/-- The value of `lastOffset` that `EmbeddedLinuxImage` computes for the
sections of an ELF file. -/
def lastOffset (sections : List Section) : Nat := lastOffsetLoop sections 0

/-- A section of type `SHT_PROGBITS` at offset 4096 with 256 bytes in the file
and `Addralign = 0`, which ELF permits: no alignment constraint. -/
def sectionUnaligned : Section := { Typ := 1, Offset := 4096, FileSize := 256, Addralign := 0 }

/-! ## Lemmas on maps -/

theorem lookup_filter_ne {β : Type} (m : List (String × β)) (k k1 : String) :
    (m.filter (fun e => e.1 != k)).lookup k1 = if k1 = k then none else m.lookup k1 := by
  induction m with
  | nil => simp
  | cons e m ih =>
    obtain ⟨ek, ev⟩ := e
    by_cases h : ek = k
    · subst h
      by_cases h1 : k1 = ek
      · subst h1; simp [ih]
      · have : (k1 == ek) = false := by simpa using h1
        simp [ih, h1, List.lookup_cons, this]
    · by_cases h1 : k1 = ek
      · subst h1; simp [List.filter_cons, h, List.lookup_cons]
      · have : (k1 == ek) = false := by simpa using h1
        simp [List.filter_cons, h, List.lookup_cons, this, ih]

theorem lookup_mapDelete {β : Type} (m : List (String × β)) (k k1 : String) :
    (mapDelete m k).lookup k1 = if k1 = k then none else m.lookup k1 :=
  lookup_filter_ne m k k1

theorem lookup_mapInsert {β : Type} (m : List (String × β)) (k k1 : String) (v : β) :
    (mapInsert m k v).lookup k1 = if k1 = k then some v else m.lookup k1 := by
  unfold mapInsert
  by_cases h1 : k1 = k
  · subst h1; simp [List.lookup_cons]
  · have : (k1 == k) = false := by simpa using h1
    simp [List.lookup_cons, this, lookup_filter_ne, h1]

theorem lookup_eq_none_of_not_mem {β : Type} (m : List (String × β)) (k : String)
    (h : k ∉ m.map Prod.fst) : m.lookup k = none := by
  induction m with
  | nil => simp
  | cons e m ih =>
    obtain ⟨ek, ev⟩ := e
    simp only [List.map_cons, List.mem_cons, not_or] at h
    have : (k == ek) = false := by simpa using h.1
    simp [List.lookup_cons, this, ih h.2]

theorem lookup_of_mem_nodup {β : Type} (m : List (String × β)) (k : String) (v : β)
    (hn : (m.map Prod.fst).Nodup) (h : (k, v) ∈ m) : m.lookup k = some v := by
  induction m with
  | nil => simp at h
  | cons e m ih =>
    obtain ⟨ek, ev⟩ := e
    simp only [List.map_cons, List.nodup_cons] at hn
    rcases List.mem_cons.1 h with h1 | h1
    · injection h1 with h2 h3
      subst h2; subst h3
      simp [List.lookup_cons]
    · have hne : k ≠ ek := by
        rintro rfl
        exact hn.1 (List.mem_map.2 ⟨(k, v), h1, rfl⟩)
      have : (k == ek) = false := by simpa using hne
      simp [List.lookup_cons, this, ih hn.2 h1]

theorem mem_of_lookup_eq_some {β : Type} (m : List (String × β)) (k : String) (v : β)
    (h : m.lookup k = some v) : (k, v) ∈ m := by
  induction m with
  | nil => simp at h
  | cons e m ih =>
    obtain ⟨ek, ev⟩ := e
    by_cases h1 : k = ek
    · subst h1
      simp [List.lookup_cons] at h
      simp [h]
    · have : (k == ek) = false := by simpa using h1
      simp [List.lookup_cons, this] at h
      exact List.mem_cons_of_mem _ (ih h)

/-! ## Lemmas on resource vectors -/

namespace Resources

theorem lookup_map_keys (l : List String) (f : String → ℚ) (k : String) :
    (l.map fun k1 => (k1, f k1)).lookup k = if k ∈ l then some (f k) else none := by
  induction l with
  | nil => simp
  | cons a l ih =>
    by_cases h : k = a
    · subst h; simp [List.lookup_cons]
    · have : (k == a) = false := by simpa using h
      simp [List.lookup_cons, this, ih, h]

theorem get_eq_zero_of_not_mem (r : Resources) (k : String) (h : k ∉ r.keys) : r.get k = 0 := by
  unfold get
  rw [lookup_eq_none_of_not_mem r k h]
  rfl

theorem get_Add (x y : Resources) (k : String) : (Add x y).get k = x.get k + y.get k := by
  unfold Add
  show (List.lookup k _).getD 0 = _
  rw [lookup_map_keys]
  by_cases h : k ∈ (x.keys ++ y.keys).dedup
  · simp [h]
  · rw [if_neg h]
    rw [List.mem_dedup, List.mem_append, not_or] at h
    rw [get_eq_zero_of_not_mem x k h.1, get_eq_zero_of_not_mem y k h.2]
    simp

theorem get_Sub (x y : Resources) (k : String) : (Sub x y).get k = x.get k - y.get k := by
  unfold Sub
  show (List.lookup k _).getD 0 = _
  rw [lookup_map_keys]
  by_cases h : k ∈ (x.keys ++ y.keys).dedup
  · simp [h]
  · rw [if_neg h]
    rw [List.mem_dedup, List.mem_append, not_or] at h
    rw [get_eq_zero_of_not_mem x k h.1, get_eq_zero_of_not_mem y k h.2]
    simp

theorem get_nil (k : String) : get [] k = 0 := rfl

theorem Available_iff (r s : Resources) :
    r.Available s = true ↔ ∀ k ∈ s.keys, s.get k ≤ r.get k := by
  simp [Available, List.all_eq_true]

theorem Available_congr (r r1 s : Resources) (h : ∀ k, r.get k = r1.get k) :
    r.Available s = r1.Available s := by
  unfold Available
  simp only [h]

theorem Available_mono (r r1 s : Resources) (h : ∀ k, r.get k ≤ r1.get k)
    (ha : r.Available s = true) : r1.Available s = true := by
  rw [Available_iff] at *
  intro k hk
  exact le_trans (ha k hk) (h k)

theorem get_foldl_Add {α : Type} (f : α → Resources) (l : List α) (init : Resources)
    (k : String) :
    (l.foldl (fun u a => Add u (f a)) init).get k
      = init.get k + (l.map fun a => (f a).get k).sum := by
  induction l generalizing init with
  | nil => simp
  | cons a l ih => simp [ih, get_Add, add_assoc]

theorem get_foldl_Sub {α : Type} (f : α → Resources) (l : List α) (init : Resources)
    (k : String) :
    (l.foldl (fun u a => Sub u (f a)) init).get k
      = init.get k - (l.map fun a => (f a).get k).sum := by
  induction l generalizing init with
  | nil => simp
  | cons a l ih => simp [ih, get_Sub, sub_sub]

end Resources

/-! ## The reclamation loop -/

theorem getD_append_length (pre rest : List Nat) (x : Nat) :
    (pre ++ x :: rest).getD pre.length 0 = x := by
  induction pre with
  | nil => simp
  | cons p pre ih => simpa using ih

theorem maxLoop_spec (eb : Nat → Int) (xs : List Nat) :
    ∀ (rest pre : List Nat) (i max : Nat), xs = pre ++ rest → pre.length = i → max < i →
      (∀ x ∈ pre, eb x ≤ eb (xs.getD max 0)) →
      maxLoop eb xs rest i max < xs.length ∧
        ∀ x ∈ xs, eb x ≤ eb (xs.getD (maxLoop eb xs rest i max) 0) := by
  intro rest
  induction rest with
  | nil =>
    intro pre i max hxs hlen hmax hle
    simp only [List.append_nil] at hxs
    subst hxs
    simp only [maxLoop]
    exact ⟨by omega, hle⟩
  | cons x rest ih =>
    intro pre i max hxs hlen hmax hle
    simp only [maxLoop]
    have hx : xs.getD i 0 = x := by rw [hxs, ← hlen]; exact getD_append_length pre rest x
    apply ih (pre ++ [x]) (i + 1)
    · simp [hxs]
    · simp [hlen]
    · split <;> omega
    · intro y hy
      by_cases hgt : eb x > eb (xs.getD max 0)
      · rw [if_pos hgt, hx]
        rcases List.mem_append.1 hy with h | h
        · exact le_trans (hle y h) (le_of_lt hgt)
        · simp at h; subst h; exact le_refl _
      · rw [if_neg hgt]
        rcases List.mem_append.1 hy with h | h
        · exact hle y h
        · simp at h; subst h; exact not_lt.1 hgt

theorem maxLoop_max (eb : Nat → Int) (xs : List Nat) (hne : xs ≠ []) :
    maxLoop eb xs xs.tail 1 0 < xs.length ∧
      ∀ x ∈ xs, eb x ≤ eb (xs.getD (maxLoop eb xs xs.tail 1 0) 0) := by
  cases xs with
  | nil => exact absurd rfl hne
  | cons h t =>
    apply maxLoop_spec eb (h :: t) t [h] 1 0 rfl rfl (by omega)
    intro x hx
    simp at hx
    subst hx
    simp

theorem swap_perm (t : List Nat) : ∀ (n h : Nat), n < t.length →
    List.Perm (h :: t) (t.getD n 0 :: t.set n h) := by
  induction t with
  | nil => intro n h hn; simp at hn
  | cons x t ih =>
    intro n h hn
    cases n with
    | zero => simpa using List.Perm.swap x h t
    | succ n =>
      have hn1 : n < t.length := by simpa using hn
      simp only [List.getD_cons_succ, List.set_cons_succ]
      exact ((List.Perm.swap x h t).trans ((ih n h hn1).cons x)).trans (List.Perm.swap _ _ _)

theorem pop_perm (xs : List Nat) (n : Nat) (hn : n < xs.length) :
    List.Perm xs (xs.getD n 0 :: (xs.set n (xs.getD 0 0)).tail) := by
  cases xs with
  | nil => simp at hn
  | cons h t =>
    cases n with
    | zero => simp
    | succ n =>
      have hn1 : n < t.length := by simpa using hn
      simpa using swap_perm t n h hn1

theorem reclaimLoop_spec (eb : Nat → Int) (res : Nat → Resources) (total want : Resources) :
    ∀ (fuel : Nat) (used : Resources) (expired collect : List Nat), expired.length ≤ fuel →
      ∃ sel : List Nat,
        (reclaimLoop eb res total want fuel used expired collect).collect = collect ++ sel ∧
        List.Perm (sel ++ (reclaimLoop eb res total want fuel used expired collect).expired)
          expired ∧
        (reclaimLoop eb res total want fuel used expired collect).used = usedAfter res used sel ∧
        (reclaimLoop eb res total want fuel used expired collect).free
          = Resources.Sub total (usedAfter res used sel) ∧
        ((reclaimLoop eb res total want fuel used expired collect).free.Available want = true ∨
          (reclaimLoop eb res total want fuel used expired collect).expired = []) ∧
        List.Pairwise (fun x y => eb y ≤ eb x) sel ∧
        (∀ c ∈ sel, ∀ e ∈ (reclaimLoop eb res total want fuel used expired collect).expired,
          eb e ≤ eb c) ∧
        (∀ j, j < sel.length →
          (Resources.Sub total (usedAfter res used (sel.take j))).Available want = false) := by
  intro fuel
  induction fuel with
  | zero =>
    intro used expired collect hf
    have he : expired = [] := List.length_eq_zero.1 (Nat.le_zero.1 hf)
    subst he
    exact ⟨[], by simp [reclaimLoop, usedAfter]⟩
  | succ fuel ih =>
    intro used expired collect hf
    by_cases hc : ((Resources.Sub total used).Available want || expired.length == 0) = true
    · refine ⟨[], ?_⟩
      simp only [reclaimLoop, hc, if_true]
      simp only [Bool.or_eq_true, beq_iff_eq, List.length_eq_zero] at hc
      simp [usedAfter, hc]
    · simp only [reclaimLoop, hc]
      simp only [Bool.or_eq_true, beq_iff_eq, List.length_eq_zero, not_or] at hc
      obtain ⟨hna, hne⟩ := hc
      obtain ⟨hlt, hmax⟩ := maxLoop_max eb expired hne
      have hperm := pop_perm expired _ hlt
      generalize hm : maxLoop eb expired expired.tail 1 0 = mx at *
      generalize ha : expired.getD mx 0 = a at *
      generalize he1 : (expired.set mx (expired.getD 0 0)).tail = expired1 at *
      have hlen : expired1.length ≤ fuel := by
        have := hperm.length_eq
        simp at this
        omega
      obtain ⟨sel, h1, h2, h3, h4, h5, h6, h7, h8⟩ :=
        ih (Resources.Sub used (res a)) expired1 (collect ++ [a]) hlen
      refine ⟨a :: sel, ?_, ?_, ?_, ?_, ?_, ?_, ?_, ?_⟩
      · simp [h1]
      · exact ((h2.cons a).trans hperm.symm)
      · simpa [usedAfter] using h3
      · simpa [usedAfter] using h4
      · exact h5
      · refine List.Pairwise.cons ?_ h6
        intro c hc
        apply hmax
        exact hperm.symm.subset (List.mem_cons_of_mem _ (h2.subset (List.mem_append_left _ hc)))
      · intro c hc e he
        rcases List.mem_cons.1 hc with rfl | hc
        · apply hmax
          exact hperm.symm.subset (List.mem_cons_of_mem _ (h2.subset (List.mem_append_right _ he)))
        · exact h7 c hc e he
      · intro j hj
        cases j with
        | zero => simpa [usedAfter] using hna
        | succ j =>
          have := h8 j (by simpa using hj)
          simpa [usedAfter] using this

/-- The bound on the number of rounds is never what stops the loop: any bound
of at least `len(expired)` gives the same result. -/
theorem reclaimLoop_fuel (eb : Nat → Int) (res : Nat → Resources) (total want : Resources) :
    ∀ (fuel : Nat) (used : Resources) (expired collect : List Nat), expired.length ≤ fuel →
      reclaimLoop eb res total want fuel used expired collect
        = reclaimLoop eb res total want expired.length used expired collect := by
  intro fuel
  induction fuel with
  | zero =>
    intro used expired collect hf
    have he : expired = [] := List.length_eq_zero.1 (Nat.le_zero.1 hf)
    subst he
    rfl
  | succ fuel ih =>
    intro used expired collect hf
    cases expired with
    | nil => simp [reclaimLoop]
    | cons x xs =>
      have hlt := (maxLoop_max eb (x :: xs) (by simp)).1
      have hlen : ((List.set (x :: xs) (maxLoop eb (x :: xs) (x :: xs).tail 1 0)
          ((x :: xs).getD 0 0)).tail).length = xs.length := by
        simp
      simp only [reclaimLoop, List.length_cons]
      split
      · rfl
      · rw [ih _ _ _ (by rw [hlen]; simpa using hf), hlen]

/-! ## Deleting and restoring reclaim candidates -/

theorem deleteAll_eq_filter (heap : Nat → alloc) (l : List Nat) :
    ∀ m : List (String × Nat),
      deleteAll heap m l = m.filter (fun e => decide (e.1 ∉ idsOf heap l)) := by
  induction l with
  | nil => intro m; simp [deleteAll, idsOf]
  | cons a l ih =>
    intro m
    have h := ih (mapDelete m (heap a).id)
    simp only [deleteAll, List.foldl_cons] at h ⊢
    rw [h, mapDelete, List.filter_filter]
    apply List.filter_congr
    intro e _
    by_cases h1 : e.1 = (heap a).id <;> simp [idsOf, h1]

theorem lookup_filter_keys (m : List (String × Nat)) (p : String → Bool) (k : String) :
    (m.filter (fun e => p e.1)).lookup k = if p k then m.lookup k else none := by
  induction m with
  | nil => simp
  | cons e m ih =>
    obtain ⟨ek, ev⟩ := e
    by_cases h1 : k = ek
    · subst h1
      by_cases hp : p k = true
      · simp [List.filter_cons, hp, List.lookup_cons]
      · simp [List.filter_cons, hp, ih]
    · have : (k == ek) = false := by simpa using h1
      by_cases hp : p ek = true
      · simp [List.filter_cons, hp, List.lookup_cons, this, ih]
      · simp [List.filter_cons, hp, List.lookup_cons, this, ih]

theorem lookup_deleteAll (heap : Nat → alloc) (m : List (String × Nat)) (l : List Nat)
    (k : String) :
    (deleteAll heap m l).lookup k = if k ∈ idsOf heap l then none else m.lookup k := by
  rw [deleteAll_eq_filter]
  rw [lookup_filter_keys m (fun k => decide (k ∉ idsOf heap l)) k]
  by_cases h : k ∈ idsOf heap l <;> simp [h]

theorem lookup_restoreAll_of_not_mem (heap : Nat → alloc) (l : List Nat) (k : String)
    (hk : k ∉ idsOf heap l) :
    ∀ m : List (String × Nat), (restoreAll heap m l).lookup k = m.lookup k := by
  induction l with
  | nil => intro m; rfl
  | cons a l ih =>
    intro m
    simp only [idsOf, List.map_cons, List.mem_cons, not_or] at hk
    have h := ih hk.2 (mapInsert m (heap a).id a)
    simp only [restoreAll, List.foldl_cons] at h ⊢
    rw [h, lookup_mapInsert, if_neg hk.1]

theorem lookup_restoreAll_of_mem (heap : Nat → alloc) (F : String → Option Nat) (l : List Nat)
    (k : String) (hF : ∀ a ∈ l, F (heap a).id = some a) (hk : k ∈ idsOf heap l) :
    ∀ m : List (String × Nat), (restoreAll heap m l).lookup k = F k := by
  induction l with
  | nil => simp [idsOf] at hk
  | cons a l ih =>
    intro m
    by_cases hkl : k ∈ idsOf heap l
    · have h := ih (fun b hb => hF b (List.mem_cons_of_mem _ hb)) hkl (mapInsert m (heap a).id a)
      simpa only [restoreAll, List.foldl_cons] using h
    · have hka : k = (heap a).id := by
        simp only [idsOf, List.map_cons, List.mem_cons] at hk
        rcases hk with h | h
        · exact h
        · exact absurd h hkl
      have h := lookup_restoreAll_of_not_mem heap l k hkl (mapInsert m (heap a).id a)
      simp only [restoreAll, List.foldl_cons] at h ⊢
      rw [h, lookup_mapInsert, if_pos hka, hka]
      exact (hF a (List.mem_cons_self _ _)).symm

theorem idsOf_congr (heap heap1 : Nat → alloc) (l : List Nat)
    (h : ∀ a ∈ l, heap1 a = heap a) : idsOf heap1 l = idsOf heap l := by
  unfold idsOf
  apply List.map_congr_left
  intro a ha
  rw [h a ha]

/-- Deleting the reclaim candidates and restoring them gives back the roster. -/
theorem lookup_restore_delete (heap heap1 : Nat → alloc) (m m1 : List (String × Nat))
    (l : List Nat) (hheap : ∀ a ∈ l, heap1 a = heap a)
    (hreg : ∀ a ∈ l, m.lookup (heap a).id = some a)
    (hm1 : ∀ k, k ∉ idsOf heap l → m1.lookup k = m.lookup k) (k : String) :
    (restoreAll heap1 m1 l).lookup k = m.lookup k := by
  by_cases hk : k ∈ idsOf heap1 l
  · apply lookup_restoreAll_of_mem heap1 (fun k => m.lookup k) l k _ hk
    intro a ha
    show m.lookup (heap1 a).id = some a
    rw [hheap a ha]
    exact hreg a ha
  · rw [lookup_restoreAll_of_not_mem heap1 l k hk]
    rw [idsOf_congr heap heap1 l hheap] at hk
    exact hm1 k hk

/-! ## The outcomes of `Pool.new` -/

theorem detectDiskSize_allocs (p : Pool) (stat : Option Nat) :
    (p.detectDiskSize stat).allocs = p.allocs := by
  unfold Pool.detectDiskSize
  cases stat <;> rfl

theorem detectDiskSize_stopped (p : Pool) (stat : Option Nat) :
    (p.detectDiskSize stat).stopped = p.stopped := by
  unfold Pool.detectDiskSize
  cases stat <;> rfl

/-- The five ways through `Pool.new`. -/
theorem new_outcome (w : World) (env : NewEnv) (m : AllocMeta) :
    (w.pool.stopped = true ∧ Pool.new w env m = (w, .error .shuttingDown)) ∨
    (w.pool.stopped = false ∧ (Pool.reclaim w env m).free.Available m.Want = false ∧
      Pool.new w env m
        = ({ w with pool := w.pool.detectDiskSize env.stat }, .error .offerExpired)) ∨
    (w.pool.stopped = false ∧ (Pool.reclaim w env m).free.Available m.Want = true ∧
      ∃ c, (env.configure = some c ∨ (env.configure = none ∧ env.start = some c)) ∧
      Pool.new w env m
        = ({ w with
              pool := { w.pool.detectDiskSize env.stat with
                allocs := restoreAll (heapNew w env m)
                  (deleteAll w.heap w.pool.allocs (Pool.reclaim w env m).collect)
                  (Pool.reclaim w env m).collect },
              heap := heapNew w env m, brk := w.brk + 1 }, .error (.other c))) ∨
    (w.pool.stopped = false ∧ (Pool.reclaim w env m).free.Available m.Want = true ∧
      env.configure = none ∧ env.start = none ∧
      ∃ c, env.create = some c ∧
      Pool.new w env m
        = ({ w with
              pool := { w.pool.detectDiskSize env.stat with
                allocs := restoreAll (heapNew w env m)
                  (mapDelete (mapInsert
                    (deleteAll w.heap w.pool.allocs (Pool.reclaim w env m).collect)
                    env.id w.brk) env.id)
                  (Pool.reclaim w env m).collect },
              heap := heapNew w env m, brk := w.brk + 1,
              kills := w.kills ++ [w.brk] }, .error (.other c))) ∨
    (w.pool.stopped = false ∧ (Pool.reclaim w env m).free.Available m.Want = true ∧
      env.configure = none ∧ env.start = none ∧ env.create = none ∧
      Pool.new w env m
        = ({ w with
              pool := { w.pool.detectDiskSize env.stat with
                allocs := mapInsert
                  (deleteAll w.heap w.pool.allocs (Pool.reclaim w env m).collect)
                  env.id w.brk },
              heap := heapNew w env m, brk := w.brk + 1,
              stateJson := match env.encode with
                | some _ => none
                | none => some ((mapInsert
                    (deleteAll w.heap w.pool.allocs (Pool.reclaim w env m).collect)
                    env.id w.brk).map fun e => (e.1, (heapNew w env m e.2).resources)),
              kills := w.kills ++ (Pool.reclaim w env m).collect }, .ok w.brk)) := by
  by_cases hs : w.pool.stopped = true
  · left
    exact ⟨hs, by simp [Pool.new, hs]⟩
  · right
    have hs1 : w.pool.stopped = false := by simpa using hs
    by_cases ha : (Pool.reclaim w env m).free.Available m.Want = true
    · right
      cases hc : env.configure with
      | some c =>
        left
        refine ⟨hs1, ha, c, Or.inl rfl, ?_⟩
        simp [Pool.new, hs1, ha, hc, Pool.Resources, heapNew, detectDiskSize_allocs]
      | none =>
        cases hst : env.start with
        | some c =>
          left
          refine ⟨hs1, ha, c, Or.inr ⟨rfl, rfl⟩, ?_⟩
          simp [Pool.new, hs1, ha, hc, hst, Pool.Resources, heapNew, detectDiskSize_allocs]
        | none =>
          right
          cases hcr : env.create with
          | some c =>
            left
            refine ⟨hs1, ha, rfl, rfl, c, rfl, ?_⟩
            simp [Pool.new, hs1, ha, hc, hst, hcr, Pool.Resources, heapNew,
              detectDiskSize_allocs, Pool.saveState]
          | none =>
            right
            refine ⟨hs1, ha, rfl, rfl, rfl, ?_⟩
            cases hen : env.encode <;>
              simp [Pool.new, hs1, ha, hc, hst, hcr, hen, Pool.Resources, heapNew,
                detectDiskSize_allocs, Pool.saveState]
    · left
      have ha1 : (Pool.reclaim w env m).free.Available m.Want = false := by simpa using ha
      exact ⟨hs1, ha1, by simp [Pool.new, hs1, ha1, Pool.Resources]⟩

/-! ## What the reclamation of `Pool.new` computes -/

theorem sumOn_filter_split (heap : Nat → alloc) (p : Nat → Bool) (l : List Nat) (k : String) :
    sumOn heap l k = sumOn heap (l.filter p) k + sumOn heap (l.filter fun a => !p a) k := by
  induction l with
  | nil => simp [sumOn]
  | cons a l ih =>
    unfold sumOn at ih ⊢
    by_cases h : p a = true
    · simp [List.filter_cons, h, ih, add_assoc]
    · simp [List.filter_cons, h, ih]
      ring

theorem sumOn_perm (heap : Nat → alloc) (l l1 : List Nat) (k : String) (h : List.Perm l l1) :
    sumOn heap l k = sumOn heap l1 k := by
  unfold sumOn
  exact (h.map _).sum_eq

theorem sumOn_append (heap : Nat → alloc) (l l1 : List Nat) (k : String) :
    sumOn heap (l ++ l1) k = sumOn heap l k + sumOn heap l1 k := by
  simp [sumOn]

theorem sumOn_nonneg (heap : Nat → alloc) (l : List Nat) (k : String)
    (h : ∀ a ∈ l, 0 ≤ (heap a).resources.get k) : 0 ≤ sumOn heap l k := by
  unfold sumOn
  apply List.sum_nonneg
  intro x hx
  obtain ⟨a, ha, rfl⟩ := List.mem_map.1 hx
  exact h a ha

theorem get_used (w : World) (k : String) : w.used.get k = sumOn w.heap w.ptrs k := by
  unfold World.used sumOn
  rw [Resources.get_foldl_Add]
  simp [Resources.get_nil]

theorem get_reserved (w : World) (now : Int) (k : String) :
    (w.reserved now).get k = sumOn w.heap (w.livePtrs now) k := by
  unfold World.reserved sumOn
  rw [Resources.get_foldl_Add]
  simp [Resources.get_nil]

theorem get_usedAfter (heap : Nat → alloc) (used : Resources) (sel : List Nat) (k : String) :
    (usedAfter (fun a => (heap a).resources) used sel).get k = used.get k - sumOn heap sel k := by
  unfold usedAfter sumOn
  rw [Resources.get_foldl_Sub]

theorem reclaim_eq (w : World) (env : NewEnv) (m : AllocMeta) :
    Pool.reclaim w env m
      = reclaimLoop (fun a => (w.heap a).expiredBy env.now) (fun a => (w.heap a).resources)
          (w.pool.Resources env.stat).2 m.Want (w.expiredPtrs env.now).length w.used
          (w.expiredPtrs env.now) [] := rfl

/-- The reclaim list, the candidates left over and the free vector when the
reclamation loop of `Pool.new` is left. -/
theorem reclaim_facts (w : World) (env : NewEnv) (m : AllocMeta) :
    List.Perm ((Pool.reclaim w env m).collect ++ (Pool.reclaim w env m).expired)
      (w.expiredPtrs env.now) ∧
    (Pool.reclaim w env m).free
      = Resources.Sub (w.pool.Resources env.stat).2
          (usedAfter (fun a => (w.heap a).resources) w.used (Pool.reclaim w env m).collect) ∧
    ((Pool.reclaim w env m).free.Available m.Want = true ∨ (Pool.reclaim w env m).expired = []) ∧
    List.Pairwise (fun x y => (w.heap y).expiredBy env.now ≤ (w.heap x).expiredBy env.now)
      (Pool.reclaim w env m).collect ∧
    (∀ c ∈ (Pool.reclaim w env m).collect, ∀ e ∈ (Pool.reclaim w env m).expired,
      (w.heap e).expiredBy env.now ≤ (w.heap c).expiredBy env.now) ∧
    (∀ j, j < (Pool.reclaim w env m).collect.length →
      (Resources.Sub (w.pool.Resources env.stat).2
        (usedAfter (fun a => (w.heap a).resources) w.used
          ((Pool.reclaim w env m).collect.take j))).Available m.Want = false) := by
  rw [reclaim_eq]
  obtain ⟨sel, h1, h2, _, h4, h5, h6, h7, h8⟩ :=
    reclaimLoop_spec (fun a => (w.heap a).expiredBy env.now) (fun a => (w.heap a).resources)
      (w.pool.Resources env.stat).2 m.Want (w.expiredPtrs env.now).length w.used
      (w.expiredPtrs env.now) [] (le_refl _)
  simp only [List.nil_append] at h1
  rw [h1]
  exact ⟨h2, h4, h5, h6, h7, h8⟩

/-- The free vector when the loop is left: the total, less what the live allocs
and the candidates left over hold. -/
theorem get_reclaim_free (w : World) (env : NewEnv) (m : AllocMeta) (k : String) :
    (Pool.reclaim w env m).free.get k
      = (Resources.Sub (w.pool.Resources env.stat).2 (w.reserved env.now)).get k
        - sumOn w.heap (Pool.reclaim w env m).expired k := by
  obtain ⟨hperm, hfree, _⟩ := reclaim_facts w env m
  rw [hfree, Resources.get_Sub, Resources.get_Sub, get_usedAfter, get_used, get_reserved]
  have h1 := sumOn_filter_split w.heap (fun a => (w.heap a).expired env.now) w.ptrs k
  have h2 := sumOn_perm w.heap _ _ k hperm
  rw [sumOn_append] at h2
  unfold World.expiredPtrs at h2
  unfold World.livePtrs
  rw [h1, ← h2]
  ring

theorem reclaim_collect_subset (w : World) (env : NewEnv) (m : AllocMeta) :
    ∀ a ∈ (Pool.reclaim w env m).collect, a ∈ w.expiredPtrs env.now := by
  intro a ha
  exact (reclaim_facts w env m).1.subset (List.mem_append_left _ ha)

theorem reclaim_expired_subset (w : World) (env : NewEnv) (m : AllocMeta) :
    ∀ a ∈ (Pool.reclaim w env m).expired, a ∈ w.expiredPtrs env.now := by
  intro a ha
  exact (reclaim_facts w env m).1.subset (List.mem_append_right _ ha)

theorem mem_ptrs_of_mem_expiredPtrs (w : World) (now : Int) (a : Nat)
    (h : a ∈ w.expiredPtrs now) : a ∈ w.ptrs := (List.mem_filter.1 h).1

theorem expired_of_mem_expiredPtrs (w : World) (now : Int) (a : Nat)
    (h : a ∈ w.expiredPtrs now) : (w.heap a).expired now = true := (List.mem_filter.1 h).2

theorem mem_ptrs_iff (w : World) (a : Nat) : a ∈ w.ptrs ↔ ∃ k, (k, a) ∈ w.pool.allocs := by
  unfold World.ptrs
  simp

/-- Capacity refusal, in terms of the request and of the live allocs alone. -/
theorem reclaim_available_iff (w : World) (env : NewEnv) (m : AllocMeta)
    (hnn : ∀ e ∈ w.pool.allocs, ∀ k, 0 ≤ (w.heap e.2).resources.get k) :
    (Pool.reclaim w env m).free.Available m.Want
      = (Resources.Sub (w.pool.Resources env.stat).2 (w.reserved env.now)).Available m.Want := by
  have hle : ∀ k, (Pool.reclaim w env m).free.get k
      ≤ (Resources.Sub (w.pool.Resources env.stat).2 (w.reserved env.now)).get k := by
    intro k
    rw [get_reclaim_free]
    have : 0 ≤ sumOn w.heap (Pool.reclaim w env m).expired k := by
      apply sumOn_nonneg
      intro a ha
      obtain ⟨id, hid⟩ := (mem_ptrs_iff w a).1
        (mem_ptrs_of_mem_expiredPtrs w env.now a (reclaim_expired_subset w env m a ha))
      exact hnn (id, a) hid k
    linarith
  cases hA : (Pool.reclaim w env m).free.Available m.Want with
  | true => exact (Resources.Available_mono _ _ _ hle hA).symm
  | false =>
    rcases (reclaim_facts w env m).2.2.1 with h | h
    · rw [hA] at h; exact absurd h (by simp)
    · rw [← hA]
      apply Resources.Available_congr
      intro k
      rw [get_reclaim_free, h]
      simp [sumOn]

/-! ## The roster after `Pool.new` -/

theorem World.WF.lookup_of_mem_ptrs {w : World} (hwf : w.WF) (a : Nat) (ha : a ∈ w.ptrs) :
    w.pool.allocs.lookup (w.heap a).id = some a := by
  obtain ⟨k, hk⟩ := (mem_ptrs_iff w a).1 ha
  have hid := hwf.ids (k, a) hk
  simp only at hid
  rw [hid]
  exact lookup_of_mem_nodup _ k a hwf.nodup hk

theorem World.WF.lt_brk_of_mem_ptrs {w : World} (hwf : w.WF) (a : Nat) (ha : a ∈ w.ptrs) :
    a < w.brk := by
  obtain ⟨k, hk⟩ := (mem_ptrs_iff w a).1 ha
  exact hwf.allocated (k, a) hk

theorem World.WF.mem_ptrs_of_lookup {w : World} (k : String) (a : Nat)
    (h : w.pool.allocs.lookup k = some a) : a ∈ w.ptrs :=
  (mem_ptrs_iff w a).2 ⟨k, mem_of_lookup_eq_some _ k a h⟩

theorem World.WF.id_of_lookup {w : World} (hwf : w.WF) (k : String) (a : Nat)
    (h : w.pool.allocs.lookup k = some a) : (w.heap a).id = k :=
  hwf.ids (k, a) (mem_of_lookup_eq_some _ k a h)

theorem heapNew_of_lt (w : World) (env : NewEnv) (m : AllocMeta) (a : Nat) (h : a < w.brk) :
    heapNew w env m a = w.heap a := by
  unfold heapNew
  exact Function.update_noteq (Nat.ne_of_lt h) _ _

theorem heapNew_brk (w : World) (env : NewEnv) (m : AllocMeta) :
    heapNew w env m w.brk = (Pool.newAlloc env.id keepaliveInterval env.now).configure m := by
  unfold heapNew
  exact Function.update_same _ _ _

theorem lookup_fresh (w : World) (k : String) (h : k ∉ w.pool.allocs.map Prod.fst) :
    w.pool.allocs.lookup k = none := lookup_eq_none_of_not_mem _ k h

/-- Restoring the reclaim candidates undoes their deletion. -/
theorem restore_after_delete (w : World) (env : NewEnv) (m : AllocMeta) (hwf : w.WF)
    (m1 : List (String × Nat))
    (hm1 : ∀ k, k ∉ idsOf w.heap (Pool.reclaim w env m).collect →
      m1.lookup k = w.pool.allocs.lookup k) (k : String) :
    (restoreAll (heapNew w env m) m1 (Pool.reclaim w env m).collect).lookup k
      = w.pool.allocs.lookup k := by
  apply lookup_restore_delete w.heap (heapNew w env m) w.pool.allocs m1 _ _ _ hm1
  · intro a ha
    apply heapNew_of_lt
    exact hwf.lt_brk_of_mem_ptrs a
      (mem_ptrs_of_mem_expiredPtrs w env.now a (reclaim_collect_subset w env m a ha))
  · intro a ha
    exact hwf.lookup_of_mem_ptrs a
      (mem_ptrs_of_mem_expiredPtrs w env.now a (reclaim_collect_subset w env m a ha))

/-- A failed `Pool.new` leaves the roster, the stopped flag, the allocs and
`state.json` as they were. -/
theorem new_error_same (w : World) (env : NewEnv) (m : AllocMeta) (e : Error) (hwf : w.WF)
    (hfresh : env.id ∉ w.pool.allocs.map Prod.fst)
    (herr : (Pool.new w env m).2 = .error e) :
    (∀ id, (Pool.new w env m).1.pool.allocs.lookup id = w.pool.allocs.lookup id) ∧
    (Pool.new w env m).1.pool.stopped = w.pool.stopped ∧
    (∀ a, a < w.brk → (Pool.new w env m).1.heap a = w.heap a) ∧
    (Pool.new w env m).1.stateJson = w.stateJson := by
  rcases new_outcome w env m with ⟨_, h⟩ | ⟨_, _, h⟩ | ⟨_, _, c, _, h⟩ | ⟨_, _, _, _, c, _, h⟩ |
    ⟨_, _, _, _, _, h⟩
  · rw [h]; exact ⟨fun _ => rfl, rfl, fun _ _ => rfl, rfl⟩
  · rw [h]
    exact ⟨fun _ => by simp [detectDiskSize_allocs], by simp [detectDiskSize_stopped],
      fun _ _ => rfl, rfl⟩
  · rw [h]
    refine ⟨?_, by simp [detectDiskSize_stopped], fun a ha => heapNew_of_lt w env m a ha, rfl⟩
    intro id
    apply restore_after_delete w env m hwf
    intro k hk
    rw [lookup_deleteAll, if_neg hk]
  · rw [h]
    refine ⟨?_, by simp [detectDiskSize_stopped], fun a ha => heapNew_of_lt w env m a ha, rfl⟩
    intro id
    apply restore_after_delete w env m hwf
    intro k hk
    rw [lookup_mapDelete, lookup_mapInsert, lookup_deleteAll, if_neg hk]
    by_cases hki : k = env.id
    · rw [if_pos hki, hki, lookup_fresh w env.id hfresh]
    · rw [if_neg hki, if_neg hki]
  · rw [h] at herr
    simp at herr

/-- A successful `Pool.new`: the address it returns and the world it leaves. -/
theorem new_ok_world (w : World) (env : NewEnv) (m : AllocMeta) (a : Nat)
    (hok : (Pool.new w env m).2 = .ok a) :
    a = w.brk ∧
    (Pool.reclaim w env m).free.Available m.Want = true ∧
    (Pool.new w env m).1.pool.allocs
      = mapInsert (deleteAll w.heap w.pool.allocs (Pool.reclaim w env m).collect) env.id w.brk ∧
    (Pool.new w env m).1.heap = heapNew w env m ∧
    (Pool.new w env m).1.kills = w.kills ++ (Pool.reclaim w env m).collect ∧
    (Pool.new w env m).1.brk = w.brk + 1 ∧
    (Pool.new w env m).1.pool.resources = (w.pool.detectDiskSize env.stat).resources ∧
    (Pool.new w env m).1.pool.stopped = w.pool.stopped := by
  rcases new_outcome w env m with ⟨_, h⟩ | ⟨_, _, h⟩ | ⟨_, _, c, _, h⟩ | ⟨_, _, _, _, c, _, h⟩ |
    ⟨_, hav, _, _, _, h⟩
  · rw [h] at hok; simp at hok
  · rw [h] at hok; simp at hok
  · rw [h] at hok; simp at hok
  · rw [h] at hok; simp at hok
  · rw [h] at hok ⊢
    simp only [Except.ok.injEq] at hok
    exact ⟨hok.symm, hav, rfl, rfl, rfl, rfl, rfl, by simp [detectDiskSize_stopped]⟩

theorem lookup_new_ok (w : World) (env : NewEnv) (m : AllocMeta) (a : Nat)
    (hok : (Pool.new w env m).2 = .ok a) (id : String) :
    (Pool.new w env m).1.pool.allocs.lookup id
      = if id = env.id then some a
        else if id ∈ idsOf w.heap (Pool.reclaim w env m).collect then none
        else w.pool.allocs.lookup id := by
  obtain ⟨ha, _, hr, _⟩ := new_ok_world w env m a hok
  rw [hr, lookup_mapInsert, lookup_deleteAll, ha]

/-- The allocs that `Pool.new` takes out of the roster are expired. -/
theorem new_removed_expired (w : World) (env : NewEnv) (m : AllocMeta) (hwf : w.WF)
    (hfresh : env.id ∉ w.pool.allocs.map Prod.fst) (id : String) (a : Nat)
    (hin : w.pool.allocs.lookup id = some a)
    (hout : (Pool.new w env m).1.pool.allocs.lookup id ≠ some a) :
    (w.heap a).expired env.now = true := by
  cases hres : (Pool.new w env m).2 with
  | error e =>
    exact absurd ((new_error_same w env m e hwf hfresh hres).1 id ▸ hin) hout
  | ok b =>
    rw [lookup_new_ok w env m b hres id] at hout
    have hne : id ≠ env.id := by
      rintro rfl
      rw [lookup_fresh w _ hfresh] at hin
      exact absurd hin (by simp)
    rw [if_neg hne] at hout
    by_cases hmem : id ∈ idsOf w.heap (Pool.reclaim w env m).collect
    · obtain ⟨c, hc, hcid⟩ := List.mem_map.1 hmem
      have hcx := reclaim_collect_subset w env m c hc
      have hcl := hwf.lookup_of_mem_ptrs c (mem_ptrs_of_mem_expiredPtrs w env.now c hcx)
      rw [hcid, hin] at hcl
      injection hcl with hac
      rw [hac]
      exact expired_of_mem_expiredPtrs w env.now c hcx
    · rw [if_neg hmem] at hout
      exact absurd hin hout

/-! ## The allocs that remain -/

theorem World.WF.nodup_ptrs {w : World} (hwf : w.WF) : w.ptrs.Nodup := by
  unfold World.ptrs
  apply List.Nodup.map_on _ (List.Nodup.of_map _ hwf.nodup)
  intro x hx y hy hxy
  have h1 : x.1 = y.1 := by rw [← hwf.ids x hx, ← hwf.ids y hy, hxy]
  exact Prod.ext h1 hxy

theorem World.WF.nodup_collect {w : World} (hwf : w.WF) (env : NewEnv) (m : AllocMeta) :
    (Pool.reclaim w env m).collect.Nodup := by
  have h : (w.expiredPtrs env.now).Nodup := hwf.nodup_ptrs.filter _
  have h1 := (reclaim_facts w env m).1.nodup_iff.2 h
  exact List.Nodup.of_append_left h1

theorem sumOn_remaining (w : World) (sel : List Nat) (k : String) (hn : w.ptrs.Nodup)
    (hs : sel.Nodup) (hsub : ∀ a ∈ sel, a ∈ w.ptrs) :
    sumOn w.heap w.ptrs k = sumOn w.heap sel k + sumOn w.heap (w.remaining sel) k := by
  rw [sumOn_filter_split w.heap (fun a => decide (a ∈ sel)) w.ptrs k]
  have h1 : List.Perm (w.ptrs.filter fun a => decide (a ∈ sel)) sel := by
    rw [List.perm_ext_iff_of_nodup (hn.filter _) hs]
    intro a
    simp only [List.mem_filter, decide_eq_true_eq]
    exact ⟨fun h => h.2, fun h => ⟨hsub a h, h⟩⟩
  have h2 : (w.ptrs.filter fun a => !decide (a ∈ sel)) = w.remaining sel := by
    unfold World.remaining
    apply List.filter_congr
    intro a _
    simp
  rw [sumOn_perm w.heap _ _ k h1, h2]

theorem get_freeAfter (w : World) (total : Resources) (sel : List Nat) (k : String)
    (hn : w.ptrs.Nodup) (hs : sel.Nodup) (hsub : ∀ a ∈ sel, a ∈ w.ptrs) :
    (w.freeAfter total sel).get k
      = (Resources.Sub total (usedAfter (fun a => (w.heap a).resources) w.used sel)).get k := by
  unfold World.freeAfter
  rw [Resources.get_Sub, Resources.get_Sub, get_usedAfter, get_used,
    Resources.get_foldl_Add, sumOn_remaining w sel k hn hs hsub]
  simp [sumOn, Resources.get_nil]

/-! ## Invariants of the pool -/

theorem nodup_keys_filter {β : Type} (m : List (String × β)) (p : String × β → Bool)
    (h : (m.map Prod.fst).Nodup) : ((m.filter p).map Prod.fst).Nodup :=
  h.sublist ((List.filter_sublist m).map _)

theorem nodup_keys_mapInsert {β : Type} (m : List (String × β)) (k : String) (v : β)
    (h : (m.map Prod.fst).Nodup) : ((mapInsert m k v).map Prod.fst).Nodup := by
  unfold mapInsert
  rw [List.map_cons, List.nodup_cons]
  refine ⟨?_, nodup_keys_filter m _ h⟩
  intro hk
  obtain ⟨e, he, hek⟩ := List.mem_map.1 hk
  have := (List.mem_filter.1 he).2
  simp at this
  exact this hek

theorem nodup_keys_restoreAll (heap : Nat → alloc) (l : List Nat) :
    ∀ m : List (String × Nat), (m.map Prod.fst).Nodup →
      ((restoreAll heap m l).map Prod.fst).Nodup := by
  induction l with
  | nil => intro m h; exact h
  | cons a l ih =>
    intro m h
    have := ih (mapInsert m (heap a).id a) (nodup_keys_mapInsert m _ _ h)
    simpa only [restoreAll, List.foldl_cons] using this

theorem nodup_keys_deleteAll (heap : Nat → alloc) (l : List Nat) (m : List (String × Nat))
    (h : (m.map Prod.fst).Nodup) : ((deleteAll heap m l).map Prod.fst).Nodup := by
  rw [deleteAll_eq_filter]
  exact nodup_keys_filter m _ h

theorem detect_get_idem (p : Pool) (stat : Option Nat) (k : String) :
    ((p.detectDiskSize stat).detectDiskSize stat).resources.get k
      = (p.detectDiskSize stat).resources.get k := by
  unfold Resources.get
  cases stat with
  | some t =>
    simp only [Pool.detectDiskSize, lookup_mapInsert]
    by_cases h : k = "disk" <;> simp [h]
  | none =>
    simp only [Pool.detectDiskSize, lookup_mapInsert]
    by_cases h : k = "disk" <;> simp [h]

theorem sum_map_le_of_subperm (f : Nat → ℚ) (l1 l2 : List Nat) (h : List.Subperm l1 l2)
    (hnn : ∀ a ∈ l2, 0 ≤ f a) : (l1.map f).sum ≤ (l2.map f).sum := by
  obtain ⟨l, hperm, hsub⟩ := h
  rw [← (hperm.map f).sum_eq]
  apply List.Sublist.sum_le_sum (hsub.map f)
  intro x hx
  obtain ⟨a, ha, rfl⟩ := List.mem_map.1 hx
  exact hnn a ha

theorem sumOn_congr (heap heap1 : Nat → alloc) (l : List Nat) (k : String)
    (h : ∀ a ∈ l, (heap1 a).resources = (heap a).resources) :
    sumOn heap1 l k = sumOn heap l k := by
  unfold sumOn
  congr 1
  apply List.map_congr_left
  intro a ha
  rw [h a ha]

/-- The invariant passes to a world whose roster is a part of the old one and
whose registered allocs kept their id, resources and `freed` flag. -/
theorem Inv.shrink {stat : Option Nat} {w w1 : World} (h : Inv stat w)
    (hsub : ∀ e ∈ w1.pool.allocs, e ∈ w.pool.allocs)
    (hnd : (w1.pool.allocs.map Prod.fst).Nodup)
    (hheap : ∀ a ∈ w1.ptrs, (w1.heap a).id = (w.heap a).id ∧
      (w1.heap a).resources = (w.heap a).resources ∧ (w1.heap a).freed = (w.heap a).freed)
    (hbrk : w.brk ≤ w1.brk)
    (hres : w1.pool.resources = w.pool.resources ∨
      w1.pool.resources = (w.pool.detectDiskSize stat).resources) : Inv stat w1 := by
  have hptr : ∀ a ∈ w1.ptrs, a ∈ w.ptrs := by
    intro a ha
    obtain ⟨k, hk⟩ := (mem_ptrs_iff w1 a).1 ha
    exact (mem_ptrs_iff w a).2 ⟨k, hsub _ hk⟩
  have hget : ∀ k, w1.pool.resources.get k = w.pool.resources.get k := by
    intro k
    rcases hres with hr | hr
    · rw [hr]
    · rw [hr]; exact h.stable k
  refine ⟨⟨hnd, ?_, ?_⟩, ?_, ?_, ?_, ?_⟩
  · intro e he
    rw [(hheap e.2 ((mem_ptrs_iff w1 e.2).2 ⟨e.1, he⟩)).1]
    exact h.wf.ids e (hsub e he)
  · intro e he
    exact lt_of_lt_of_le (h.wf.allocated e (hsub e he)) hbrk
  · intro k
    rcases hres with hr | hr
    · have : w1.pool.detectDiskSize stat = { w1.pool with
          resources := (w.pool.detectDiskSize stat).resources } := by
        unfold Pool.detectDiskSize
        rw [hr]
        cases stat <;> rfl
      rw [this, hr]
      exact h.stable k
    · have : w1.pool.detectDiskSize stat = { w1.pool with
          resources := ((w.pool.detectDiskSize stat).detectDiskSize stat).resources } := by
        unfold Pool.detectDiskSize
        rw [hr]
        cases stat <;> rfl
      rw [this, hr]
      exact detect_get_idem w.pool stat k
  · intro a ha k
    rw [(hheap a ha).2.1]
    exact h.nonneg a (hptr a ha) k
  · intro k
    rw [hget k, sumOn_congr w.heap w1.heap w1.ptrs k (fun a ha => (hheap a ha).2.1)]
    refine le_trans ?_ (h.bound k)
    unfold sumOn
    apply sum_map_le_of_subperm
    · unfold World.ptrs
      have hnd1 : w1.pool.allocs.Nodup := List.Nodup.of_map _ hnd
      obtain ⟨l, hperm, hsl⟩ := List.subperm_of_subset hnd1 hsub
      exact ⟨l.map Prod.snd, hperm.map _, hsl.map _⟩
    · intro a ha
      exact h.nonneg a ha k
  · intro a ha
    rw [(hheap a ha).2.2]
    exact h.notFreed a (hptr a ha)

/-! ## `Pool.new` keeps the invariant -/

theorem restore_sub (w : World) (env : NewEnv) (m : AllocMeta) (hwf : w.WF)
    (m1 : List (String × Nat))
    (hm1 : ∀ k v, m1.lookup k = some v → w.pool.allocs.lookup k = some v) (k : String) (v : Nat)
    (h : (restoreAll (heapNew w env m) m1 (Pool.reclaim w env m).collect).lookup k = some v) :
    w.pool.allocs.lookup k = some v := by
  by_cases hk : k ∈ idsOf (heapNew w env m) (Pool.reclaim w env m).collect
  · rw [lookup_restoreAll_of_mem (heapNew w env m) (fun k => w.pool.allocs.lookup k) _ k _ hk] at h
    · exact h
    · intro a ha
      have hp := mem_ptrs_of_mem_expiredPtrs w env.now a (reclaim_collect_subset w env m a ha)
      show w.pool.allocs.lookup (heapNew w env m a).id = some a
      rw [heapNew_of_lt w env m a (hwf.lt_brk_of_mem_ptrs a hp)]
      exact hwf.lookup_of_mem_ptrs a hp
  · rw [lookup_restoreAll_of_not_mem _ _ k hk] at h
    exact hm1 k v h

theorem lookup_deleteAll_sub (heap : Nat → alloc) (m : List (String × Nat)) (l : List Nat)
    (k : String) (v : Nat) (h : (deleteAll heap m l).lookup k = some v) :
    m.lookup k = some v := by
  rw [lookup_deleteAll] at h
  by_cases hk : k ∈ idsOf heap l
  · rw [if_pos hk] at h; exact absurd h (by simp)
  · rw [if_neg hk] at h; exact h

theorem mem_of_restore (w : World) (env : NewEnv) (m : AllocMeta) (hwf : w.WF)
    (m1 : List (String × Nat)) (hn1 : (m1.map Prod.fst).Nodup)
    (hm1 : ∀ k v, m1.lookup k = some v → w.pool.allocs.lookup k = some v) :
    ∀ e ∈ restoreAll (heapNew w env m) m1 (Pool.reclaim w env m).collect, e ∈ w.pool.allocs := by
  intro e he
  have hl := lookup_of_mem_nodup _ e.1 e.2 (nodup_keys_restoreAll _ _ m1 hn1) he
  exact mem_of_lookup_eq_some _ _ _ (restore_sub w env m hwf m1 hm1 e.1 e.2 hl)

theorem Inv.new_error {stat : Option Nat} {w : World} (h : Inv stat w) (env : NewEnv)
    (m : AllocMeta) (hstat : env.stat = stat) (e : Error)
    (herr : (Pool.new w env m).2 = .error e) : Inv stat (Pool.new w env m).1 := by
  have hheap : ∀ a, a ∈ w.ptrs → heapNew w env m a = w.heap a := fun a ha =>
    heapNew_of_lt w env m a (h.wf.lt_brk_of_mem_ptrs a ha)
  rcases new_outcome w env m with ⟨_, hn⟩ | ⟨_, _, hn⟩ | ⟨_, _, c, _, hn⟩ |
    ⟨_, _, _, _, c, _, hn⟩ | ⟨_, _, _, _, _, hn⟩
  · rw [hn]; exact h
  · rw [hn]
    refine h.shrink ?_ ?_ ?_ (le_refl _) (Or.inr (by rw [hstat]))
    · intro e he; simpa [detectDiskSize_allocs] using he
    · simpa [detectDiskSize_allocs] using h.wf.nodup
    · intro a _; exact ⟨rfl, rfl, rfl⟩
  · rw [hn]
    have hsub := mem_of_restore w env m h.wf
      (deleteAll w.heap w.pool.allocs (Pool.reclaim w env m).collect)
      (nodup_keys_deleteAll _ _ _ h.wf.nodup)
      (fun k v hk => lookup_deleteAll_sub _ _ _ k v hk)
    refine h.shrink hsub ?_ ?_ (Nat.le_succ _) (Or.inr (by rw [hstat]))
    · exact nodup_keys_restoreAll _ _ _ (nodup_keys_deleteAll _ _ _ h.wf.nodup)
    · intro a ha
      obtain ⟨k, hk⟩ := (mem_ptrs_iff _ a).1 ha
      have := hheap a ((mem_ptrs_iff w a).2 ⟨k, hsub _ hk⟩)
      exact ⟨by rw [← this], by rw [← this], by rw [← this]⟩
  · rw [hn]
    have hn1 : ((mapDelete (mapInsert
        (deleteAll w.heap w.pool.allocs (Pool.reclaim w env m).collect) env.id w.brk)
        env.id).map Prod.fst).Nodup :=
      nodup_keys_filter _ _ (nodup_keys_mapInsert _ _ _ (nodup_keys_deleteAll _ _ _ h.wf.nodup))
    have hsub := mem_of_restore w env m h.wf _ hn1
      (fun k v hk => by
        rw [lookup_mapDelete, lookup_mapInsert] at hk
        by_cases hki : k = env.id
        · rw [if_pos hki] at hk; exact absurd hk (by simp)
        · rw [if_neg hki, if_neg hki] at hk
          exact lookup_deleteAll_sub _ _ _ k v hk)
    refine h.shrink hsub ?_ ?_ (Nat.le_succ _) (Or.inr (by rw [hstat]))
    · exact nodup_keys_restoreAll _ _ _ hn1
    · intro a ha
      obtain ⟨k, hk⟩ := (mem_ptrs_iff _ a).1 ha
      have := hheap a ((mem_ptrs_iff w a).2 ⟨k, hsub _ hk⟩)
      exact ⟨by rw [← this], by rw [← this], by rw [← this]⟩
  · rw [hn] at herr
    simp at herr

theorem sumOn_le_of_sublist (heap : Nat → alloc) (l1 l2 : List Nat) (k : String)
    (h : List.Sublist l1 l2) (hnn : ∀ a ∈ l2, 0 ≤ (heap a).resources.get k) :
    sumOn heap l1 k ≤ sumOn heap l2 k :=
  sum_map_le_of_subperm _ l1 l2 ⟨l1, List.Perm.refl _, h⟩ hnn

theorem Inv.new_ok {stat : Option Nat} {w : World} (h : Inv stat w) (env : NewEnv)
    (m : AllocMeta) (hstat : env.stat = stat) (hwant : ∀ k, 0 ≤ m.Want.get k) (a : Nat)
    (hok : (Pool.new w env m).2 = .ok a) : Inv stat (Pool.new w env m).1 := by
  obtain ⟨_, hav, hallocs, hheap, _, hbrk, hres, _⟩ := new_ok_world w env m a hok
  obtain ⟨_, hfree, _⟩ := reclaim_facts w env m
  have hold : ∀ e ∈ (deleteAll w.heap w.pool.allocs (Pool.reclaim w env m).collect).filter
      (fun e => e.1 != env.id), e ∈ w.pool.allocs ∧ e.2 ∉ (Pool.reclaim w env m).collect := by
    intro e he
    have he1 := (List.mem_filter.1 he).1
    rw [deleteAll_eq_filter] at he1
    obtain ⟨he2, he3⟩ := List.mem_filter.1 he1
    refine ⟨he2, ?_⟩
    intro hc
    have : e.1 ∈ idsOf w.heap (Pool.reclaim w env m).collect := by
      rw [← h.wf.ids e he2]
      exact List.mem_map.2 ⟨e.2, hc, rfl⟩
    simp [this] at he3
  have hmem : ∀ e ∈ (Pool.new w env m).1.pool.allocs,
      e = (env.id, w.brk) ∨ (e ∈ w.pool.allocs ∧ e.2 ∉ (Pool.reclaim w env m).collect) := by
    intro e he
    rw [hallocs] at he
    rcases List.mem_cons.1 he with h1 | h1
    · exact Or.inl h1
    · exact Or.inr (hold e h1)
  have hhp : ∀ e ∈ w.pool.allocs, heapNew w env m e.2 = w.heap e.2 := fun e he =>
    heapNew_of_lt w env m e.2 (h.wf.allocated e he)
  have hptr : ∀ b ∈ (Pool.new w env m).1.ptrs, b = w.brk ∨ b ∈ w.ptrs := by
    intro b hb
    obtain ⟨k, hk⟩ := (mem_ptrs_iff _ b).1 hb
    rcases hmem _ hk with h1 | h1
    · left; injection h1
    · right; exact (mem_ptrs_iff w b).2 ⟨k, h1.1⟩
  refine ⟨⟨?_, ?_, ?_⟩, ?_, ?_, ?_, ?_⟩
  · rw [hallocs]
    exact nodup_keys_mapInsert _ _ _ (nodup_keys_deleteAll _ _ _ h.wf.nodup)
  · intro e he
    rw [hheap]
    rcases hmem e he with h1 | h1
    · rw [h1]; simp only; rw [heapNew_brk]; rfl
    · rw [hhp e h1.1]; exact h.wf.ids e h1.1
  · intro e he
    rw [hbrk]
    rcases hmem e he with h1 | h1
    · rw [h1]; exact Nat.lt_succ_self _
    · exact Nat.lt_succ_of_lt (h.wf.allocated e h1.1)
  · intro k
    have : (Pool.new w env m).1.pool.detectDiskSize stat = { (Pool.new w env m).1.pool with
        resources := ((w.pool.detectDiskSize stat).detectDiskSize stat).resources } := by
      unfold Pool.detectDiskSize
      rw [hres, hstat]
      cases stat <;> rfl
    rw [this, hres, hstat]
    exact detect_get_idem w.pool stat k
  · intro b hb k
    rw [hheap]
    rcases hptr b hb with h1 | h1
    · rw [h1, heapNew_brk]; exact hwant k
    · rw [heapNew_of_lt w env m b (h.wf.lt_brk_of_mem_ptrs b h1)]
      exact h.nonneg b h1 k
  · intro k
    have hnd := h.wf.nodup_ptrs
    have hndc := h.wf.nodup_collect env m
    have hsubc : ∀ c ∈ (Pool.reclaim w env m).collect, c ∈ w.ptrs := fun c hc =>
      mem_ptrs_of_mem_expiredPtrs w env.now c (reclaim_collect_subset w env m c hc)
    have hsplit := sumOn_remaining w _ k hnd hndc hsubc
    have hfreek : (Pool.reclaim w env m).free.get k
        = (w.pool.detectDiskSize env.stat).resources.get k
          - sumOn w.heap (w.remaining (Pool.reclaim w env m).collect) k := by
      rw [hfree, Resources.get_Sub, get_usedAfter, get_used, hsplit]
      simp [Pool.Resources, Resources.Set]
    have hsl : List.Sublist
        (((deleteAll w.heap w.pool.allocs (Pool.reclaim w env m).collect).filter
          (fun e => e.1 != env.id)).map Prod.snd)
        (w.remaining (Pool.reclaim w env m).collect) := by
      have h1 : List.Sublist
          (((deleteAll w.heap w.pool.allocs (Pool.reclaim w env m).collect).filter
            (fun e => e.1 != env.id)).map Prod.snd) w.ptrs := by
        rw [deleteAll_eq_filter]
        exact ((List.filter_sublist _).trans (List.filter_sublist _)).map _
      have h2 := h1.filter (fun a => decide (a ∉ (Pool.reclaim w env m).collect))
      rw [List.filter_eq_self.2] at h2
      · exact h2
      · intro b hb
        obtain ⟨e, he, rfl⟩ := List.mem_map.1 hb
        simpa using (hold e he).2
    have hrem_nn : ∀ b ∈ w.remaining (Pool.reclaim w env m).collect,
        0 ≤ (w.heap b).resources.get k := fun b hb =>
      h.nonneg b (List.mem_filter.1 hb).1 k
    have hle := sumOn_le_of_sublist w.heap _ _ k hsl hrem_nn
    have hold_eq : sumOn (heapNew w env m)
        (((deleteAll w.heap w.pool.allocs (Pool.reclaim w env m).collect).filter
          (fun e => e.1 != env.id)).map Prod.snd) k
        = sumOn w.heap
        (((deleteAll w.heap w.pool.allocs (Pool.reclaim w env m).collect).filter
          (fun e => e.1 != env.id)).map Prod.snd) k := by
      apply sumOn_congr
      intro b hb
      obtain ⟨e, he, rfl⟩ := List.mem_map.1 hb
      rw [hhp e (hold e he).1]
    have hsum : sumOn (Pool.new w env m).1.heap (Pool.new w env m).1.ptrs k
        = m.Want.get k + sumOn w.heap
          (((deleteAll w.heap w.pool.allocs (Pool.reclaim w env m).collect).filter
            (fun e => e.1 != env.id)).map Prod.snd) k := by
      rw [← hold_eq, hheap]
      unfold World.ptrs
      rw [hallocs]
      simp only [mapInsert, List.map_cons, sumOn, List.sum_cons]
      rw [heapNew_brk]
      rfl
    rw [hsum, hres, hstat]
    by_cases hk : k ∈ m.Want.keys
    · have := (Resources.Available_iff _ _).1 hav k hk
      rw [hfreek, hstat] at this
      linarith
    · rw [Resources.get_eq_zero_of_not_mem _ k hk, h.stable k]
      have hc_nn : 0 ≤ sumOn w.heap (Pool.reclaim w env m).collect k :=
        sumOn_nonneg _ _ _ (fun c hc => h.nonneg c (hsubc c hc) k)
      have := h.bound k
      linarith
  · intro b hb
    rw [hheap]
    rcases hptr b hb with h1 | h1
    · rw [h1, heapNew_brk]; rfl
    · rw [heapNew_of_lt w env m b (h.wf.lt_brk_of_mem_ptrs b h1)]
      exact h.notFreed b h1

theorem Inv.new {stat : Option Nat} {w : World} (h : Inv stat w) (env : NewEnv)
    (m : AllocMeta) (hstat : env.stat = stat) (hwant : ∀ k, 0 ≤ m.Want.get k) :
    Inv stat (Pool.new w env m).1 := by
  cases hres : (Pool.new w env m).2 with
  | error e => exact h.new_error env m hstat e hres
  | ok a => exact h.new_ok env m hstat hwant a hres

/-! ## `Keepalive`, `Free` and `Offers` keep the invariant -/

theorem alive_iff (w : World) (a : Nat) :
    Pool.alive w a = true ↔ w.pool.allocs.lookup (w.heap a).id = some a := by
  simp [Pool.alive]

/-- The two ways through `alloc.Keepalive`. -/
theorem keepalive_outcome (w : World) (a : Nat) (now next : Int) :
    (w.pool.allocs.lookup (w.heap a).id ≠ some a ∧
      alloc.Keepalive w a now next = (w, 0, some .allocExpired)) ∨
    (w.pool.allocs.lookup (w.heap a).id = some a ∧
      alloc.Keepalive w a now next
        = ({ w with heap := Function.update w.heap a ({ w.heap a with
                lastKeepalive := now, expires := now + min next maxKeepaliveInterval }) },
            min next maxKeepaliveInterval, none)) := by
  by_cases h : w.pool.allocs.lookup (w.heap a).id = some a
  · right
    refine ⟨h, ?_⟩
    have ha : Pool.alive w a = true := (alive_iff w a).2 h
    have hmin : (if next > maxKeepaliveInterval then maxKeepaliveInterval else next)
        = min next maxKeepaliveInterval := by
      by_cases hgt : next > maxKeepaliveInterval
      · rw [if_pos hgt, min_eq_right (le_of_lt hgt)]
      · rw [if_neg hgt, min_eq_left (not_lt.1 hgt)]
    simp only [alloc.Keepalive, ha, hmin]
    rfl
  · left
    refine ⟨h, ?_⟩
    have ha : Pool.alive w a = false := by
      rw [← Bool.not_eq_true, alive_iff]; exact h
    simp [alloc.Keepalive, ha]

theorem Inv.keepalive {stat : Option Nat} {w : World} (h : Inv stat w) (a : Nat)
    (now next : Int) : Inv stat (alloc.Keepalive w a now next).1 := by
  rcases keepalive_outcome w a now next with ⟨_, hk⟩ | ⟨_, hk⟩
  · rw [hk]; exact h
  · rw [hk]
    refine h.shrink (fun e he => he) h.wf.nodup ?_ (le_refl _) (Or.inl rfl)
    intro b _
    show (Function.update w.heap a _ b).id = _ ∧ (Function.update w.heap a _ b).resources = _ ∧
      (Function.update w.heap a _ b).freed = _
    by_cases hb : b = a
    · subst hb; simp
    · rw [Function.update_noteq hb]; exact ⟨rfl, rfl, rfl⟩

/-- The three ways through `alloc.Free`. -/
theorem free_outcome (w : World) (a : Nat) (create encode : Option Nat) :
    (w.pool.allocs.lookup (w.heap a).id ≠ some a ∧
      alloc.Free w a create encode = (alloc.release w a, none)) ∨
    (w.pool.allocs.lookup (w.heap a).id = some a ∧ ∃ c, create = some c ∧
      alloc.Free w a create encode
        = ({ w with pool := { w.pool with
              allocs := mapInsert (mapDelete w.pool.allocs (w.heap a).id) (w.heap a).id a } },
            some (.other c))) ∨
    (w.pool.allocs.lookup (w.heap a).id = some a ∧ create = none ∧
      alloc.Free w a create encode
        = (alloc.release
            { w with
              pool := { w.pool with allocs := mapDelete w.pool.allocs (w.heap a).id },
              stateJson := match encode with
                | some _ => none
                | none => some ((mapDelete w.pool.allocs (w.heap a).id).map
                    fun e => (e.1, (w.heap e.2).resources)) } a, none)) := by
  by_cases h : w.pool.allocs.lookup (w.heap a).id = some a
  · right
    cases hc : create with
    | some c =>
      left
      refine ⟨h, c, rfl, ?_⟩
      simp [alloc.Free, Pool.free, h, Pool.saveState]
    | none =>
      right
      refine ⟨h, rfl, ?_⟩
      cases encode <;> simp [alloc.Free, Pool.free, h, Pool.saveState]
  · left
    refine ⟨h, ?_⟩
    simp [alloc.Free, Pool.free, h]

theorem release_pool (w : World) (a : Nat) : (alloc.release w a).pool = w.pool := by
  by_cases h : (w.heap a).freed = true <;> simp [alloc.release, h]

theorem release_brk (w : World) (a : Nat) : (alloc.release w a).brk = w.brk := by
  by_cases h : (w.heap a).freed = true <;> simp [alloc.release, h]

theorem release_heap (w : World) (a : Nat) :
    (alloc.release w a).heap = Function.update w.heap a { w.heap a with freed := true } := by
  by_cases h : (w.heap a).freed = true <;> simp [alloc.release, h]

theorem release_heap_ne (w : World) (a b : Nat) (h : b ≠ a) :
    (alloc.release w a).heap b = w.heap b := by
  rw [release_heap, Function.update_noteq h]

theorem Inv.free {stat : Option Nat} {w : World} (h : Inv stat w) (a : Nat)
    (create encode : Option Nat) : Inv stat (alloc.Free w a create encode).1 := by
  rcases free_outcome w a create encode with ⟨hn, hf⟩ | ⟨hr, c, _, hf⟩ | ⟨hr, _, hf⟩
  · rw [hf]
    have hnot : a ∉ w.ptrs := fun ha => hn (h.wf.lookup_of_mem_ptrs a ha)
    refine h.shrink ?_ ?_ ?_ ?_ (Or.inl ?_)
    · intro e he; rw [release_pool] at he; exact he
    · rw [release_pool]; exact h.wf.nodup
    · intro b hb
      have hb1 : b ∈ w.ptrs := by
        unfold World.ptrs at hb ⊢
        rw [release_pool] at hb
        exact hb
      have hne : b ≠ a := fun hba => hnot (hba ▸ hb1)
      rw [release_heap_ne w a b hne]
      exact ⟨rfl, rfl, rfl⟩
    · rw [release_brk]
    · rw [release_pool]
  · rw [hf]
    refine h.shrink ?_ ?_ ?_ (le_refl _) (Or.inl rfl)
    · intro e he
      rcases List.mem_cons.1 he with h1 | h1
      · rw [h1]; exact mem_of_lookup_eq_some _ _ _ hr
      · exact (List.mem_filter.1 (List.mem_filter.1 h1).1).1
    · exact nodup_keys_mapInsert _ _ _ (nodup_keys_filter _ _ h.wf.nodup)
    · intro b _; exact ⟨rfl, rfl, rfl⟩
  · rw [hf]
    have hsub : ∀ e ∈ mapDelete w.pool.allocs (w.heap a).id, e ∈ w.pool.allocs ∧ e.2 ≠ a := by
      intro e he
      obtain ⟨he1, he2⟩ := List.mem_filter.1 he
      refine ⟨he1, ?_⟩
      intro hea
      have := h.wf.ids e he1
      rw [hea] at this
      simp [this] at he2
    refine h.shrink ?_ ?_ ?_ ?_ (Or.inl ?_)
    · intro e he; rw [release_pool] at he; exact (hsub e he).1
    · rw [release_pool]; exact nodup_keys_filter _ _ h.wf.nodup
    · intro b hb
      have hne : b ≠ a := by
        unfold World.ptrs at hb
        rw [release_pool] at hb
        obtain ⟨e, he, rfl⟩ := List.mem_map.1 hb
        exact (hsub e he).2
      rw [release_heap_ne _ a b hne]
      exact ⟨rfl, rfl, rfl⟩
    · rw [release_brk]
    · rw [release_pool]

theorem offers_world (w : World) (now : Int) (stat : Option Nat) :
    (Pool.Offers w now stat).1 = w ∨
    (Pool.Offers w now stat).1 = { w with pool := w.pool.detectDiskSize stat } := by
  unfold Pool.Offers
  split
  · left; rfl
  · right
    simp only [Pool.Resources]
    split <;> rfl

theorem Inv.offers {stat : Option Nat} {w : World} (h : Inv stat w) (now : Int) :
    Inv stat (Pool.Offers w now stat).1 := by
  rcases offers_world w now stat with ho | ho
  · rw [ho]; exact h
  · rw [ho]
    refine h.shrink ?_ ?_ ?_ (le_refl _) (Or.inr rfl)
    · intro e he; simpa [detectDiskSize_allocs] using he
    · simpa [detectDiskSize_allocs] using h.wf.nodup
    · intro a _; exact ⟨rfl, rfl, rfl⟩

theorem Inv.init {stat : Option Nat} {w : World} (hempty : w.pool.allocs = [])
    (hnn : ∀ k, 0 ≤ w.pool.resources.get k)
    (hdisk : ∃ p0 : Pool, w.pool.resources = (p0.detectDiskSize stat).resources) :
    Inv stat w := by
  have hp : w.ptrs = [] := by unfold World.ptrs; rw [hempty]; rfl
  refine ⟨⟨by rw [hempty]; exact List.nodup_nil, by rw [hempty]; simp, by rw [hempty]; simp⟩,
    ?_, by rw [hp]; simp, ?_, by rw [hp]; simp⟩
  · intro k
    obtain ⟨p0, hp0⟩ := hdisk
    have : w.pool.detectDiskSize stat = { w.pool with
        resources := ((p0.detectDiskSize stat).detectDiskSize stat).resources } := by
      unfold Pool.detectDiskSize
      rw [hp0]
      cases stat <;> rfl
    rw [this, hp0]
    exact detect_get_idem p0 stat k
  · intro k
    rw [hp]
    simpa [sumOn] using hnn k

/-- Every reachable state satisfies the invariant. -/
theorem Reachable.inv {stat : Option Nat} {w : World} (h : Reachable stat w) : Inv stat w := by
  induction h with
  | init w hempty hnn hdisk => exact Inv.init hempty hnn hdisk
  | accept w env m _ hstat hwant ih => exact ih.new env m hstat hwant
  | keepalive w a now next _ ih => exact ih.keepalive a now next
  | free w a create encode _ ih => exact ih.free a create encode
  | offers w now _ ih => exact ih.offers now

theorem sumOn_live_le (w : World) (now : Int) (k : String)
    (hnn : ∀ a ∈ w.ptrs, 0 ≤ (w.heap a).resources.get k) :
    sumOn w.heap (w.livePtrs now) k ≤ sumOn w.heap w.ptrs k :=
  sumOn_le_of_sublist w.heap _ _ k (List.filter_sublist _) hnn

/-! ## The alloc after `Keepalive` -/

/-- The alloc at `a` after `Keepalive`: untouched when the alloc is not
registered, otherwise with the new lease. -/
theorem keepalive_spec_aux (w : World) (a : Nat) (now next : Int) :
    ((alloc.Keepalive w a now next).1.heap a = w.heap a ∧
      w.pool.allocs.lookup (w.heap a).id ≠ some a) ∨
    (w.pool.allocs.lookup (w.heap a).id = some a ∧
      ((alloc.Keepalive w a now next).1.heap a).lastKeepalive = now ∧
      ((alloc.Keepalive w a now next).1.heap a).expires
        = now + min next maxKeepaliveInterval) := by
  rcases keepalive_outcome w a now next with ⟨hn, h⟩ | ⟨hr, h⟩
  · left; rw [h]; exact ⟨rfl, hn⟩
  · right
    rw [h]
    refine ⟨hr, ?_, ?_⟩
    · show (Function.update w.heap a _ a).lastKeepalive = now
      rw [Function.update_same]
    · show (Function.update w.heap a _ a).expires = _
      rw [Function.update_same]

/-! ## The recovery loop of `Pool.Start` -/

theorem restorableNames_cons (info : DirEntry) (infos : List DirEntry) :
    restorableNames (info :: infos)
      = if info.restorable = true then info.name :: restorableNames infos
        else restorableNames infos := by
  unfold restorableNames
  by_cases h : info.restorable = true <;> simp [List.filter_cons, h]

theorem restorableNames_subset (infos : List DirEntry) :
    ∀ n ∈ restorableNames infos, n ∈ infos.map DirEntry.name := by
  intro n hn
  obtain ⟨e, he, rfl⟩ := List.mem_map.1 hn
  exact List.mem_map.2 ⟨e, (List.mem_filter.1 he).1, rfl⟩

/-- What the loop over `allocs/` does when it ends without error: the allocs
it starts, the allocs it kills, and the roster it builds. -/
theorem restoreLoop_spec (now : Int) :
    ∀ (infos : List DirEntry) (w : World) (allocs : List (String × Resources))
      (started : List Nat),
      (Pool.restoreLoop now infos w allocs started).err = none →
      (infos.map DirEntry.name).Nodup →
      ∃ news kl : List Nat,
        (Pool.restoreLoop now infos w allocs started).started = started ++ news ∧
        (Pool.restoreLoop now infos w allocs started).world.kills = w.kills ++ kl ∧
        idsOf (Pool.restoreLoop now infos w allocs started).world.heap news
          = restorableNames infos ∧
        idsOf (Pool.restoreLoop now infos w allocs started).world.heap kl
          = (restorableNames infos).filter (fun n => !(allocs.lookup n).isSome) ∧
        (∀ a, a < w.brk →
          (Pool.restoreLoop now infos w allocs started).world.heap a = w.heap a) ∧
        (∀ a ∈ news, w.brk ≤ a) ∧
        (∀ id, ¬ (id ∈ restorableNames infos ∧ (allocs.lookup id).isSome = true) →
          (Pool.restoreLoop now infos w allocs started).world.pool.allocs.lookup id
            = w.pool.allocs.lookup id) ∧
        (∀ id, id ∈ restorableNames infos → (allocs.lookup id).isSome = true →
          ∃ a ∈ news,
            (Pool.restoreLoop now infos w allocs started).world.pool.allocs.lookup id = some a ∧
            ((Pool.restoreLoop now infos w allocs started).world.heap a).id = id) := by
  intro infos
  induction infos with
  | nil =>
    intro w allocs started _ _
    exact ⟨[], [], by simp [Pool.restoreLoop, idsOf, restorableNames]⟩
  | cons info infos ih =>
    intro w allocs started herr hnd
    rw [List.map_cons, List.nodup_cons] at hnd
    obtain ⟨hfresh, hnd1⟩ := hnd
    have hnotin : info.name ∉ restorableNames infos := fun h =>
      hfresh (restorableNames_subset infos _ h)
    by_cases hdir : info.isDir = true
    · cases hres : info.restore with
      | notExist =>
        have hR : Pool.restoreLoop now (info :: infos) w allocs started
            = Pool.restoreLoop now infos
                { w with heap := Function.update w.heap w.brk (Pool.newAlloc info.name 0 now),
                         brk := w.brk + 1 } allocs started := by
          simp [Pool.restoreLoop, hdir, hres]
        have hnames : restorableNames (info :: infos) = restorableNames infos := by
          rw [restorableNames_cons, if_neg]
          simp [DirEntry.restorable, hres]
        rw [hR] at herr ⊢
        rw [hnames]
        obtain ⟨news, kl, h1, h2, h3, h4, h5, h6, h7, h8⟩ := ih _ allocs started herr hnd1
        refine ⟨news, kl, h1, h2, h3, h4, ?_, ?_, h7, h8⟩
        · intro a ha
          rw [h5 a (Nat.lt_succ_of_lt ha)]
          exact Function.update_noteq (Nat.ne_of_lt ha) _ _
        · intro a ha
          exact Nat.le_of_succ_le (h6 a ha)
      | failed e =>
        have hR : (Pool.restoreLoop now (info :: infos) w allocs started).err
            = some (.other e) := by
          simp [Pool.restoreLoop, hdir, hres]
        rw [hR] at herr
        exact absurd herr (by simp)
      | loaded m =>
        have hnames : restorableNames (info :: infos) = info.name :: restorableNames infos := by
          rw [restorableNames_cons, if_pos]
          simp [DirEntry.restorable, hres, hdir]
        cases hst : info.start with
        | some e =>
          have hR : (Pool.restoreLoop now (info :: infos) w allocs started).err
              = some (.other e) := by
            simp [Pool.restoreLoop, hdir, hres, hst]
          rw [hR] at herr
          exact absurd herr (by simp)
        | none =>
          by_cases hl : (allocs.lookup info.name).isSome = true
          · have hR : Pool.restoreLoop now (info :: infos) w allocs started
                = Pool.restoreLoop now infos
                    { w with
                      pool := { w.pool with
                        allocs := mapInsert w.pool.allocs info.name w.brk },
                      heap := Function.update w.heap w.brk
                        ({ Pool.newAlloc info.name 0 now with resources := m.Want }),
                      brk := w.brk + 1 }
                    (mapDelete allocs info.name) (started ++ [w.brk]) := by
              simp [Pool.restoreLoop, hdir, hres, hst, hl]
            rw [hR] at herr ⊢
            rw [hnames]
            obtain ⟨news, kl, h1, h2, h3, h4, h5, h6, h7, h8⟩ :=
              ih _ (mapDelete allocs info.name) (started ++ [w.brk]) herr hnd1
            have hbrk := h5 w.brk (Nat.lt_succ_self _)
            simp only [Function.update_same] at hbrk
            have hlk : ∀ n, n ≠ info.name →
                (mapDelete allocs info.name).lookup n = allocs.lookup n := by
              intro n hn
              rw [lookup_mapDelete, if_neg hn]
            have hroster : ∀ id, id ∉ restorableNames infos →
                (Pool.restoreLoop now infos
                    { w with
                      pool := { w.pool with
                        allocs := mapInsert w.pool.allocs info.name w.brk },
                      heap := Function.update w.heap w.brk
                        ({ Pool.newAlloc info.name 0 now with resources := m.Want }),
                      brk := w.brk + 1 }
                    (mapDelete allocs info.name)
                    (started ++ [w.brk])).world.pool.allocs.lookup id
                  = (mapInsert w.pool.allocs info.name w.brk).lookup id :=
              fun id hid => h7 id (fun hh => hid hh.1)
            refine ⟨w.brk :: news, kl, ?_, h2, ?_, ?_, ?_, ?_, ?_, ?_⟩
            · rw [h1]; simp
            · simp only [idsOf, List.map_cons] at h3 ⊢
              rw [h3, hbrk]
              rfl
            · rw [h4, List.filter_cons]
              simp only [hl, Bool.not_true]
              simp only [Bool.false_eq_true, if_false]
              apply List.filter_congr
              intro n hn
              rw [hlk n (fun h => hnotin (h ▸ hn))]
            · intro a ha
              rw [h5 a (Nat.lt_succ_of_lt ha)]
              exact Function.update_noteq (Nat.ne_of_lt ha) _ _
            · intro a ha
              rcases List.mem_cons.1 ha with rfl | ha
              · exact le_refl _
              · exact Nat.le_of_succ_le (h6 a ha)
            · intro id hid
              have hne : id ≠ info.name := by
                rintro rfl
                exact hid ⟨List.mem_cons_self _ _, hl⟩
              rw [h7 id]
              · show (mapInsert w.pool.allocs info.name w.brk).lookup id = _
                rw [lookup_mapInsert, if_neg hne]
              · rintro ⟨hm, hs⟩
                rw [hlk id hne] at hs
                exact hid ⟨List.mem_cons_of_mem _ hm, hs⟩
            · intro id hid hs
              rcases List.mem_cons.1 hid with rfl | hid
              · refine ⟨w.brk, List.mem_cons_self _ _, ?_, ?_⟩
                · rw [hroster _ hnotin, lookup_mapInsert, if_pos rfl]
                · rw [hbrk]; rfl
              · have hne : id ≠ info.name := fun h => hnotin (h ▸ hid)
                obtain ⟨a, ha, hla, hida⟩ := h8 id hid (by rw [hlk id hne]; exact hs)
                exact ⟨a, List.mem_cons_of_mem _ ha, hla, hida⟩
          · have hR : Pool.restoreLoop now (info :: infos) w allocs started
                = Pool.restoreLoop now infos
                    { w with
                      heap := Function.update w.heap w.brk
                        ({ Pool.newAlloc info.name 0 now with resources := m.Want }),
                      brk := w.brk + 1, kills := w.kills ++ [w.brk] }
                    allocs (started ++ [w.brk]) := by
              simp [Pool.restoreLoop, hdir, hres, hst, hl]
            rw [hR] at herr ⊢
            rw [hnames]
            obtain ⟨news, kl, h1, h2, h3, h4, h5, h6, h7, h8⟩ :=
              ih _ allocs (started ++ [w.brk]) herr hnd1
            have hbrk := h5 w.brk (Nat.lt_succ_self _)
            simp only [Function.update_same] at hbrk
            refine ⟨w.brk :: news, w.brk :: kl, ?_, ?_, ?_, ?_, ?_, ?_, ?_, ?_⟩
            · rw [h1]; simp
            · rw [h2]; simp
            · simp only [idsOf, List.map_cons] at h3 ⊢
              rw [h3, hbrk]
              rfl
            · simp only [idsOf, List.map_cons] at h4 ⊢
              rw [h4, hbrk, List.filter_cons]
              simp only [hl, Bool.not_false, if_true]
              rfl
            · intro a ha
              rw [h5 a (Nat.lt_succ_of_lt ha)]
              exact Function.update_noteq (Nat.ne_of_lt ha) _ _
            · intro a ha
              rcases List.mem_cons.1 ha with rfl | ha
              · exact le_refl _
              · exact Nat.le_of_succ_le (h6 a ha)
            · intro id hid
              rw [h7 id]
              rintro ⟨hm, hs⟩
              exact hid ⟨List.mem_cons_of_mem _ hm, hs⟩
            · intro id hid hs
              rcases List.mem_cons.1 hid with rfl | hid
              · exact absurd hs hl
              · obtain ⟨a, ha, hla, hida⟩ := h8 id hid hs
                exact ⟨a, List.mem_cons_of_mem _ ha, hla, hida⟩
    · have hR : Pool.restoreLoop now (info :: infos) w allocs started
          = Pool.restoreLoop now infos w allocs started := by
        simp [Pool.restoreLoop, hdir]
      have hnames : restorableNames (info :: infos) = restorableNames infos := by
        rw [restorableNames_cons, if_neg]
        simp [DirEntry.restorable, hdir]
      rw [hR] at herr ⊢
      rw [hnames]
      exact ih w allocs started herr hnd1

/-! ## Admission -/

theorem Resources.get_nonneg_of_entries (r : Resources) (h : ∀ e ∈ r, 0 ≤ e.2) (k : String) :
    0 ≤ r.get k := by
  unfold Resources.get
  cases hl : r.lookup k with
  | none => simp
  | some v => exact h (k, v) (mem_of_lookup_eq_some r k v hl)

/-- C1. For a pool that is not stopped and whose allocs hold nonnegative
resources, `Pool.new` (Accept) fails with NotExist/OfferExpired if and only if
the request is not `Available` in the total minus the summed resources of the
non-expired allocs, that is, if some requested dimension exceeds that
difference. -/
theorem accept_offerExpired_iff (w : World) (env : NewEnv) (m : AllocMeta)
    (hs : w.pool.stopped = false)
    (hnn : ∀ e ∈ w.pool.allocs, ∀ k, 0 ≤ (w.heap e.2).resources.get k) :
    ((Pool.new w env m).2 = .error .offerExpired ↔
      (Resources.Sub (w.pool.Resources env.stat).2 (w.reserved env.now)).Available m.Want
        = false) ∧
    ((Resources.Sub (w.pool.Resources env.stat).2 (w.reserved env.now)).Available m.Want = false ↔
      ∃ k ∈ m.Want.keys, (w.pool.Resources env.stat).2.get k
        - sumOn w.heap (w.livePtrs env.now) k < m.Want.get k) := by
  constructor
  · rw [← reclaim_available_iff w env m hnn]
    rcases new_outcome w env m with ⟨h1, _⟩ | ⟨_, hav, h⟩ | ⟨_, hav, c, _, h⟩ |
      ⟨_, hav, _, _, c, _, h⟩ | ⟨_, hav, _, _, _, h⟩
    · rw [hs] at h1; exact absurd h1 (by simp)
    · rw [h, hav]; simp
    · rw [h, hav]; simp
    · rw [h, hav]; simp
    · rw [h, hav]; simp
  · rw [← Bool.not_eq_true, Resources.Available_iff]
    simp only [not_forall, not_le, Resources.get_Sub, get_reserved, exists_prop]

theorem accept_offerExpired_iff_witness :
    worldFull.pool.stopped = false ∧
    (Pool.new worldFull envFull wantOne).2 = .error .offerExpired ∧
    ((Pool.new worldFull envFull wantOne).2 = .error .offerExpired ↔
      (Resources.Sub (worldFull.pool.Resources envFull.stat).2
        (worldFull.reserved envFull.now)).Available wantOne.Want = false) :=
  ⟨by decide, by decide!,
    (accept_offerExpired_iff worldFull envFull wantOne (by decide)
      (fun _ _ k => Resources.get_nonneg_of_entries [("mem", 10), ("cpu", 1), ("disk", 10)]
        (by decide!) k)).1⟩

/-- C2. If `Pool.new` (Accept) returns an error, whichever it is, the roster
maps the same ids to the same allocs as before the call, the stopped flag is
unchanged, the allocs that existed are untouched and so is `state.json`. The
roster is well-formed and `newID` returns an id that is not registered. -/
theorem accept_error_rollback (w : World) (env : NewEnv) (m : AllocMeta) (e : Error)
    (hwf : w.WF) (hfresh : env.id ∉ w.pool.allocs.map Prod.fst)
    (herr : (Pool.new w env m).2 = .error e) :
    (∀ id, (Pool.new w env m).1.pool.allocs.lookup id = w.pool.allocs.lookup id) ∧
    (Pool.new w env m).1.pool.stopped = w.pool.stopped ∧
    (∀ a, a < w.brk → (Pool.new w env m).1.heap a = w.heap a) ∧
    (Pool.new w env m).1.stateJson = w.stateJson :=
  new_error_same w env m e hwf hfresh herr

theorem worldTwo_WF : worldTwo.WF := ⟨by decide, by decide, by decide⟩

theorem worldFull_WF : worldFull.WF := ⟨by decide, by decide, by decide⟩

theorem accept_error_rollback_witness :
    (Pool.new worldTwo { envTwo with create := some 28 } wantAll).2 = .error (.other 28) ∧
    ((∀ id, (Pool.new worldTwo { envTwo with create := some 28 } wantAll).1.pool.allocs.lookup id
        = worldTwo.pool.allocs.lookup id) ∧
      (Pool.new worldTwo { envTwo with create := some 28 } wantAll).1.pool.stopped
        = worldTwo.pool.stopped ∧
      (∀ a, a < worldTwo.brk →
        (Pool.new worldTwo { envTwo with create := some 28 } wantAll).1.heap a
          = worldTwo.heap a) ∧
      (Pool.new worldTwo { envTwo with create := some 28 } wantAll).1.stateJson
        = worldTwo.stateJson) :=
  ⟨by decide!,
    accept_error_rollback worldTwo { envTwo with create := some 28 } wantAll (.other 28)
      worldTwo_WF (by decide) (by decide!)⟩

/-- C4. `Pool.new` (Accept) never removes an alloc that is not expired: an
alloc registered before the call and no longer registered after it had
`expires < now`. The roster is well-formed and `newID` returns an id that is
not registered. -/
theorem accept_removes_only_expired (w : World) (env : NewEnv) (m : AllocMeta) (hwf : w.WF)
    (hfresh : env.id ∉ w.pool.allocs.map Prod.fst) (id : String) (a : Nat)
    (hin : w.pool.allocs.lookup id = some a)
    (hout : (Pool.new w env m).1.pool.allocs.lookup id ≠ some a) :
    (w.heap a).expires < env.now := by
  have h := new_removed_expired w env m hwf hfresh id a hin hout
  simpa [alloc.expired] using h

theorem accept_removes_only_expired_witness :
    worldTwo.pool.allocs.lookup "a" = some 0 ∧
    (Pool.new worldTwo envTwo wantAll).1.pool.allocs.lookup "a" ≠ some 0 ∧
    (worldTwo.heap 0).expires < envTwo.now :=
  ⟨by decide, by decide!,
    accept_removes_only_expired worldTwo envTwo wantAll worldTwo_WF (by decide) "a" 0
      (by decide) (by decide!)⟩

/-! ## Which allocs are reclaimed -/

/-- C5. When `Pool.new` (Accept) succeeds, the allocs it reclaims (and kills)
are the first `k` of the expired allocs in an order of decreasing `expiredBy`:
every reclaimed alloc is at least as overdue as every expired alloc that is
left. `k` is the least number for which the request is `Available` in the total
minus the resources of the allocs that remain, so `k = 0` when the request
already fits. The new roster is the old one without these allocs and with the
new alloc, which holds the requested resources. The roster is well-formed and
`newID` returns an id that is not registered. -/
theorem accept_reclaims_most_overdue (w : World) (env : NewEnv) (m : AllocMeta) (a : Nat)
    (hwf : w.WF) (hfresh : env.id ∉ w.pool.allocs.map Prod.fst)
    (hok : (Pool.new w env m).2 = .ok a) :
    ∃ collect sorted : List Nat,
      (Pool.new w env m).1.kills = w.kills ++ collect ∧
      List.Perm sorted (w.expiredPtrs env.now) ∧
      List.Pairwise (fun x y => (w.heap y).expiredBy env.now ≤ (w.heap x).expiredBy env.now)
        sorted ∧
      collect = sorted.take collect.length ∧
      (∀ c ∈ collect, ∀ e ∈ w.expiredPtrs env.now, e ∉ collect →
        (w.heap e).expiredBy env.now ≤ (w.heap c).expiredBy env.now) ∧
      (w.freeAfter (w.pool.Resources env.stat).2 collect).Available m.Want = true ∧
      (∀ j, j < collect.length →
        (w.freeAfter (w.pool.Resources env.stat).2 (collect.take j)).Available m.Want
          = false) ∧
      ((w.freeAfter (w.pool.Resources env.stat).2 []).Available m.Want = true →
        collect = []) ∧
      (∀ id, (Pool.new w env m).1.pool.allocs.lookup id
        = if id = env.id then some a
          else if id ∈ idsOf w.heap collect then none
          else w.pool.allocs.lookup id) ∧
      w.pool.allocs.lookup env.id = none ∧
      a ∉ w.ptrs ∧
      ((Pool.new w env m).1.heap a).id = env.id ∧
      ((Pool.new w env m).1.heap a).resources = m.Want := by
  obtain ⟨ha, hav, _, hheap, hkills, _⟩ := new_ok_world w env m a hok
  obtain ⟨hperm, hfree, _, hpair, hle, hmin⟩ := reclaim_facts w env m
  have hnd := hwf.nodup_ptrs
  have hndc := hwf.nodup_collect env m
  have hsub : ∀ c ∈ (Pool.reclaim w env m).collect, c ∈ w.ptrs := fun c hc =>
    mem_ptrs_of_mem_expiredPtrs w env.now c (reclaim_collect_subset w env m c hc)
  have hcongr : ∀ sel : List Nat, sel.Nodup → (∀ c ∈ sel, c ∈ w.ptrs) →
      (w.freeAfter (w.pool.Resources env.stat).2 sel).Available m.Want
        = (Resources.Sub (w.pool.Resources env.stat).2
            (usedAfter (fun a => (w.heap a).resources) w.used sel)).Available m.Want :=
    fun sel h1 h2 => Resources.Available_congr _ _ _
      (fun k => get_freeAfter w _ sel k hnd h1 h2)
  have htake : ∀ j, ((Pool.reclaim w env m).collect.take j).Nodup ∧
      ∀ c ∈ (Pool.reclaim w env m).collect.take j, c ∈ w.ptrs := fun j =>
    ⟨hndc.sublist (List.take_sublist _ _), fun c hc => hsub c (List.mem_of_mem_take hc)⟩
  have hmin1 : ∀ j, j < (Pool.reclaim w env m).collect.length →
      (w.freeAfter (w.pool.Resources env.stat).2
        ((Pool.reclaim w env m).collect.take j)).Available m.Want = false := by
    intro j hj
    rw [hcongr _ (htake j).1 (htake j).2]
    exact hmin j hj
  refine ⟨(Pool.reclaim w env m).collect,
    (Pool.reclaim w env m).collect ++
      List.insertionSort (moreOverdue fun x => (w.heap x).expiredBy env.now)
        (Pool.reclaim w env m).expired,
    hkills, ?_, ?_, ?_, ?_, ?_, hmin1, ?_, lookup_new_ok w env m a hok,
    lookup_fresh w env.id hfresh, ?_, ?_, ?_⟩
  · exact ((List.perm_insertionSort _ _).append_left _).trans hperm
  · rw [List.pairwise_append]
    refine ⟨hpair,
      List.sorted_insertionSort (moreOverdue fun x => (w.heap x).expiredBy env.now) _, ?_⟩
    intro c hc e he
    exact hle c hc e ((List.perm_insertionSort _ _).subset he)
  · simp
  · intro c hc e he hne
    apply hle c hc e
    rcases List.mem_append.1 (hperm.symm.subset he) with h | h
    · exact absurd h hne
    · exact h
  · rw [hcongr _ hndc hsub, ← hfree]
    exact hav
  · intro h0
    by_contra hne
    have hpos : 0 < (Pool.reclaim w env m).collect.length := List.length_pos.2 hne
    have := hmin1 0 hpos
    rw [List.take_zero, h0] at this
    exact absurd this (by simp)
  · intro hmem
    have := hwf.lt_brk_of_mem_ptrs a hmem
    omega
  · rw [hheap, ha, heapNew_brk]; rfl
  · rw [hheap, ha, heapNew_brk]; rfl

theorem accept_reclaims_most_overdue_witness :
    (Pool.new worldTwo envTwo wantAll).2 = .ok 2 ∧
    (Pool.new worldTwo envTwo wantAll).1.kills = [1, 0] ∧
    ∃ collect sorted : List Nat,
      (Pool.new worldTwo envTwo wantAll).1.kills = worldTwo.kills ++ collect ∧
      List.Perm sorted (worldTwo.expiredPtrs envTwo.now) ∧
      List.Pairwise (fun x y =>
        (worldTwo.heap y).expiredBy envTwo.now ≤ (worldTwo.heap x).expiredBy envTwo.now)
        sorted ∧
      collect = sorted.take collect.length ∧
      (∀ c ∈ collect, ∀ e ∈ worldTwo.expiredPtrs envTwo.now, e ∉ collect →
        (worldTwo.heap e).expiredBy envTwo.now ≤ (worldTwo.heap c).expiredBy envTwo.now) ∧
      (worldTwo.freeAfter (worldTwo.pool.Resources envTwo.stat).2 collect).Available
        wantAll.Want = true ∧
      (∀ j, j < collect.length →
        (worldTwo.freeAfter (worldTwo.pool.Resources envTwo.stat).2
          (collect.take j)).Available wantAll.Want = false) ∧
      ((worldTwo.freeAfter (worldTwo.pool.Resources envTwo.stat).2 []).Available
        wantAll.Want = true → collect = []) ∧
      (∀ id, (Pool.new worldTwo envTwo wantAll).1.pool.allocs.lookup id
        = if id = envTwo.id then some 2
          else if id ∈ idsOf worldTwo.heap collect then none
          else worldTwo.pool.allocs.lookup id) ∧
      worldTwo.pool.allocs.lookup envTwo.id = none ∧
      2 ∉ worldTwo.ptrs ∧
      ((Pool.new worldTwo envTwo wantAll).1.heap 2).id = envTwo.id ∧
      ((Pool.new worldTwo envTwo wantAll).1.heap 2).resources = wantAll.Want :=
  ⟨by decide!, by decide!,
    accept_reclaims_most_overdue worldTwo envTwo wantAll 2 worldTwo_WF (by decide)
      (by decide!)⟩

/-! ## Admission safety -/

/-- C3, as stated, fails. `Accept` takes a request for a negative quantity:
after `mem:-5` and then `mem:15` are accepted by a pool of `mem:10`, and the
first lease has run out, the live allocs hold `mem:15`. And the total is
detected anew at every call: after `disk:800` is accepted on a file system of
1000 bytes that then shrinks to 500 bytes, the live allocs hold more disk than
the total. -/
theorem admission_unsafe :
    (Pool.new worldEmpty envA wantNegative).2 = .ok 0 ∧
    (Pool.new (Pool.new worldEmpty envA wantNegative).1 envB wantFifteen).2 = .ok 1 ∧
    (worldOvercommitted.reserved (100 * second)).get "mem" = 15 ∧
    (worldOvercommitted.pool.Resources (some 1000)).2.get "mem" = 10 ∧
    ¬ ((worldOvercommitted.reserved (100 * second)).get "mem"
        ≤ (worldOvercommitted.pool.Resources (some 1000)).2.get "mem") ∧
    (Pool.new worldEmpty envA wantDisk).2 = .ok 0 ∧
    (worldDisk.reserved (10 * second)).get "disk" = 800 ∧
    (worldDisk.pool.Resources (some 500)).2.get "disk" = 500 ∧
    ¬ ((worldDisk.reserved (10 * second)).get "disk"
        ≤ (worldDisk.pool.Resources (some 500)).2.get "disk") := by
  decide!

/-- C3, amended. In every state reached from the empty roster of a started pool
(nonnegative total, disk size detected) by `Accept` of requests for nonnegative
resources, `Keepalive`, `Free` and `Offers`, called at any instants, on a file
system whose detected size does not change, the resources of the allocs that
are not expired sum, in every dimension, to at most the total of the pool. This
survives `Keepalive` reviving an expired alloc that is still registered. -/
theorem admission_safety (stat : Option Nat) (w : World) (h : Reachable stat w) (now : Int)
    (k : String) :
    (w.reserved now).get k ≤ (w.pool.Resources stat).2.get k ∧
    sumOn w.heap (w.livePtrs now) k ≤ w.pool.resources.get k := by
  have hinv := h.inv
  have hle : sumOn w.heap (w.livePtrs now) k ≤ w.pool.resources.get k :=
    le_trans (sumOn_live_le w now k (fun a ha => hinv.nonneg a ha k)) (hinv.bound k)
  refine ⟨?_, hle⟩
  rw [get_reserved]
  show _ ≤ (w.pool.detectDiskSize stat).resources.get k
  rw [hinv.stable k]
  exact hle

theorem worldRevived_reachable : Reachable (some 1000) worldRevived :=
  Reachable.keepalive _ 0 (100 * second) (60 * second)
    (Reachable.accept _ envB wantFour
      (Reachable.accept _ envA wantSix
        (Reachable.init worldEmpty rfl
          (fun k => Resources.get_nonneg_of_entries _ (by decide!) k)
          ⟨{ allocs := [], resources := [("mem", 10), ("cpu", 2)], stopped := false },
            by decide!⟩)
        rfl (fun k => Resources.get_nonneg_of_entries _ (by decide!) k))
      rfl (fun k => Resources.get_nonneg_of_entries _ (by decide!) k))

theorem admission_safety_witness :
    worldRevived.livePtrs (100 * second) = [1, 0] ∧
    (worldRevived.reserved (100 * second)).get "mem" = 10 ∧
    ((worldRevived.reserved (100 * second)).get "mem"
        ≤ (worldRevived.pool.Resources (some 1000)).2.get "mem" ∧
      sumOn worldRevived.heap (worldRevived.livePtrs (100 * second)) "mem"
        ≤ worldRevived.pool.resources.get "mem") :=
  ⟨by decide!, by decide!,
    admission_safety (some 1000) worldRevived worldRevived_reachable (100 * second) "mem"⟩

/-! ## Durability -/

/-- C6, the code at the failing input: when `Encode` fails in `saveState`
(error 28, no space left on the device), `Pool.new` still returns the new alloc
and registers it, while `state.json` does not exist. -/
theorem accept_without_state_json :
    (Pool.new worldEmpty { envA with encode := some 28 } wantSix).2 = .ok 0 ∧
    (Pool.new worldEmpty { envA with encode := some 28 } wantSix).1.pool.allocs = [("a", 0)] ∧
    (Pool.new worldEmpty { envA with encode := some 28 } wantSix).1.stateJson = none := by
  decide!

/-! ## Offers -/

theorem offers_stopped (w : World) (now : Int) (stat : Option Nat)
    (hs : w.pool.stopped = true) : (Pool.Offers w now stat).2 = [] := by
  simp [Pool.Offers, hs]

theorem get_available (w : World) (now : Int) (stat : Option Nat) (k : String) :
    (Resources.Sub (w.pool.Resources stat).2 (w.reserved now)).get k = w.freeAt now stat k := by
  rw [Resources.get_Sub, get_reserved]
  rfl

/-- The two ways through `Pool.Offers` when the pool is not stopped. -/
theorem offers_running (w : World) (now : Int) (stat : Option Nat)
    (hs : w.pool.stopped = false) :
    ((w.freeAt now stat "mem" = 0 ∨ w.freeAt now stat "cpu" = 0 ∨ w.freeAt now stat "disk" = 0) ∧
      (Pool.Offers w now stat).2 = []) ∨
    ((w.freeAt now stat "mem" ≠ 0 ∧ w.freeAt now stat "cpu" ≠ 0 ∧ w.freeAt now stat "disk" ≠ 0) ∧
      (Pool.Offers w now stat).2
        = [{ id := offerID,
             resources := Resources.Sub (w.pool.Resources stat).2 (w.reserved now) }]) := by
  have hm := get_available w now stat "mem"
  have hc := get_available w now stat "cpu"
  have hd := get_available w now stat "disk"
  have hO : Pool.Offers w now stat
      = if (Resources.Sub (w.pool.Resources stat).2 (w.reserved now)).get "mem" == 0
          || (Resources.Sub (w.pool.Resources stat).2 (w.reserved now)).get "cpu" == 0
          || (Resources.Sub (w.pool.Resources stat).2 (w.reserved now)).get "disk" == 0 then
          ({ w with pool := (w.pool.Resources stat).1 }, [])
        else ({ w with pool := (w.pool.Resources stat).1 },
          [{ id := offerID,
             resources := Resources.Sub (w.pool.Resources stat).2 (w.reserved now) }]) := by
    simp only [Pool.Offers, hs]
    rfl
  rw [hO, hm, hc, hd]
  by_cases h : (w.freeAt now stat "mem" == 0 || w.freeAt now stat "cpu" == 0
      || w.freeAt now stat "disk" == 0) = true
  · left
    rw [if_pos h]
    simp only [Bool.or_eq_true, beq_iff_eq] at h
    exact ⟨by tauto, rfl⟩
  · right
    rw [if_neg h]
    simp only [Bool.or_eq_true, beq_iff_eq, not_or] at h
    exact ⟨⟨h.1.1, h.1.2, h.2⟩, rfl⟩

/-- C7. `Pool.Offers` returns the empty list if the pool is stopped or if the
free quantity of `mem`, `cpu` or `disk` is zero; otherwise it returns exactly
one offer, with id "1", whose vector is in every dimension the total minus the
sum of the resources of the allocs that are not expired. -/
theorem offers_spec (w : World) (now : Int) (stat : Option Nat) :
    (w.pool.stopped = true → (Pool.Offers w now stat).2 = []) ∧
    (w.pool.stopped = false →
      (w.freeAt now stat "mem" = 0 ∨ w.freeAt now stat "cpu" = 0 ∨ w.freeAt now stat "disk" = 0) →
      (Pool.Offers w now stat).2 = []) ∧
    (w.pool.stopped = false →
      w.freeAt now stat "mem" ≠ 0 → w.freeAt now stat "cpu" ≠ 0 → w.freeAt now stat "disk" ≠ 0 →
      ∃ o : offer, (Pool.Offers w now stat).2 = [o] ∧ o.id = "1" ∧
        ∀ k, o.resources.get k
          = (w.pool.Resources stat).2.get k - sumOn w.heap (w.livePtrs now) k) := by
  refine ⟨offers_stopped w now stat, ?_, ?_⟩
  · intro hs hz
    rcases offers_running w now stat hs with ⟨_, h⟩ | ⟨hnz, _⟩
    · exact h
    · rcases hz with h | h | h
      · exact absurd h hnz.1
      · exact absurd h hnz.2.1
      · exact absurd h hnz.2.2
  · intro hs h1 _ _
    rcases offers_running w now stat hs with ⟨hz, _⟩ | ⟨_, h⟩
    · rcases hz with h | h | h
      · exact absurd h h1
      · exact absurd h (by assumption)
      · exact absurd h (by assumption)
    · exact ⟨_, h, rfl, fun k => get_available w now stat k⟩

theorem offers_spec_witness :
    worldTwo.pool.stopped = false ∧
    (Pool.Offers worldTwo 80 (some 1000)).2
      = [{ id := "1", resources := [("disk", 1000), ("mem", 5), ("cpu", 1)] }] ∧
    ∃ o : offer, (Pool.Offers worldTwo 80 (some 1000)).2 = [o] ∧ o.id = "1" ∧
      ∀ k, o.resources.get k
        = (worldTwo.pool.Resources (some 1000)).2.get k
          - sumOn worldTwo.heap (worldTwo.livePtrs 80) k :=
  ⟨by decide, by decide!,
    (offers_spec worldTwo 80 (some 1000)).2.2 (by decide) (by decide!) (by decide!)
      (by decide!)⟩

/-- C8, as stated, fails: the offer of a pool whose live alloc holds more
memory than the total has a negative `mem`. -/
theorem offers_not_positive :
    ¬ ((Pool.Offers worldOver 100 (some 10)).2.length ≤ 1 ∧
      ∀ o ∈ (Pool.Offers worldOver 100 (some 10)).2,
        0 < o.resources.get "mem" ∧ 0 < o.resources.get "cpu" ∧ 0 < o.resources.get "disk") := by
  decide!

/-- C8, amended. `Pool.Offers` returns a list of length 0 or 1, and the vector
of the offer it returns is non-zero in `mem`, `cpu` and `disk`; the three are
strictly positive when the allocs that are not expired hold at most the total
in these dimensions. -/
theorem offers_singleton (w : World) (now : Int) (stat : Option Nat) :
    (Pool.Offers w now stat).2.length ≤ 1 ∧
    ∀ o ∈ (Pool.Offers w now stat).2,
      (o.resources.get "mem" ≠ 0 ∧ o.resources.get "cpu" ≠ 0 ∧ o.resources.get "disk" ≠ 0) ∧
      ((∀ k ∈ ["mem", "cpu", "disk"],
          (w.reserved now).get k ≤ (w.pool.Resources stat).2.get k) →
        0 < o.resources.get "mem" ∧ 0 < o.resources.get "cpu" ∧
          0 < o.resources.get "disk") := by
  cases hs : w.pool.stopped with
  | true => rw [offers_stopped w now stat hs]; simp
  | false =>
    rcases offers_running w now stat hs with ⟨_, h⟩ | ⟨hnz, h⟩
    · rw [h]; simp
    · rw [h]
      refine ⟨by simp, ?_⟩
      intro o ho
      rw [List.mem_singleton] at ho
      subst ho
      simp only [get_available]
      refine ⟨hnz, ?_⟩
      intro hle
      have hpos : ∀ k ∈ ["mem", "cpu", "disk"], w.freeAt now stat k ≠ 0 →
          0 < w.freeAt now stat k := by
        intro k hk hne
        have h1 := hle k hk
        rw [get_reserved] at h1
        have h2 : 0 ≤ w.freeAt now stat k := by
          unfold World.freeAt
          linarith
        exact lt_of_le_of_ne h2 (Ne.symm hne)
      exact ⟨hpos "mem" (by simp) hnz.1, hpos "cpu" (by simp) hnz.2.1,
        hpos "disk" (by simp) hnz.2.2⟩

theorem offers_singleton_witness :
    (Pool.Offers worldTwo 80 (some 1000)).2.length = 1 ∧
    ∀ o ∈ (Pool.Offers worldTwo 80 (some 1000)).2,
      0 < o.resources.get "mem" ∧ 0 < o.resources.get "cpu" ∧ 0 < o.resources.get "disk" :=
  ⟨by decide!, fun o ho =>
    ((offers_singleton worldTwo 80 (some 1000)).2 o ho).2 (by decide!)⟩

/-! ## Keepalive -/

/-- C9. If the alloc at `a` is not the one registered under its id,
`Keepalive` fails with NotExist/AllocExpired, returns 0 and leaves the alloc
(its `expires` and `lastKeepalive`) as it was. Otherwise, whether or not the
lease has run out, it grants `min(next, 2h)`, sets `lastKeepalive` to `now`
and `expires` to `now` plus the granted duration. -/
theorem keepalive_spec (w : World) (a : Nat) (now next : Int) :
    (w.pool.allocs.lookup (w.heap a).id ≠ some a →
      (alloc.Keepalive w a now next).2 = (0, some .allocExpired) ∧
      (alloc.Keepalive w a now next).1.heap a = w.heap a) ∧
    (w.pool.allocs.lookup (w.heap a).id = some a →
      (alloc.Keepalive w a now next).2 = (min next (2 * 3600 * second), none) ∧
      ((alloc.Keepalive w a now next).1.heap a).lastKeepalive = now ∧
      ((alloc.Keepalive w a now next).1.heap a).expires
        = now + min next (2 * 3600 * second)) := by
  constructor
  · intro hn
    rcases keepalive_outcome w a now next with ⟨_, h⟩ | ⟨hr, _⟩
    · rw [h]; exact ⟨rfl, rfl⟩
    · exact absurd hr hn
  · intro hr
    rcases keepalive_outcome w a now next with ⟨hn, _⟩ | ⟨_, h⟩
    · exact absurd hr hn
    · rw [h]
      refine ⟨rfl, ?_, ?_⟩
      · show (Function.update w.heap a _ a).lastKeepalive = now
        rw [Function.update_same]
      · show (Function.update w.heap a _ a).expires = _
        rw [Function.update_same]
        rfl

theorem keepalive_spec_witness :
    (worldTwo.heap 0).expires < 100 ∧
    (alloc.Keepalive worldTwo 0 100 (3 * 3600 * second)).2 = (2 * 3600 * second, none) ∧
    ((alloc.Keepalive worldTwo 0 100 (3 * 3600 * second)).2
        = (min (3 * 3600 * second) (2 * 3600 * second), none) ∧
      ((alloc.Keepalive worldTwo 0 100 (3 * 3600 * second)).1.heap 0).lastKeepalive = 100 ∧
      ((alloc.Keepalive worldTwo 0 100 (3 * 3600 * second)).1.heap 0).expires
        = 100 + min (3 * 3600 * second) (2 * 3600 * second)) :=
  ⟨by decide, by decide,
    (keepalive_spec worldTwo 0 100 (3 * 3600 * second)).2 (by decide)⟩

/-! ## Free -/

/-- In a reachable state no registered alloc has been freed. -/
theorem Reachable.registered_not_freed {stat : Option Nat} {w : World} (h : Reachable stat w)
    (a : Nat) (hreg : w.pool.allocs.lookup (w.heap a).id = some a) :
    (w.heap a).freed = false :=
  h.inv.notFreed a (World.WF.mem_ptrs_of_lookup _ a hreg)

theorem release_kills (w : World) (a : Nat) :
    (alloc.release w a).kills = if (w.heap a).freed = true then w.kills else w.kills ++ [a] := by
  by_cases h : (w.heap a).freed = true <;> simp [alloc.release, h]

/-- The world from which `alloc.Free` releases a registered alloc when
`os.Create` succeeds. -/
theorem free_registered (w : World) (a : Nat) (encode : Option Nat)
    (hreg : w.pool.allocs.lookup (w.heap a).id = some a) :
    ∃ w1 : World, alloc.Free w a none encode = (alloc.release w1 a, none) ∧
      w1.pool.allocs = mapDelete w.pool.allocs (w.heap a).id ∧ w1.heap = w.heap ∧
      w1.kills = w.kills := by
  rcases free_outcome w a none encode with ⟨hn, _⟩ | ⟨_, c, hc, _⟩ | ⟨_, _, h1⟩
  · exact absurd hreg hn
  · exact absurd hc (by simp)
  · exact ⟨_, h1, rfl, rfl, rfl⟩

/-- C10. Calling `Free` twice in a row on a registered alloc that has not been
freed, `os.Create` succeeding, returns success both times, invokes `Kill` on the
alloc once in total, and leaves the roster without that alloc and otherwise
unchanged. -/
theorem free_twice (w : World) (a : Nat) (encode create2 encode2 : Option Nat)
    (hreg : w.pool.allocs.lookup (w.heap a).id = some a)
    (hnf : (w.heap a).freed = false) :
    (alloc.Free w a none encode).2 = none ∧
    (alloc.Free (alloc.Free w a none encode).1 a create2 encode2).2 = none ∧
    (alloc.Free (alloc.Free w a none encode).1 a create2 encode2).1.kills = w.kills ++ [a] ∧
    (∀ id, (alloc.Free (alloc.Free w a none encode).1 a create2 encode2).1.pool.allocs.lookup id
      = if id = (w.heap a).id then none else w.pool.allocs.lookup id) ∧
    (∀ b, b ≠ a →
      (alloc.Free (alloc.Free w a none encode).1 a create2 encode2).1.heap b = w.heap b) := by
  obtain ⟨w1, h1, hpool, hheap1, hkills1⟩ := free_registered w a encode hreg
  · rw [h1]
    have hid : ((alloc.release w1 a).heap a).id = (w.heap a).id := by
      rw [release_heap, Function.update_same, hheap1]
    have hfr : ((alloc.release w1 a).heap a).freed = true := by
      rw [release_heap, Function.update_same]
    have hk1 : (alloc.release w1 a).kills = w.kills ++ [a] := by
      rw [release_kills, hheap1, hnf, hkills1]
      simp
    have hnot : (alloc.release w1 a).pool.allocs.lookup ((alloc.release w1 a).heap a).id
        ≠ some a := by
      rw [hid, release_pool, hpool, lookup_mapDelete, if_pos rfl]
      simp
    rcases free_outcome (alloc.release w1 a) a create2 encode2 with ⟨_, h2⟩ | ⟨hr, _⟩ | ⟨hr, _⟩
    · rw [h2]
      refine ⟨rfl, rfl, ?_, ?_, ?_⟩
      · rw [release_kills, if_pos hfr, hk1]
      · intro id
        rw [release_pool, release_pool, hpool, lookup_mapDelete]
      · intro b hb
        rw [release_heap_ne _ a b hb, release_heap_ne _ a b hb, hheap1]
    · exact absurd hr hnot
    · exact absurd hr hnot

theorem free_twice_witness :
    worldTwo.pool.allocs.lookup (worldTwo.heap 0).id = some 0 ∧
    (alloc.Free (alloc.Free worldTwo 0 none none).1 0 none none).1.pool.allocs = [("b", 1)] ∧
    ((alloc.Free worldTwo 0 none none).2 = none ∧
      (alloc.Free (alloc.Free worldTwo 0 none none).1 0 none none).2 = none ∧
      (alloc.Free (alloc.Free worldTwo 0 none none).1 0 none none).1.kills
        = worldTwo.kills ++ [0] ∧
      (∀ id, (alloc.Free (alloc.Free worldTwo 0 none none).1 0 none none).1.pool.allocs.lookup id
        = if id = (worldTwo.heap 0).id then none else worldTwo.pool.allocs.lookup id) ∧
      (∀ b, b ≠ 0 →
        (alloc.Free (alloc.Free worldTwo 0 none none).1 0 none none).1.heap b
          = worldTwo.heap b)) :=
  ⟨by decide, by decide!, free_twice worldTwo 0 none none none (by decide) (by decide)⟩

/-! ## The lease clock of an alloc -/

/-- C11, as stated, fails: `newAlloc` leaves `lastKeepalive` at the zero time,
which lies before `created`. -/
theorem newAlloc_lastKeepalive_before_created :
    ¬ ((Pool.newAlloc "a" keepaliveInterval (100 * second)).created
        ≤ (Pool.newAlloc "a" keepaliveInterval (100 * second)).lastKeepalive ∧
      (Pool.newAlloc "a" keepaliveInterval (100 * second)).lastKeepalive
        ≤ (Pool.newAlloc "a" keepaliveInterval (100 * second)).expires) := by
  decide

theorem keepalive_created (w : World) (a : Nat) (now next : Int) :
    ((alloc.Keepalive w a now next).1.heap a).created = (w.heap a).created := by
  rcases keepalive_outcome w a now next with ⟨_, h⟩ | ⟨_, h⟩
  · rw [h]
  · rw [h]
    show (Function.update w.heap a _ a).created = _
    rw [Function.update_same]

/-- One `Keepalive`, not before the creation and for a nonnegative duration,
keeps `created ≤ lastKeepalive ≤ expires`. -/
theorem keepalive_keeps_order (w : World) (a : Nat) (now next : Int)
    (hnow : (w.heap a).created ≤ now) (hnext : 0 ≤ next)
    (h : (w.heap a).created ≤ (w.heap a).lastKeepalive ∧
      (w.heap a).lastKeepalive ≤ (w.heap a).expires) :
    ((alloc.Keepalive w a now next).1.heap a).created
        ≤ ((alloc.Keepalive w a now next).1.heap a).lastKeepalive ∧
      ((alloc.Keepalive w a now next).1.heap a).lastKeepalive
        ≤ ((alloc.Keepalive w a now next).1.heap a).expires := by
  rw [keepalive_created]
  rcases (keepalive_spec_aux w a now next) with ⟨h1, h2⟩ | ⟨h1, h2, h3⟩
  · rw [h1]; exact h
  · rw [h2, h3]
    have : 0 ≤ min next maxKeepaliveInterval := le_min hnext (by decide)
    exact ⟨hnow, by linarith⟩

theorem keepalive_registered (w : World) (a : Nat) (now next : Int)
    (hreg : w.pool.allocs.lookup (w.heap a).id = some a) :
    (alloc.Keepalive w a now next).1.pool.allocs.lookup
      ((alloc.Keepalive w a now next).1.heap a).id = some a := by
  rcases keepalive_outcome w a now next with ⟨hn, _⟩ | ⟨_, h⟩
  · exact absurd hreg hn
  · rw [h]
    show w.pool.allocs.lookup (Function.update w.heap a _ a).id = some a
    rw [Function.update_same]
    exact hreg

theorem keepalives_created (a : Nat) (calls : List (Int × Int)) :
    ∀ w : World, ((keepalives w a calls).heap a).created = (w.heap a).created := by
  induction calls with
  | nil => intro w; rfl
  | cons c calls ih =>
    intro w
    show ((keepalives (alloc.Keepalive w a c.1 c.2).1 a calls).heap a).created = _
    rw [ih, keepalive_created]

theorem keepalives_keep_order (a : Nat) (calls : List (Int × Int)) :
    ∀ w : World, (∀ c ∈ calls, (w.heap a).created ≤ c.1 ∧ 0 ≤ c.2) →
      ((w.heap a).created ≤ (w.heap a).lastKeepalive ∧
        (w.heap a).lastKeepalive ≤ (w.heap a).expires) →
      ((keepalives w a calls).heap a).created ≤ ((keepalives w a calls).heap a).lastKeepalive ∧
        ((keepalives w a calls).heap a).lastKeepalive
          ≤ ((keepalives w a calls).heap a).expires := by
  induction calls with
  | nil => intro w _ h; exact h
  | cons c calls ih =>
    intro w hc h
    have hc0 := hc c (List.mem_cons_self _ _)
    show ((keepalives (alloc.Keepalive w a c.1 c.2).1 a calls).heap a).created ≤ _ ∧ _
    apply ih
    · intro c1 hc1
      rw [keepalive_created]
      exact hc c1 (List.mem_cons_of_mem _ hc1)
    · exact keepalive_keeps_order w a c.1 c.2 hc0.1 hc0.2 h

/-- C11, amended. An alloc built by `newAlloc` with a nonnegative lease has
`created ≤ expires` and the zero `lastKeepalive`; once it is registered and
`Keepalive` has been called on it, any number of times, each time not before
its creation and for a nonnegative duration, `created ≤ lastKeepalive ≤ expires`
holds. -/
theorem keepalive_lease_order (w : World) (a : Nat) (id : String) (keepalive t0 : Int)
    (m : AllocMeta) (calls : List (Int × Int))
    (hnew : w.heap a = (Pool.newAlloc id keepalive t0).configure m)
    (hreg : w.pool.allocs.lookup id = some a) (hk : 0 ≤ keepalive)
    (hcalls : ∀ c ∈ calls, t0 ≤ c.1 ∧ 0 ≤ c.2) :
    (w.heap a).created ≤ (w.heap a).expires ∧ (w.heap a).lastKeepalive = 0 ∧
    (calls ≠ [] →
      ((keepalives w a calls).heap a).created ≤ ((keepalives w a calls).heap a).lastKeepalive ∧
      ((keepalives w a calls).heap a).lastKeepalive
        ≤ ((keepalives w a calls).heap a).expires) := by
  have hcr : (w.heap a).created = t0 := by rw [hnew]; rfl
  have hid : (w.heap a).id = id := by rw [hnew]; rfl
  refine ⟨?_, by rw [hnew]; rfl, ?_⟩
  · rw [hnew]
    show t0 ≤ t0 + keepalive
    linarith
  · intro hne
    cases calls with
    | nil => exact absurd rfl hne
    | cons c calls =>
      have hc0 := hcalls c (List.mem_cons_self _ _)
      show ((keepalives (alloc.Keepalive w a c.1 c.2).1 a calls).heap a).created ≤ _ ∧ _
      apply keepalives_keep_order
      · intro c1 hc1
        rw [keepalive_created, hcr]
        exact hcalls c1 (List.mem_cons_of_mem _ hc1)
      · rw [keepalive_created, hcr]
        have hreg1 : w.pool.allocs.lookup (w.heap a).id = some a := by rw [hid]; exact hreg
        rcases keepalive_spec_aux w a c.1 c.2 with ⟨_, h2⟩ | ⟨_, h2, h3⟩
        · exact absurd hreg1 h2
        · rw [h2, h3]
          have : 0 ≤ min c.2 maxKeepaliveInterval := le_min hc0.2 (by decide)
          exact ⟨hc0.1, by linarith⟩

theorem keepalive_lease_order_witness :
    ((keepalives worldOne 0 [(130 * second, 60 * second), (200 * second, 3 * 3600 * second)]).heap
      0).lastKeepalive = 200 * second ∧
    ((worldOne.heap 0).created ≤ (worldOne.heap 0).expires ∧
      (worldOne.heap 0).lastKeepalive = 0 ∧
      ([(130 * second, 60 * second), (200 * second, 3 * 3600 * second)] ≠ [] →
        ((keepalives worldOne 0
            [(130 * second, 60 * second), (200 * second, 3 * 3600 * second)]).heap 0).created
          ≤ ((keepalives worldOne 0
            [(130 * second, 60 * second), (200 * second, 3 * 3600 * second)]).heap
              0).lastKeepalive ∧
        ((keepalives worldOne 0
            [(130 * second, 60 * second), (200 * second, 3 * 3600 * second)]).heap
              0).lastKeepalive
          ≤ ((keepalives worldOne 0
            [(130 * second, 60 * second), (200 * second, 3 * 3600 * second)]).heap 0).expires)) :=
  ⟨by decide!,
    keepalive_lease_order worldOne 0 "b" keepaliveInterval (100 * second) wantFour
      [(130 * second, 60 * second), (200 * second, 3 * 3600 * second)] (by decide!) (by decide!)
      (by decide) (by decide)⟩

/-! ## Idle shutdown -/

theorem idleStep_fst (d : Int) (s : Bool × Int) (e : Int) :
    (idleStep d s e).1 = true ↔ s.1 = true ∧ d ≤ e := by
  unfold idleStep
  by_cases he : e < d
  · simp only [he, if_true]
    constructor
    · intro h; exact absurd h (by simp)
    · intro h; exact absurd h.2 (not_le.2 he)
  · simp only [he, if_false]
    exact ⟨fun h => ⟨h, not_lt.1 he⟩, fun h => h.1⟩

theorem idle_fold_fst (d : Int) (l : List Int) :
    ∀ s : Bool × Int, (l.foldl (idleStep d) s).1 = true ↔ s.1 = true ∧ ∀ e ∈ l, d ≤ e := by
  induction l with
  | nil => intro s; simp
  | cons e l ih =>
    intro s
    rw [List.foldl_cons, ih, idleStep_fst]
    simp only [List.mem_cons, forall_eq_or_imp, and_assoc]

theorem idle_fold_snd (d : Int) (l : List Int) :
    ∀ s : Bool × Int, (l.foldl (idleStep d) s).2 ≤ s.2 ∧
      (∀ e ∈ l, (l.foldl (idleStep d) s).2 ≤ e) ∧
      ((l.foldl (idleStep d) s).2 = s.2 ∨ (l.foldl (idleStep d) s).2 ∈ l) := by
  induction l with
  | nil => intro s; simp
  | cons e l ih =>
    intro s
    rw [List.foldl_cons]
    obtain ⟨h1, h2, h3⟩ := ih (idleStep d s e)
    have hstep : (idleStep d s e).2 = min s.2 e := by
      unfold idleStep
      by_cases hgt : s.2 > e
      · simp only [hgt, if_true]; exact (min_eq_right (le_of_lt hgt)).symm
      · simp only [hgt, if_false]; exact (min_eq_left (not_lt.1 hgt)).symm
    rw [hstep] at h1 h3
    refine ⟨le_trans h1 (min_le_left _ _), ?_, ?_⟩
    · intro x hx
      rcases List.mem_cons.1 hx with rfl | hx
      · exact le_trans h1 (min_le_right _ _)
      · exact h2 x hx
    · rcases h3 with h3 | h3
      · rcases min_choice s.2 e with hm | hm
        · left; rw [h3, hm]
        · right; rw [h3, hm]; exact List.mem_cons_self _ _
      · right; exact List.mem_cons_of_mem _ h3

/-- The two ways through `Pool.StopIfIdleFor`. -/
theorem stopIfIdleFor_outcome (w : World) (d now : Int) :
    ((∀ a ∈ w.ptrs, d ≤ (w.heap a).expiredBy now) ∧
      Pool.StopIfIdleFor w d now
        = ({ w with pool := { w.pool with stopped := true } }, true, 0)) ∨
    ((¬ ∀ a ∈ w.ptrs, d ≤ (w.heap a).expiredBy now) ∧
      Pool.StopIfIdleFor w d now
        = (w, false, -((w.ptrs.map fun a => (w.heap a).expiredBy now).foldl
            (idleStep d) (true, 0)).2)) := by
  have hf := idle_fold_fst d (w.ptrs.map fun a => (w.heap a).expiredBy now) (true, 0)
  have hall : (∀ e ∈ w.ptrs.map fun a => (w.heap a).expiredBy now, d ≤ e)
      ↔ ∀ a ∈ w.ptrs, d ≤ (w.heap a).expiredBy now := by
    simp
  rw [hall] at hf
  have hdef : Pool.StopIfIdleFor w d now
      = if ((w.ptrs.map fun a => (w.heap a).expiredBy now).foldl (idleStep d) (true, 0)).1 = true
        then ({ w with pool := { w.pool with stopped := true } }, true, 0)
        else (w, false, -((w.ptrs.map fun a => (w.heap a).expiredBy now).foldl
            (idleStep d) (true, 0)).2) := rfl
  by_cases hi : ∀ a ∈ w.ptrs, d ≤ (w.heap a).expiredBy now
  · left
    refine ⟨hi, ?_⟩
    rw [hdef, if_pos (hf.2 ⟨rfl, hi⟩)]
  · right
    refine ⟨hi, ?_⟩
    rw [hdef, if_neg (fun h => hi (hf.1 h).2)]

/-- C12. `StopIfIdleFor(d)` returns `(true, 0)` and sets `stopped` if and only
if every alloc of the roster has `expiredBy ≥ d`; otherwise its first result is
false and the pool, with its stopped flag and its roster, is left as it was. -/
theorem stopIfIdleFor_spec (w : World) (d now : Int) :
    (((Pool.StopIfIdleFor w d now).2 = (true, 0) ∧
        (Pool.StopIfIdleFor w d now).1.pool.stopped = true) ↔
      ∀ a ∈ w.ptrs, d ≤ (w.heap a).expiredBy now) ∧
    ((¬ ∀ a ∈ w.ptrs, d ≤ (w.heap a).expiredBy now) →
      (Pool.StopIfIdleFor w d now).2.1 = false ∧ (Pool.StopIfIdleFor w d now).1 = w) ∧
    (Pool.StopIfIdleFor w d now).1.pool.allocs = w.pool.allocs := by
  rcases stopIfIdleFor_outcome w d now with ⟨hi, h⟩ | ⟨hi, h⟩
  · rw [h]
    exact ⟨⟨fun _ => hi, fun _ => ⟨rfl, rfl⟩⟩, fun hn => absurd hi hn, rfl⟩
  · rw [h]
    refine ⟨⟨fun hl => ?_, fun hr => absurd hr hi⟩, fun _ => ⟨rfl, rfl⟩, rfl⟩
    have := congrArg (fun r : Bool × Int => r.1) hl.1
    simp at this

theorem stopIfIdleFor_spec_witness :
    (Pool.StopIfIdleFor worldLease (1 * second) (105 * second)).2 = (true, 0) ∧
    (Pool.StopIfIdleFor worldLease (10 * second) (105 * second)).2.1 = false ∧
    (((Pool.StopIfIdleFor worldLease (1 * second) (105 * second)).2 = (true, 0) ∧
        (Pool.StopIfIdleFor worldLease (1 * second) (105 * second)).1.pool.stopped = true) ↔
      ∀ a ∈ worldLease.ptrs, 1 * second ≤ (worldLease.heap a).expiredBy (105 * second)) :=
  ⟨by decide, by decide, (stopIfIdleFor_spec worldLease (1 * second) (105 * second)).1⟩

/-- C13, as stated, fails: with one alloc expired by 5 seconds,
`StopIfIdleFor(10s)` returns `(false, 0)`, not `(false, 5s)`. -/
theorem stopIfIdleFor_not_difference :
    (worldLease.heap 0).expiredBy (105 * second) = 5 * second ∧
    (Pool.StopIfIdleFor worldLease (10 * second) (105 * second)).2 = (false, 0) ∧
    (Pool.StopIfIdleFor worldLease (10 * second) (105 * second)).2
      ≠ (false, 10 * second - 5 * second) := by
  decide

/-- C13, amended. For a roster with a single alloc whose `expiredBy` is `e`
and every `d > e`, `StopIfIdleFor(d)` returns `(false, Δ)` where `Δ` is the
time until the lease of that alloc ends: `Δ = -e` while the alloc is not
expired and `Δ = 0` once it is. -/
theorem stopIfIdleFor_single (w : World) (id : String) (a : Nat) (d now : Int)
    (h1 : w.pool.allocs = [(id, a)]) (hd : (w.heap a).expiredBy now < d) :
    (Pool.StopIfIdleFor w d now).2 = (false, max 0 (-(w.heap a).expiredBy now)) ∧
    (Pool.StopIfIdleFor w d now).2.2 = max 0 ((w.heap a).expires - now) := by
  have hres : (Pool.StopIfIdleFor w d now).2
      = (false, max 0 (-(w.heap a).expiredBy now)) := by
    by_cases hneg : 0 > (w.heap a).expiredBy now
    · have hm : max 0 (-(w.heap a).expiredBy now) = -(w.heap a).expiredBy now :=
        max_eq_right (by linarith)
      simp [Pool.StopIfIdleFor, h1, idleStep, hd, hneg, hm]
    · have hm : max 0 (-(w.heap a).expiredBy now) = 0 := max_eq_left (by linarith)
      simp [Pool.StopIfIdleFor, h1, idleStep, hd, hneg, hm]
  refine ⟨hres, ?_⟩
  rw [hres]
  show max 0 (-(now - (w.heap a).expires)) = _
  rw [neg_sub]

theorem stopIfIdleFor_single_witness :
    (worldLease.heap 0).expiredBy (95 * second) = -(5 * second) ∧
    (Pool.StopIfIdleFor worldLease (10 * second) (95 * second)).2 = (false, 5 * second) ∧
    ((Pool.StopIfIdleFor worldLease (10 * second) (95 * second)).2
        = (false, max 0 (-(worldLease.heap 0).expiredBy (95 * second))) ∧
      (Pool.StopIfIdleFor worldLease (10 * second) (95 * second)).2.2
        = max 0 ((worldLease.heap 0).expires - 95 * second)) :=
  ⟨by decide, by decide,
    stopIfIdleFor_single worldLease "a" 0 (10 * second) (95 * second) rfl (by decide)⟩

/-! ## The duration `StopIfIdleFor` returns -/

/-- C14, as stated, fails: with two allocs expired by 3 and by 7 seconds,
`StopIfIdleFor(10s)` does not stop the pool and returns 0, while the maximum of
`expires - now` over the roster is minus 3 seconds. -/
theorem stopIfIdleFor_not_maximum :
    (Pool.StopIfIdleFor worldPair (10 * second) (100 * second)).2 = (false, 0) ∧
    (worldPair.ptrs.map fun a => (worldPair.heap a).expires - 100 * second)
      = [-(3 * second), -(7 * second)] ∧
    ¬ ∃ a ∈ worldPair.ptrs,
      (Pool.StopIfIdleFor worldPair (10 * second) (100 * second)).2.2
        = (worldPair.heap a).expires - 100 * second := by
  decide

/-- C14, amended. When `StopIfIdleFor(d)` does not stop the pool, the duration
it returns is the greatest of zero and the durations to expiry `expires - now`
of the allocs of the roster; it is the maximum duration to expiry whenever some
alloc of the roster is not yet expired. -/
theorem stopIfIdleFor_duration (w : World) (d now : Int)
    (hns : (Pool.StopIfIdleFor w d now).2.1 = false) :
    0 ≤ (Pool.StopIfIdleFor w d now).2.2 ∧
    (∀ a ∈ w.ptrs, (w.heap a).expires - now ≤ (Pool.StopIfIdleFor w d now).2.2) ∧
    ((Pool.StopIfIdleFor w d now).2.2 = 0 ∨
      ∃ a ∈ w.ptrs, (Pool.StopIfIdleFor w d now).2.2 = (w.heap a).expires - now) ∧
    ((∃ a ∈ w.ptrs, now ≤ (w.heap a).expires) →
      ∃ a ∈ w.ptrs, (Pool.StopIfIdleFor w d now).2.2 = (w.heap a).expires - now) := by
  rcases stopIfIdleFor_outcome w d now with ⟨_, h⟩ | ⟨_, h⟩
  · rw [h] at hns
    exact absurd hns (by simp)
  · obtain ⟨h1, h2, h3⟩ :=
      idle_fold_snd d (w.ptrs.map fun a => (w.heap a).expiredBy now) (true, 0)
    rw [h]
    generalize ((w.ptrs.map fun a => (w.heap a).expiredBy now).foldl (idleStep d) (true, 0)).2
      = mx at h1 h2 h3
    have hle : ∀ a ∈ w.ptrs, (w.heap a).expires - now ≤ -mx := by
      intro a ha
      have := h2 _ (List.mem_map.2 ⟨a, ha, rfl⟩)
      unfold alloc.expiredBy at this
      linarith
    have hor : -mx = 0 ∨ ∃ a ∈ w.ptrs, -mx = (w.heap a).expires - now := by
      rcases h3 with h3 | h3
      · left
        have : mx = 0 := h3
        rw [this]; rfl
      · right
        obtain ⟨a, ha, hea⟩ := List.mem_map.1 h3
        refine ⟨a, ha, ?_⟩
        rw [← hea]
        unfold alloc.expiredBy
        ring
    refine ⟨?_, hle, hor, ?_⟩
    · show 0 ≤ -mx
      have : mx ≤ 0 := h1
      linarith
    · rintro ⟨a, ha, hnow⟩
      rcases hor with h0 | hex
      · refine ⟨a, ha, ?_⟩
        have := hle a ha
        show -mx = _
        rw [h0] at this ⊢
        linarith
      · exact hex

theorem stopIfIdleFor_duration_witness :
    (Pool.StopIfIdleFor worldPair (10 * second) (95 * second)).2 = (false, 2 * second) ∧
    (0 ≤ (Pool.StopIfIdleFor worldPair (10 * second) (95 * second)).2.2 ∧
      (∀ a ∈ worldPair.ptrs, (worldPair.heap a).expires - 95 * second
        ≤ (Pool.StopIfIdleFor worldPair (10 * second) (95 * second)).2.2) ∧
      ((Pool.StopIfIdleFor worldPair (10 * second) (95 * second)).2.2 = 0 ∨
        ∃ a ∈ worldPair.ptrs, (Pool.StopIfIdleFor worldPair (10 * second) (95 * second)).2.2
          = (worldPair.heap a).expires - 95 * second) ∧
      ((∃ a ∈ worldPair.ptrs, 95 * second ≤ (worldPair.heap a).expires) →
        ∃ a ∈ worldPair.ptrs, (Pool.StopIfIdleFor worldPair (10 * second) (95 * second)).2.2
          = (worldPair.heap a).expires - 95 * second)) :=
  ⟨by decide, stopIfIdleFor_duration worldPair (10 * second) (95 * second) (by decide)⟩

/-! ## The stopped flag is terminal -/

theorem stopIfIdleFor_stopped (w : World) (d now : Int) :
    (Pool.StopIfIdleFor w d now).1.pool.stopped = true ∨
    (Pool.StopIfIdleFor w d now).1 = w := by
  rcases stopIfIdleFor_outcome w d now with ⟨_, h⟩ | ⟨_, h⟩
  · left; rw [h]
  · right; rw [h]

theorem new_stopped (w : World) (env : NewEnv) (m : AllocMeta) (hs : w.pool.stopped = true) :
    Pool.new w env m = (w, .error .shuttingDown) := by
  simp [Pool.new, hs]

theorem offers_stopped_world (w : World) (now : Int) (stat : Option Nat)
    (hs : w.pool.stopped = true) : Pool.Offers w now stat = (w, []) := by
  simp [Pool.Offers, hs]

theorem offer_world (w : World) (now : Int) (stat : Option Nat) (id : String) :
    (Pool.Offer w now stat id).1 = (Pool.Offers w now stat).1 := by
  unfold Pool.Offer
  split
  · next w1 h => rw [h]
  · next w1 o os h => rw [h]; split <;> rfl

theorem keepalive_pool (w : World) (a : Nat) (now next : Int) :
    (alloc.Keepalive w a now next).1.pool = w.pool := by
  rcases keepalive_outcome w a now next with ⟨_, h⟩ | ⟨_, h⟩ <;> rw [h]

theorem free_stopped (w : World) (a : Nat) (create encode : Option Nat) :
    (alloc.Free w a create encode).1.pool.stopped = w.pool.stopped := by
  rcases free_outcome w a create encode with ⟨_, h⟩ | ⟨_, c, _, h⟩ | ⟨_, _, h⟩
  · rw [h, release_pool]
  · rw [h]
  · rw [h, release_pool]

theorem ReachableStopped.stopped {w : World} (h : ReachableStopped w) :
    w.pool.stopped = true := by
  induction h with
  | stop w d now h =>
    rcases stopIfIdleFor_outcome w d now with ⟨_, ho⟩ | ⟨_, ho⟩
    · rw [ho]
    · rw [ho] at h; exact absurd h (by simp)
  | offers w now stat _ ih => rw [offers_stopped_world w now stat ih]; exact ih
  | offer w now stat id _ ih =>
    rw [offer_world, offers_stopped_world w now stat ih]; exact ih
  | accept w env m _ ih => rw [new_stopped w env m ih]; exact ih
  | keepalive w a now next _ ih => rw [keepalive_pool]; exact ih
  | free w a create encode _ ih => rw [free_stopped]; exact ih
  | stopIfIdleFor w d now _ ih =>
    rcases stopIfIdleFor_stopped w d now with h | h
    · exact h
    · rw [h]; exact ih

/-- C15. In every state reached after `StopIfIdleFor` has returned true, under
any sequence of `Offers`, `Offer`, `Accept`, `Keepalive`, `Free` and
`StopIfIdleFor` calls, the stopped flag is set, `Offers` returns the empty list,
and `Accept` fails with the shutting-down error and changes nothing, the roster
included. -/
theorem stopped_is_terminal (w : World) (h : ReachableStopped w) :
    w.pool.stopped = true ∧
    (∀ now stat, (Pool.Offers w now stat).2 = []) ∧
    (∀ env m, (Pool.new w env m).2 = .error .shuttingDown ∧ (Pool.new w env m).1 = w ∧
      (Pool.new w env m).1.pool.allocs = w.pool.allocs) := by
  have hs := h.stopped
  refine ⟨hs, fun now stat => offers_stopped w now stat hs, fun env m => ?_⟩
  rw [new_stopped w env m hs]
  exact ⟨rfl, rfl, rfl⟩

theorem stopped_is_terminal_witness :
    (Pool.StopIfIdleFor worldLease (1 * second) (105 * second)).2 = (true, 0) ∧
    ((alloc.Keepalive (Pool.StopIfIdleFor worldLease (1 * second) (105 * second)).1 0
        (106 * second) (60 * second)).1.pool.stopped = true ∧
      (∀ now stat, (Pool.Offers (alloc.Keepalive
          (Pool.StopIfIdleFor worldLease (1 * second) (105 * second)).1 0
          (106 * second) (60 * second)).1 now stat).2 = []) ∧
      (∀ env m,
        (Pool.new (alloc.Keepalive
          (Pool.StopIfIdleFor worldLease (1 * second) (105 * second)).1 0
          (106 * second) (60 * second)).1 env m).2 = .error .shuttingDown ∧
        (Pool.new (alloc.Keepalive
          (Pool.StopIfIdleFor worldLease (1 * second) (105 * second)).1 0
          (106 * second) (60 * second)).1 env m).1
          = (alloc.Keepalive (Pool.StopIfIdleFor worldLease (1 * second) (105 * second)).1 0
            (106 * second) (60 * second)).1 ∧
        (Pool.new (alloc.Keepalive
          (Pool.StopIfIdleFor worldLease (1 * second) (105 * second)).1 0
          (106 * second) (60 * second)).1 env m).1.pool.allocs
          = (alloc.Keepalive (Pool.StopIfIdleFor worldLease (1 * second) (105 * second)).1 0
            (106 * second) (60 * second)).1.pool.allocs)) :=
  ⟨by decide,
    stopped_is_terminal _
      (ReachableStopped.keepalive _ 0 (106 * second) (60 * second)
        (ReachableStopped.stop worldLease (1 * second) (105 * second) (by decide)))⟩

/-! ## Restart recovery -/

/-- A successful `Pool.Start` is the recovery loop run on an empty roster. -/
theorem start_success (w : World) (env : StartEnv) (loaded : List (String × Resources))
    (infos : List DirEntry) (hl : env.loaded = .ok loaded) (hr : env.readdir = .ok infos)
    (hok : (Pool.Start w env).err = none) :
    ∃ w3 : World, Pool.Start w env = Pool.restoreLoop env.now infos w3 loaded [] ∧
      w3.pool.allocs = [] ∧ w3.kills = w.kills := by
  unfold Pool.Start at hok ⊢
  cases hi : env.info with
  | error e => rw [hi] at hok; simp at hok
  | ok mc =>
    obtain ⟨memTotal, ncpu⟩ := mc
    cases hf : env.features with
    | error e => rw [hi, hf] at hok; simp at hok
    | ok features =>
      cases hm : env.mkdir with
      | some e => rw [hi, hf, hm] at hok; simp at hok
      | none =>
        simp only [hi, hf, hm, hl, hr]
        exact ⟨_, rfl, rfl, rfl⟩

/-- C16, as stated, fails: with `a` listed and the directories `a`, `b` (each
with a `meta.json`) and `c` (without one), the executor of `b` is started
although `b` is not listed, and the unlisted directory `c` is not killed. -/
theorem start_orphans :
    (Pool.Start worldCold envRestart).err = none ∧
    (Pool.Start worldCold envRestart).world.pool.allocs = [("a", 0)] ∧
    idsOf (Pool.Start worldCold envRestart).world.heap (Pool.Start worldCold envRestart).started
      = ["a", "b"] ∧
    idsOf (Pool.Start worldCold envRestart).world.heap (Pool.Start worldCold envRestart).world.kills
      = ["b"] ∧
    ¬ ((∀ n ∈ idsOf (Pool.Start worldCold envRestart).world.heap
          (Pool.Start worldCold envRestart).started, (loadedRestart.lookup n).isSome = true) ∧
      (∀ e ∈ entriesRestart, e.isDir = true → (loadedRestart.lookup e.name).isSome = false →
        e.name ∈ idsOf (Pool.Start worldCold envRestart).world.heap
          (Pool.Start worldCold envRestart).world.kills)) := by
  decide!

/-- C16, amended. After a successful `Pool.Start` on a directory `allocs/`
whose entries have distinct names, the roster contains exactly the ids that are
both a directory with a readable `meta.json` and listed in the loaded
`state.json`, each mapped to an alloc with that id whose executor was started.
The executor of every directory with a readable `meta.json` is started, listed
or not, and those that are not listed are the allocs that are killed; they are
not registered. Directories without `meta.json` are skipped. -/
theorem start_restores (w : World) (env : StartEnv) (loaded : List (String × Resources))
    (infos : List DirEntry) (hl : env.loaded = .ok loaded) (hr : env.readdir = .ok infos)
    (hnd : (infos.map DirEntry.name).Nodup) (hok : (Pool.Start w env).err = none) :
    (∀ id, ((Pool.Start w env).world.pool.allocs.lookup id).isSome = true ↔
      id ∈ restorableNames infos ∧ (loaded.lookup id).isSome = true) ∧
    (∀ id a, (Pool.Start w env).world.pool.allocs.lookup id = some a →
      ((Pool.Start w env).world.heap a).id = id ∧ a ∈ (Pool.Start w env).started) ∧
    idsOf (Pool.Start w env).world.heap (Pool.Start w env).started = restorableNames infos ∧
    ∃ kl : List Nat, (Pool.Start w env).world.kills = w.kills ++ kl ∧
      idsOf (Pool.Start w env).world.heap kl
        = (restorableNames infos).filter (fun n => !(loaded.lookup n).isSome) := by
  obtain ⟨w3, hS, hempty, hkills⟩ := start_success w env loaded infos hl hr hok
  rw [hS] at hok ⊢
  obtain ⟨news, kl, h1, h2, h3, h4, _, _, h7, h8⟩ :=
    restoreLoop_spec env.now infos w3 loaded [] hok hnd
  have hnone : ∀ id, w3.pool.allocs.lookup id = none := by
    intro id; rw [hempty]; rfl
  have hiff : ∀ id, ((Pool.restoreLoop env.now infos w3 loaded []).world.pool.allocs.lookup
      id).isSome = true ↔ id ∈ restorableNames infos ∧ (loaded.lookup id).isSome = true := by
    intro id
    constructor
    · intro hs
      by_contra hn
      rw [h7 id hn, hnone] at hs
      simp at hs
    · rintro ⟨hm, hls⟩
      obtain ⟨a, _, hla, _⟩ := h8 id hm hls
      rw [hla]; rfl
  refine ⟨hiff, ?_, ?_, kl, ?_, h4⟩
  · intro id a hla
    have hs := (hiff id).1 (by rw [hla]; rfl)
    obtain ⟨b, hb, hlb, hidb⟩ := h8 id hs.1 hs.2
    rw [hla] at hlb
    injection hlb with hab
    subst hab
    refine ⟨hidb, ?_⟩
    rw [h1]
    simpa using hb
  · rw [h1]
    simpa using h3
  · rw [h2, hkills]

theorem start_restores_witness :
    (Pool.Start worldCold envRestart).world.pool.allocs = [("a", 0)] ∧
    restorableNames entriesRestart = ["a", "b"] ∧
    ((∀ id, ((Pool.Start worldCold envRestart).world.pool.allocs.lookup id).isSome = true ↔
        id ∈ restorableNames entriesRestart ∧ (loadedRestart.lookup id).isSome = true) ∧
      (∀ id a, (Pool.Start worldCold envRestart).world.pool.allocs.lookup id = some a →
        ((Pool.Start worldCold envRestart).world.heap a).id = id ∧
          a ∈ (Pool.Start worldCold envRestart).started) ∧
      idsOf (Pool.Start worldCold envRestart).world.heap
          (Pool.Start worldCold envRestart).started = restorableNames entriesRestart ∧
      ∃ kl : List Nat, (Pool.Start worldCold envRestart).world.kills = worldCold.kills ++ kl ∧
        idsOf (Pool.Start worldCold envRestart).world.heap kl
          = (restorableNames entriesRestart).filter
              (fun n => !(loadedRestart.lookup n).isSome)) :=
  ⟨by decide!, by decide,
    start_restores worldCold envRestart loadedRestart entriesRestart rfl rfl (by decide)
      (by decide!)⟩

/-! ## Requirements -/

theorem Resources.get_Max (x y : Resources) (k : String) :
    (Resources.Max x y).get k = max (x.get k) (y.get k) := by
  unfold Resources.Max
  show (List.lookup k _).getD 0 = _
  rw [Resources.lookup_map_keys]
  by_cases h : k ∈ (x.keys ++ y.keys).dedup
  · simp [h]
  · rw [if_neg h]
    rw [List.mem_dedup, List.mem_append, not_or] at h
    rw [Resources.get_eq_zero_of_not_mem x k h.1, Resources.get_eq_zero_of_not_mem y k h.2]
    simp

theorem Resources.get_Scale (x : Resources) (factor : ℚ) (k : String) :
    (Resources.Scale x factor).get k = x.get k * factor := by
  unfold Resources.Scale Resources.get
  induction x with
  | nil => simp
  | cons e x ih =>
    obtain ⟨ek, ev⟩ := e
    by_cases h : k = ek
    · subst h; simp [List.lookup_cons]
    · have : (k == ek) = false := by simpa using h
      simpa [List.lookup_cons, this] using ih

theorem requirements_get_Max (req : Requirements) (k : String) :
    req.Max.get k = req.Min.get k * (1 + req.Width) :=
  Resources.get_Scale req.Min (1 + req.Width) k

theorem Resources.get_of_isZero (x : Resources) (h : x.isZero = true) (k : String) :
    x.get k = 0 := by
  by_cases hk : k ∈ x.keys
  · have := (List.all_eq_true.1 h) k hk
    simpa using this
  · exact Resources.get_eq_zero_of_not_mem x k hk

/-- Some choice of widths meets every assertion of `TestRequirements`: the
width that is one more than before. -/
theorem requirements_test : passesTestRequirements growByOne := by
  have h1 : (reqTest.AddParallel growByOne parTest).Min
      = [("mem", 20), ("cpu", 5), ("disk", 5)] := by decide!
  have h2 : (reqTest.AddParallel growByOne parTest).Max
      = [("mem", 40), ("cpu", 10), ("disk", 10)] := by decide!
  have h3 : (reqSecond growByOne).Min = [("mem", 5), ("cpu", 2)] := by decide!
  have h4 : (reqSecond growByOne).Max = [("mem", 10), ("cpu", 4)] := by decide!
  have h5 : ((reqSecond growByOne).AddParallel growByOne parLast).Min
      = [("mem", 10), ("cpu", 4)] := by decide!
  have h6 : ((reqSecond growByOne).AddParallel growByOne parLast).Max
      = [("mem", 30), ("cpu", 12)] := by decide!
  exact ⟨fun k => by rw [h1], fun k => by rw [h2], fun k => by rw [h3], fun k => by rw [h4],
    fun k => by rw [h5], fun k => by rw [h6]⟩

/-- C17, as stated, fails on the input of the test, whatever width `AddParallel`
chooses: with `Min = Max() = {mem:20, cpu:5, disk:5}` and
`r = {mem:10, cpu:5, disk:1}` the old `Max()` plus `r` is
`{mem:30, cpu:10, disk:6}`, which no width makes of `min = {mem:20, cpu:5, disk:5}`.
And no choice of widths that meets the assertions of `TestRequirements` makes
`Max()` grow by `r` in its last `AddParallel`, where the test asserts
`{mem:30, cpu:12}` and the old `Max()` plus `r` is `{mem:20, cpu:8}`. -/
theorem addParallel_not_by_r :
    Resources.Add reqTest.Max parTest = [("mem", 30), ("cpu", 10), ("disk", 6)] ∧
    (¬ ∃ grow : Requirements → Resources → ℚ, ∀ k ∈ ["mem", "cpu", "disk"],
      (reqTest.AddParallel grow parTest).Max.get k
        = (Resources.Add reqTest.Max parTest).get k) ∧
    (¬ ∃ grow : Requirements → Resources → ℚ, passesTestRequirements grow ∧
      ∀ k ∈ ["mem", "cpu"],
        ((reqSecond grow).AddParallel grow parLast).Max.get k
          = (Resources.Add (reqSecond grow).Max parLast).get k) := by
  refine ⟨by decide!, ?_, ?_⟩
  · rintro ⟨grow, h⟩
    have hz : reqTest.Min.isZero = false := by decide!
    have hd : reqTest.AddParallel grow parTest
        = { Min := Resources.Max reqTest.Min parTest, Width := grow reqTest parTest } := by
      simp [Requirements.AddParallel, hz]
    have h1 := h "mem" (by simp)
    have h2 := h "cpu" (by simp)
    rw [hd, requirements_get_Max] at h1 h2
    have e1 : (Resources.Max reqTest.Min parTest).get "mem" = 20 := by decide!
    have e2 : (Resources.Add reqTest.Max parTest).get "mem" = 30 := by decide!
    have e3 : (Resources.Max reqTest.Min parTest).get "cpu" = 5 := by decide!
    have e4 : (Resources.Add reqTest.Max parTest).get "cpu" = 10 := by decide!
    simp only [e1, e2, e3, e4] at h1 h2
    linarith
  · rintro ⟨grow, hp, h⟩
    obtain ⟨_, _, _, h4, _, h6⟩ := hp
    have h1 := h "mem" (by simp)
    rw [h6 "mem", Resources.get_Add, h4 "mem"] at h1
    have e1 : Resources.get [("mem", 30), ("cpu", 12)] "mem" = 30 := by decide!
    have e2 : Resources.get [("mem", 10), ("cpu", 4)] "mem" = 10 := by decide!
    have e3 : parLast.get "mem" = 10 := by decide!
    rw [e1, e2, e3] at h1
    linarith

/-- C17, amended. When `min` is zero, `AddParallel(r)` sets `min ← r` and
`width ← 0`, so the new `Max()` is `r`, which is the old `Max()` plus `r`
componentwise, whatever the width was. When `min` is not zero it sets
`min ← max(min, r)`, and its `Max()` is that `min` times one plus the width it
chooses. -/
theorem addParallel_first (grow : Requirements → Resources → ℚ) (req : Requirements)
    (r : Resources) (k : String) :
    (req.Min.isZero = true →
      (req.AddParallel grow r).Max.get k = req.Max.get k + r.get k ∧
      (req.AddParallel grow r).Max.get k = r.get k ∧
      (req.AddParallel grow r).Min = r ∧ (req.AddParallel grow r).Width = 0) ∧
    (req.Min.isZero = false →
      (req.AddParallel grow r).Min.get k = max (req.Min.get k) (r.get k) ∧
      (req.AddParallel grow r).Max.get k
        = max (req.Min.get k) (r.get k) * (1 + (req.AddParallel grow r).Width)) := by
  constructor
  · intro hz
    have hd : req.AddParallel grow r = { Min := r, Width := 0 } := by
      simp [Requirements.AddParallel, hz]
    have hnew : (req.AddParallel grow r).Max.get k = r.get k := by
      rw [hd, requirements_get_Max]
      show r.get k * (1 + 0) = r.get k
      ring
    refine ⟨?_, hnew, by rw [hd], by rw [hd]⟩
    rw [hnew, requirements_get_Max, Resources.get_of_isZero req.Min hz k]
    ring
  · intro hz
    have hd : req.AddParallel grow r
        = { Min := Resources.Max req.Min r, Width := grow req r } := by
      simp [Requirements.AddParallel, hz]
    rw [hd]
    exact ⟨Resources.get_Max _ _ k, by rw [requirements_get_Max, Resources.get_Max]⟩

theorem addParallel_first_witness :
    reqZero.Min.isZero = true ∧ reqZero.Max.get "mem" = 0 ∧
    ((reqZero.AddParallel growByOne [("mem", 5)]).Max.get "mem"
        = reqZero.Max.get "mem" + Resources.get [("mem", 5)] "mem" ∧
      (reqZero.AddParallel growByOne [("mem", 5)]).Max.get "mem"
        = Resources.get [("mem", 5)] "mem" ∧
      (reqZero.AddParallel growByOne [("mem", 5)]).Min = [("mem", 5)] ∧
      (reqZero.AddParallel growByOne [("mem", 5)]).Width = 0) :=
  ⟨by decide!, by decide!,
    (addParallel_first growByOne reqZero [("mem", 5)] "mem").1 (by decide!)⟩

/-! ## The aligned end of a section -/

/-- C18, the code at the failing input: for a section with `Addralign = 0`
that ends at offset 4352, `sectionEndAligned` returns 0, and the `lastOffset`
of a file with that section is 0, below the end of the section. -/
theorem sectionEndAligned_zero_align :
    sectionUnaligned.Offset + sectionUnaligned.FileSize = 4352 ∧
    sectionEndAligned sectionUnaligned = 0 ∧
    lastOffset [sectionUnaligned] = 0 := by
  decide

/-- Whatever the section, `sectionEndAligned` returns 0 when `Addralign` is 0. -/
theorem sectionEndAligned_align_zero (s : Section) (h : s.Addralign = 0) :
    sectionEndAligned s = 0 := by
  unfold sectionEndAligned
  rw [h]
  simp

theorem and_neg_two_pow (y j : Nat) (hj : j ≤ 64) (hy : y < 2 ^ 64) :
    y &&& (2 ^ 64 - 2 ^ j) = 2 ^ j * (y / 2 ^ j) := by
  have hmask : 2 ^ 64 - 2 ^ j = 2 ^ j * (2 ^ (64 - j) - 1) := by
    rw [Nat.mul_sub, Nat.mul_one, ← Nat.pow_add, Nat.add_sub_cancel' hj]
  apply Nat.eq_of_testBit_eq
  intro i
  rw [Nat.testBit_and, hmask, Nat.testBit_mul_pow_two, Nat.testBit_mul_pow_two,
    Nat.testBit_two_pow_sub_one, ← Nat.shiftRight_eq_div_pow, Nat.testBit_shiftRight]
  by_cases hij : j ≤ i
  · have hadd : j + (i - j) = i := Nat.add_sub_cancel' hij
    rw [hadd]
    by_cases hi : i < 64
    · have : i - j < 64 - j := by omega
      simp [hij, this]
    · have hlt : y < 2 ^ i :=
        lt_of_lt_of_le hy (Nat.pow_le_pow_right (by decide) (not_lt.1 hi))
      simp [Nat.testBit_lt_two_pow hlt]
  · simp [hij]

/-- Where the code is right: for an alignment that is a power of two and no
overflow, `sectionEndAligned` returns the least multiple of `Addralign` that is
at least `Offset + FileSize`. -/
theorem sectionEndAligned_pow_two (s : Section) (j : Nat) (ha : s.Addralign = 2 ^ j)
    (hov : s.Offset + s.FileSize + s.Addralign < 2 ^ 64) :
    sectionEndAligned s % s.Addralign = 0 ∧
    s.Offset + s.FileSize ≤ sectionEndAligned s ∧
    sectionEndAligned s < s.Offset + s.FileSize + s.Addralign := by
  have hpos : 0 < 2 ^ j := Nat.two_pow_pos j
  have hj : j ≤ 64 := by
    by_contra hgt
    have : 2 ^ 64 ≤ 2 ^ j := Nat.pow_le_pow_right (by decide) (by omega)
    omega
  have hval : sectionEndAligned s
      = 2 ^ j * ((s.Offset + s.FileSize + 2 ^ j - 1) / 2 ^ j) := by
    unfold sectionEndAligned
    rw [ha]
    have h1 : (s.Offset + s.FileSize) % 2 ^ 64 = s.Offset + s.FileSize :=
      Nat.mod_eq_of_lt (by omega)
    have h2 : (2 ^ j + 2 ^ 64 - 1) % 2 ^ 64 = 2 ^ j - 1 := by
      have : 2 ^ j + 2 ^ 64 - 1 = (2 ^ j - 1) + 2 ^ 64 := by omega
      rw [this, Nat.add_mod_right]
      exact Nat.mod_eq_of_lt (by omega)
    have h3 : (s.Offset + s.FileSize + (2 ^ j - 1)) % 2 ^ 64
        = s.Offset + s.FileSize + 2 ^ j - 1 := by
      rw [Nat.mod_eq_of_lt (by omega)]
      omega
    have h4 : (2 ^ 64 - 2 ^ j) % 2 ^ 64 = 2 ^ 64 - 2 ^ j := Nat.mod_eq_of_lt (by omega)
    rw [h1, h2, h3, h4]
    exact and_neg_two_pow _ j hj (by omega)
  rw [hval, ha]
  have hdm := Nat.div_add_mod (s.Offset + s.FileSize + 2 ^ j - 1) (2 ^ j)
  have hml := Nat.mod_lt (s.Offset + s.FileSize + 2 ^ j - 1) hpos
  refine ⟨Nat.mul_mod_right _ _, ?_, ?_⟩
  · omega
  · omega

theorem lastOffsetLoop_ge (sections : List Section) :
    ∀ acc : Nat, acc ≤ lastOffsetLoop sections acc ∧
      ∀ s ∈ sections, s.Typ ≠ SHT_NOBITS → sectionEndAligned s ≤ lastOffsetLoop sections acc := by
  induction sections with
  | nil => intro acc; simp [lastOffsetLoop]
  | cons s rest ih =>
    intro acc
    by_cases hn : s.Typ = SHT_NOBITS
    · have hR : lastOffsetLoop (s :: rest) acc = lastOffsetLoop rest acc := by
        simp [lastOffsetLoop, hn]
      rw [hR]
      refine ⟨(ih acc).1, ?_⟩
      intro t ht htn
      rcases List.mem_cons.1 ht with rfl | ht
      · exact absurd hn htn
      · exact (ih acc).2 t ht htn
    · by_cases h0 : acc = 0
      · have hR : lastOffsetLoop (s :: rest) acc = lastOffsetLoop rest (sectionEndAligned s) := by
          simp [lastOffsetLoop, hn, h0]
        rw [hR]
        refine ⟨by rw [h0]; exact Nat.zero_le _, ?_⟩
        intro t ht htn
        rcases List.mem_cons.1 ht with rfl | ht
        · exact (ih _).1
        · exact (ih _).2 t ht htn
      · by_cases hgt : sectionEndAligned s > acc
        · have hR : lastOffsetLoop (s :: rest) acc
              = lastOffsetLoop rest (sectionEndAligned s) := by
            simp [lastOffsetLoop, hn, h0, hgt]
          rw [hR]
          refine ⟨le_trans (le_of_lt hgt) (ih _).1, ?_⟩
          intro t ht htn
          rcases List.mem_cons.1 ht with rfl | ht
          · exact (ih _).1
          · exact (ih _).2 t ht htn
        · have hR : lastOffsetLoop (s :: rest) acc = lastOffsetLoop rest acc := by
            simp [lastOffsetLoop, hn, h0, hgt]
          rw [hR]
          refine ⟨(ih acc).1, ?_⟩
          intro t ht htn
          rcases List.mem_cons.1 ht with rfl | ht
          · exact le_trans (not_lt.1 hgt) (ih acc).1
          · exact (ih acc).2 t ht htn

/-- Where the code is right: when every section that occupies space in the file
has an alignment that is a power of two and does not overflow, `lastOffset` is
not smaller than the end of any such section. -/
theorem lastOffset_ge_end (sections : List Section)
    (h : ∀ s ∈ sections, s.Typ ≠ SHT_NOBITS →
      (∃ j, s.Addralign = 2 ^ j) ∧ s.Offset + s.FileSize + s.Addralign < 2 ^ 64) :
    ∀ s ∈ sections, s.Typ ≠ SHT_NOBITS → s.Offset + s.FileSize ≤ lastOffset sections := by
  intro s hs hn
  obtain ⟨⟨j, hj⟩, hov⟩ := h s hs hn
  exact le_trans (sectionEndAligned_pow_two s j hj hov).2.1
    ((lastOffsetLoop_ge sections 0).2 s hs hn)

end Reflow
